import Mathlib

/-!
# uUV: the epoll-backed event loop of `src/uUV.cpp`

A shallow embedding of the loop's data model and operations, followed by the
properties established about them.

Conventions of the embedding.

* A handle is identified by its address, a natural number; the record a handle
  points to lives in `World.handles`.
* A callback (a C function pointer) is identified by a natural number. What a
  callback does when the loop invokes it is user code: it is given by an
  environment `Env`, which maps an invocation (and the state it observes on
  entry) to the sequence of API calls the callback performs.
* Time points are `system_clock` tick counts (`Int`). The number of ticks in one
  millisecond depends on the standard library and is the parameter `tpm`
  (1000000 for a nanosecond clock).
* Results of system calls (`fcntl`, `epoll_ctl`, `epoll_wait`, the clock) are
  inputs of the operations that perform them.
* All handles live on the one loop of the `World`; `get_loop()` resolves to it.
* `World.log` is instrumentation: it records every callback invocation in order.
-/

namespace uUV

/-- Address of a user-allocated handle. -/
abbrev Handle := Nat

/-- Identity of a callback (function pointer). -/
abbrev Cb := Nat

/-- Kind tag of a handle; `UV_UNKNOWN_HANDLE` is the tag before any init ran. -/
inductive uv_handle_type where
  | UV_UNKNOWN_HANDLE
  | UV_ASYNC
  | UV_IDLE
  | UV_POLL
  | UV_TIMER
  deriving DecidableEq, Repr

/-- The flag bits of a handle. The constants `UV_HANDLE_RUNNING`,
`UV_HANDLE_CLOSING` and `UV_HANDLE_CLOSED` are three distinct bits of the
`flags` word; each field is one of these bits. -/
structure Flags where
  running : Bool := false
  closing : Bool := false
  closed : Bool := false
  deriving DecidableEq, Repr

/-- The record behind a handle pointer: the common base (`type`, `flags`,
`loopIndex`) and the fields of the four kinds. -/
structure uv_handle_t where
  type : uv_handle_type := uv_handle_type.UV_UNKNOWN_HANDLE
  flags : Flags := {}
  loopIndex : Nat := 0
  /-- poll: wrapped descriptor -/
  fd : Int := 0
  /-- poll: `event.events` -/
  events : Nat := 0
  /-- poll: slot in `poll_callbacks` -/
  cbIndex : Nat := 0
  /-- timer: absolute deadline in clock ticks -/
  timepoint : Int := 0
  /-- timer: `repeat` in milliseconds -/
  repeat_ : Int := 0
  /-- timer, idle, async: the callback -/
  cb : Cb := 0
  /-- async: the pending bit -/
  run : Bool := false
  deriving DecidableEq, Repr

/-- A set of handle pointers: a list without repetition. The order of the list
is the order in which the model visits the members. The idle set of the source
is a `std::unordered_set`, whose order of visit is unspecified; what depends on
that order is stated for every order (see `idle_phase_in`). -/
abbrev HSet := { l : List Handle // l.Nodup }

/-- The empty set. -/
def HSet.empty : HSet := ⟨[], List.nodup_nil⟩

/-- The call `set.insert(x)`. A new member is put last in the model's order of
visit; the source does not fix the place. -/
def HSet.insert (s : HSet) (x : Handle) : HSet :=
  if h : x ∈ s.val then s
  else ⟨s.val ++ [x], by
    have hs := s.property
    rw [List.nodup_append]
    refine ⟨hs, List.nodup_singleton x, ?_⟩
    intro a ha hb
    simp at hb
    subst hb
    exact h ha⟩

/-- The call `set.erase(x)`. -/
def HSet.erase (s : HSet) (x : Handle) : HSet :=
  ⟨s.val.erase x, s.property.erase x⟩

/-- The loop record. `timers` is the vector of timers, front first, back last. -/
structure uv_loop_t where
  index : Nat := 0
  numEvents : Int := 0
  timepoint : Int := 0
  timers : List Handle := []
  asyncs : HSet := HSet.empty
  idlers : HSet := HSet.empty
  closing : List (Handle × Cb) := []
  /-- counter of the wakeup eventfd -/
  wakeups : Nat := 0

/-- One callback invocation made by the loop, with its arguments. -/
inductive Call where
  | poll_cb (cb : Cb) (poll : Handle) (status : Int) (events : Nat)
  | async_cb (cb : Cb) (async : Handle)
  | idle_cb (cb : Cb) (idle : Handle)
  | timer_cb (cb : Cb) (timer : Handle)
  | close_cb (cb : Cb) (handle : Handle)
  deriving DecidableEq, Repr

/-- The program state: the handle records, the loop, the process-wide table of
poll callbacks (`pollCbHead` is its length) and the invocation log. -/
structure World where
  handles : Handle → uv_handle_t := fun _ => {}
  loop : uv_loop_t := {}
  poll_callbacks : List Cb := []
  log : List Call := []

/-- An API call, as issued by user code. System-call results the call depends on
are carried as arguments (`getfl`, `setfl`: results of the two `fcntl` calls,
`ctl`: result of `epoll_ctl`, `now`: the clock reading). -/
inductive Op where
  | close (handle : Handle) (cb : Cb)
  | async_init (async : Handle) (cb : Cb)
  | async_send (async : Handle)
  | idle_init (idle : Handle)
  | idle_start (idle : Handle) (cb : Cb)
  | idle_stop (idle : Handle)
  | poll_init_socket (poll : Handle) (socket getfl setfl ctl : Int)
  | poll_start (poll : Handle) (events : Nat) (cb : Cb) (ctl : Int)
  | poll_stop (poll : Handle) (ctl : Int)
  | timer_init (timer : Handle) (now : Int)
  | timer_start (timer : Handle) (cb : Cb) (timeout repeat_ : Int)
  | timer_stop (timer : Handle)
  deriving DecidableEq, Repr

/-- User code: the API calls a callback performs, given the invocation and the
state on entry. -/
abbrev Env := Call → World → List Op

/-- Write through a handle pointer. -/
def World.setH (w : World) (h : Handle) (f : uv_handle_t → uv_handle_t) : World :=
  { w with handles := fun x => if x = h then f (w.handles h) else w.handles x }

/-- Write to the loop. -/
def World.setL (w : World) (f : uv_loop_t → uv_loop_t) : World :=
  { w with loop := f w.loop }

/-! ## Handle base -/

/-- `uv_close`. The `UV_ASYNC` case has no `break` and continues into the
`UV_POLL` case, whose store to `fd` is kept here on the `fd` field. -/
def uv_close (w : World) (handle : Handle) (cb : Cb) : World :=
  let w1 : World :=
    match (w.handles handle).type with
    | uv_handle_type.UV_ASYNC =>
      (w.setL fun l => { l with asyncs := l.asyncs.erase handle }).setH handle
        fun r => { r with fd := -1 }
    | uv_handle_type.UV_POLL => w.setH handle fun r => { r with fd := -1 }
    | _ => w
  let w2 := w1.setH handle fun r => { r with flags := { r.flags with closing := true } }
  w2.setL fun l => { l with closing := l.closing ++ [(handle, cb)] }

/-- `uv_is_closing`. -/
def uv_is_closing (w : World) (handle : Handle) : Bool :=
  (w.handles handle).flags.closing || (w.handles handle).flags.closed

/-! ## Async and idle handles -/

/-- `uv_async_init`. -/
def uv_async_init (w : World) (async : Handle) (cb : Cb) : World :=
  let w1 := w.setH async fun r =>
    { r with type := uv_handle_type.UV_ASYNC, loopIndex := w.loop.index, cb := cb }
  w1.setL fun l => { l with numEvents := l.numEvents + 1, asyncs := l.asyncs.insert async }

/-- `uv_async_send`: one write to the wakeup descriptor, then the pending bit. -/
def uv_async_send (w : World) (async : Handle) : World :=
  (w.setL fun l => { l with wakeups := l.wakeups + 1 }).setH async
    fun r => { r with run := true }

/-- `uv_idle_init`. -/
def uv_idle_init (w : World) (idle : Handle) : World :=
  (w.setH idle fun r =>
    { r with type := uv_handle_type.UV_IDLE, loopIndex := w.loop.index }).setL
    fun l => { l with numEvents := l.numEvents + 1 }

/-- `uv_idle_start`. -/
def uv_idle_start (w : World) (idle : Handle) (cb : Cb) : World :=
  (w.setH idle fun r => { r with cb := cb }).setL
    fun l => { l with idlers := l.idlers.insert idle }

/-- `uv_idle_stop`. -/
def uv_idle_stop (w : World) (idle : Handle) : World :=
  w.setL fun l => { l with idlers := l.idlers.erase idle }

/-! ## Poll handles -/

/-- The search loop of `uv_poll_start`: the first index `i < pollCbHead` with
`poll_callbacks[i] == cb`, or `pollCbHead` when there is none. -/
def findCb (cb : Cb) : List Cb → Nat
  | [] => 0
  | c :: cs => if c = cb then 0 else findCb cb cs + 1

/-- `uv_poll_init_socket`; returns the state and the result code. -/
def uv_poll_init_socket (w : World) (poll : Handle) (socket getfl setfl ctl : Int) :
    World × Int :=
  if getfl = -1 then (w, -1)
  else if setfl = -1 then (w, -1)
  else
    let w1 := w.setH poll fun r =>
      { r with type := uv_handle_type.UV_POLL, loopIndex := w.loop.index,
               fd := socket, events := 0 }
    (w1.setL fun l => { l with numEvents := l.numEvents + 1 }, ctl)

/-- `uv_poll_start`; returns the state and the result of `epoll_ctl`. -/
def uv_poll_start (w : World) (poll : Handle) (events : Nat) (cb : Cb) (ctl : Int) :
    World × Int :=
  let idx := findCb cb w.poll_callbacks
  let w1 := w.setH poll fun r =>
    { r with flags := { r.flags with running := true }, events := events, cbIndex := idx }
  let w2 : World :=
    if idx = w.poll_callbacks.length then
      { w1 with poll_callbacks := w.poll_callbacks ++ [cb] }
    else w1
  (w2, ctl)

/-- `uv_poll_stop`; returns the state and the result of `epoll_ctl`. -/
def uv_poll_stop (w : World) (poll : Handle) (ctl : Int) : World × Int :=
  (w.setH poll fun r => { r with flags := { r.flags with running := false } }, ctl)

/-! ## Timers -/

/-- `uv_timer_init`; `now` is the clock reading. -/
def uv_timer_init (w : World) (timer : Handle) (now : Int) : World :=
  (w.setH timer fun r =>
    { r with type := uv_handle_type.UV_TIMER, loopIndex := w.loop.index }).setL
    fun l => { l with numEvents := l.numEvents + 1, timepoint := now }

/-- The loop of `std::upper_bound` over positions `[first, first + len)` of `xs`:
`p e` is `comp(value, e)`. The first argument bounds the number of halvings. -/
def upper_bound_loop (p : Handle → Bool) (xs : List Handle) : Nat → Nat → Nat → Nat
  | 0, first, _ => first
  | fuel + 1, first, len =>
    if len = 0 then first
    else
      let half := len / 2
      let middle := first + half
      if p (xs.getD middle 0) then upper_bound_loop p xs fuel first half
      else upper_bound_loop p xs fuel (middle + 1) (len - half - 1)

/-- The position `std::upper_bound(xs.begin(), xs.end(), value, comp)` returns,
as an index into `xs`. -/
def upper_bound (p : Handle → Bool) (xs : List Handle) : Nat :=
  upper_bound_loop p xs xs.length 0 xs.length

/-- The call `vector::insert(begin() + i, x)`. -/
def vinsert (xs : List Handle) (i : Nat) (x : Handle) : List Handle :=
  xs.take i ++ x :: xs.drop i

/-- `uv_timer_enqueue`. The comparator passed to `upper_bound` is
`a->timepoint > b->timepoint`, with `a` the timer being inserted. -/
def uv_timer_enqueue (tpm : Int) (w : World) (timer : Handle) (timeout : Int) : World :=
  let w1 := w.setH timer fun r => { r with timepoint := w.loop.timepoint + timeout * tpm }
  if w1.loop.timers.length ≠ 0 ∧ timeout ≠ 0 then
    let pos := upper_bound
      (fun b => decide ((w1.handles timer).timepoint > (w1.handles b).timepoint))
      w1.loop.timers
    w1.setL fun l => { l with timers := vinsert l.timers pos timer }
  else
    w1.setL fun l => { l with timers := l.timers ++ [timer] }

/-- `uv_timer_start`. -/
def uv_timer_start (tpm : Int) (w : World) (timer : Handle) (cb : Cb)
    (timeout repeat_ : Int) : World :=
  let w1 := w.setH timer fun r =>
    { r with cb := cb, repeat_ := repeat_, flags := { r.flags with running := true } }
  uv_timer_enqueue tpm w1 timer timeout

/-- `uv_timer_stop`: the scan erases the first occurrence of `timer`. -/
def uv_timer_stop (w : World) (timer : Handle) : World :=
  (w.setH timer fun r => { r with flags := { r.flags with running := false } }).setL
    fun l => { l with timers := l.timers.erase timer }

/-- Run one API call. -/
def applyOp (tpm : Int) (w : World) : Op → World
  | Op.close h cb => uv_close w h cb
  | Op.async_init a cb => uv_async_init w a cb
  | Op.async_send a => uv_async_send w a
  | Op.idle_init i => uv_idle_init w i
  | Op.idle_start i cb => uv_idle_start w i cb
  | Op.idle_stop i => uv_idle_stop w i
  | Op.poll_init_socket p s g f c => (uv_poll_init_socket w p s g f c).1
  | Op.poll_start p e cb c => (uv_poll_start w p e cb c).1
  | Op.poll_stop p c => (uv_poll_stop w p c).1
  | Op.timer_init t now => uv_timer_init w t now
  | Op.timer_start t cb timeout r => uv_timer_start tpm w t cb timeout r
  | Op.timer_stop t => uv_timer_stop w t

/-- Run a sequence of API calls. -/
def runOps (tpm : Int) (w : World) (ops : List Op) : World :=
  ops.foldl (applyOp tpm) w

/-- The loop invokes a callback: the invocation is logged and the API calls of
the callback's body are run. -/
def invoke (env : Env) (tpm : Int) (w : World) (c : Call) : World :=
  let w1 : World := { w with log := w.log ++ [c] }
  runOps tpm w1 (env c w1)

/-! ## The loop driver -/

/-- One entry of the buffer `epoll_wait` fills: `data.ptr` (`none` is the null
pointer of the wakeup descriptor) and the event mask. -/
structure epoll_event where
  ptr : Option Handle
  events : Nat
  deriving DecidableEq, Repr

/-- The mask bit `EPOLLERR`. -/
def EPOLLERR : Nat := 8

/-- Conversion of a 64-bit count to `int`. -/
def toInt32 (x : Int) : Int :=
  (x + 2147483648) % 4294967296 - 2147483648

/-- The expression
`duration_cast<milliseconds>(timer->timepoint - loop->timepoint).count()`:
the tick difference, truncated towards zero to whole milliseconds. -/
def msUntil (tpm : Int) (w : World) (timer : Handle) : Int :=
  Int.tdiv ((w.handles timer).timepoint - w.loop.timepoint) tpm

/-- The statements of the loop over `closingCopy` that precede the callback:
`numEvents--`, clear `CLOSING`, set `CLOSED`. -/
def close_retire (w : World) (handle : Handle) : World :=
  let w1 := w.setL fun l => { l with numEvents := l.numEvents - 1 }
  let w2 := w1.setH handle fun r => { r with flags := { r.flags with closing := false } }
  w2.setH handle fun r => { r with flags := { r.flags with closed := true } }

/-- Body of the loop over `closingCopy`. -/
def close_step (env : Env) (tpm : Int) (w : World) (c : Handle × Cb) : World :=
  invoke env tpm (close_retire w c.1) (Call.close_cb c.2 c.1)

/-- The close phase of `uv_run`. -/
def close_phase (env : Env) (tpm : Int) (w : World) : World :=
  if w.loop.closing.length ≠ 0 then
    let closingCopy := w.loop.closing
    closingCopy.foldl (close_step env tpm) (w.setL fun l => { l with closing := [] })
  else w

/-- The wait phase of `uv_run` up to the call of `epoll_wait`: the state with
the refreshed timepoint and the `delay` passed to `epoll_wait`. -/
def wait_phase (tpm : Int) (w : World) (now : Int) : World × Int :=
  let w1 := w.setL fun l => { l with timepoint := now }
  let delay : Int :=
    if w1.loop.idlers.val.length ≠ 0 then 0
    else
      match w1.loop.timers.getLast? with
      | some back => max (toInt32 (msUntil tpm w1 back)) 0
      | none => -1
  (w1, delay)

/-- Body of the loop over `readyEvents`. -/
def poll_step (env : Env) (tpm : Int) (w : World) (e : epoll_event) : World :=
  match e.ptr with
  | some poll =>
    let status : Int := if e.events &&& EPOLLERR ≠ 0 then -1 else 0
    invoke env tpm w
      (Call.poll_cb (w.poll_callbacks.getD (w.handles poll).cbIndex 0) poll status e.events)
  | none => w.setL fun l => { l with wakeups := l.wakeups - 1 }

/-- The poll phase of `uv_run`; `ready` is what `epoll_wait` returned. -/
def poll_phase (env : Env) (tpm : Int) (w : World) (ready : List epoll_event) : World :=
  ready.foldl (poll_step env tpm) w

/-- The first loop of the async phase: collect the asyncs whose pending bit is
set, clearing the bit. -/
def async_collect (w : World) (asyncs : List Handle) : World × List Handle :=
  asyncs.foldl
    (fun (acc : World × List Handle) a =>
      if (acc.1.handles a).run then
        (acc.1.setH a fun r => { r with run := false }, acc.2 ++ [a])
      else acc)
    (w, [])

/-- Body of the loop over `readyAsyncs`. -/
def async_step (env : Env) (tpm : Int) (w : World) (a : Handle) : World :=
  invoke env tpm w (Call.async_cb (w.handles a).cb a)

/-- The async phase of `uv_run`. -/
def async_phase (env : Env) (tpm : Int) (w : World) : World :=
  if w.loop.asyncs.val.length ≠ 0 then
    let r := async_collect w w.loop.asyncs.val
    r.2.foldl (async_step env tpm) r.1
  else w

/-- Body of the loop over `readyIdlers`. -/
def idle_step (env : Env) (tpm : Int) (w : World) (i : Handle) : World :=
  invoke env tpm w (Call.idle_cb (w.handles i).cb i)

/-- The idle phase of `uv_run`. -/
def idle_phase (env : Env) (tpm : Int) (w : World) : World :=
  if w.loop.idlers.val.length ≠ 0 then
    let readyIdlers := w.loop.idlers.val
    readyIdlers.foldl (idle_step env tpm) w
  else w

/-- The `while` loop of the timer phase: while the queue is non-empty and its
back is due, move the back to `readyTimers`. Returns the remaining queue and
`readyTimers`. The first argument bounds the number of rounds; the length of
the queue is enough. -/
def collect_ready (due : Handle → Bool) :
    Nat → List Handle → List Handle → List Handle × List Handle
  | 0, timers, readyTimers => (timers, readyTimers)
  | fuel + 1, timers, readyTimers =>
    match timers.getLast? with
    | none => (timers, readyTimers)
    | some back =>
      if due back then collect_ready due fuel timers.dropLast (readyTimers ++ [back])
      else (timers, readyTimers)

/-- Body of the loop over `readyTimers`. -/
def fire_timer (env : Env) (tpm : Int) (w : World) (timer : Handle) : World :=
  if (w.handles timer).flags.running then
    let w1 := invoke env tpm w (Call.timer_cb (w.handles timer).cb timer)
    if (w1.handles timer).repeat_ ≠ 0 ∧ (w1.handles timer).flags.running = true then
      uv_timer_enqueue tpm w1 timer (w1.handles timer).repeat_
    else w1
  else w

/-- The state of the timer phase after the `while` loop: refreshed timepoint,
due timers removed from the queue; and the snapshot `readyTimers`. -/
def timer_snapshot (tpm : Int) (w : World) (now : Int) : World × List Handle :=
  let w1 := w.setL fun l => { l with timepoint := now }
  let r := collect_ready (fun t => decide (msUntil tpm w1 t ≤ 0))
    w1.loop.timers.length w1.loop.timers []
  (w1.setL fun l => { l with timers := r.1 }, r.2)

/-- The timer phase of `uv_run`; `now` is the clock reading. -/
def timer_phase (env : Env) (tpm : Int) (w : World) (now : Int) : World :=
  if w.loop.timers.length ≠ 0 then
    let s := timer_snapshot tpm w now
    s.2.foldl (fire_timer env tpm) s.1
  else w

/-- What one iteration of `uv_run` reads from the system: the clock at the wait
phase, the events `epoll_wait` returned, the clock at the timer phase. -/
structure IterInput where
  nowWait : Int
  ready : List epoll_event
  nowTimer : Int

/-- One iteration of the `while` loop of `uv_run`. -/
def uv_run_iter (env : Env) (tpm : Int) (w : World) (inp : IterInput) : World :=
  let w1 := close_phase env tpm w
  let w2 := (wait_phase tpm w1 inp.nowWait).1
  let w3 := poll_phase env tpm w2 inp.ready
  let w4 := async_phase env tpm w3
  let w5 := idle_phase env tpm w4
  timer_phase env tpm w5 inp.nowTimer

/-- The `while` loop of `uv_run`: the first argument is the number of iterations
left before the cap, the second is `loopIter`. -/
def uv_run_loop (env : Env) (tpm : Int) (inputs : Nat → IterInput) :
    Nat → Nat → World → World
  | 0, _, w => w
  | left + 1, loopIter, w =>
    if w.loop.numEvents ≠ 0 then
      uv_run_loop env tpm inputs left (loopIter + 1) (uv_run_iter env tpm w (inputs loopIter))
    else w

/-- `uv_run`; `now` is the clock reading on entry. -/
def uv_run (env : Env) (tpm : Int) (w : World) (now : Int) (inputs : Nat → IterInput) :
    World :=
  uv_run_loop env tpm inputs 1000000 0 (w.setL fun l => { l with timepoint := now })

/-! ## Predicates used in the statements -/

/-- The timer queue is sorted by deadline, descending (latest at the front). -/
def TimersSorted (w : World) : Prop :=
  w.loop.timers.Pairwise fun a b => (w.handles a).timepoint ≥ (w.handles b).timepoint

instance (w : World) : Decidable (TimersSorted w) := by
  unfold TimersSorted; infer_instance

/-! ## Concrete states used as inputs -/

/-- A loop whose queue holds timer 1 with deadline 5 ms while the loop timepoint
is 10 ms (nanosecond ticks): the state after `uv_timer_init`, `uv_timer_start`
with timeout 5 for timer 1 at time 0, and `uv_timer_init` for timer 2 at time
10 ms. -/
def staleQueue : World :=
  uv_timer_init (uv_timer_start 1000000 (uv_timer_init {} 1 0) 1 7 5 0) 2 10000000

/-- User code in which every timer callback closes its own timer (close
callback 9) and no other callback does anything. -/
def selfClosingEnv : Env := fun c _ =>
  match c with
  | Call.timer_cb _ t => [Op.close t 9]
  | _ => []

/-- Timer 1, started at time 0 with timeout 1 ms and repeat 5 ms (callback 7),
after the `while` loop of a timer phase at time 2 ms has moved it to the
snapshot. -/
def poppedRepeater : World :=
  (timer_snapshot 1000000 (uv_timer_start 1000000 (uv_timer_init {} 1 0) 1 7 1 5) 2000000).1

/-- The handle a callback invocation is made for. -/
def Call.handle : Call → Handle
  | Call.poll_cb _ p _ _ => p
  | Call.async_cb _ a => a
  | Call.idle_cb _ i => i
  | Call.timer_cb _ t => t
  | Call.close_cb _ h => h

/-- User code in which the poll callback, when invoked for poll 1, closes polls
1 and 2 (close callback 9); no other invocation does anything. -/
def closeBothEnv : Env := fun c _ =>
  match c with
  | Call.poll_cb _ p _ _ => if p = 1 then [Op.close 1 9, Op.close 2 9] else []
  | _ => []

/-- Polls 1 and 2 on descriptors 10 and 11, both started for events mask 1
(`EPOLLIN`) with callback 7; all system calls succeeded. -/
def twoPolls : World :=
  (uv_poll_start
    (uv_poll_start
      (uv_poll_init_socket (uv_poll_init_socket {} 1 10 0 0 0).1 2 11 0 0 0).1
      1 1 7 0).1
    2 1 7 0).1

/-- Timer 1 started (timeout 5 ms, no repeat) and then closed, without a stop in
between. -/
def closedStartedTimer : World :=
  uv_close (uv_timer_start 1000000 (uv_timer_init {} 1 0) 1 7 5 0) 1 9

/-- Idle 3 started and then closed, without a stop in between. -/
def closedStartedIdle : World :=
  uv_close (uv_idle_start (uv_idle_init {} 3) 3 7) 3 9

/-- An async handle 4 after `uv_async_init` with callback 7. -/
def oneAsync : World := uv_async_init {} 4 7

/-- The close requests an API call makes: `uv_close(h, cb)` makes one. -/
def Op.closes : Op → List (Handle × Cb)
  | Op.close h cb => [(h, cb)]
  | _ => []

/-- Idle 3 after `uv_idle_init` and `uv_idle_start` with callback 7. -/
def startedIdle : World := uv_idle_start (uv_idle_init {} 3) 3 7

/-- User code whose callbacks make no API call. -/
def quietEnv : Env := fun _ _ => []

/-- One-shot timer 1 (timeout 1 ms, repeat 0, callback 7) started at time 0. -/
def oneShot : World := uv_timer_start 1000000 (uv_timer_init {} 1 0) 1 7 1 0

/-- Whether an invocation is a close callback for handle `h`. -/
def Call.isCloseOf (h : Handle) : Call → Bool
  | Call.close_cb _ x => decide (x = h)
  | _ => false

/-- The close callbacks invoked for handle `h`, in order. -/
def closeCalls (h : Handle) (log : List Call) : List Call :=
  log.filter (Call.isCloseOf h)

/-- User code never calls `uv_close` on `h`. -/
def NeverCloses (env : Env) (h : Handle) : Prop :=
  ∀ (c : Call) (w : World), ∀ op ∈ env c w, h ∉ op.closes.map Prod.fst

/-- Relation between a state and a later one: `h` has not been queued for close
if it was not queued, `uv_is_closing(h)` is still true if it was, and no close
callback was invoked for `h` in between. -/
def CloseQuiet (h : Handle) (w w2 : World) : Prop :=
  (h ∉ w.loop.closing.map Prod.fst → h ∉ w2.loop.closing.map Prod.fst) ∧
  (uv_is_closing w h = true → uv_is_closing w2 h = true) ∧
  closeCalls h w2.log = closeCalls h w.log

/-- User code in which the close callback 9, invoked for handle 1, closes
handle 2 (close callback 9) if handle 2 is not yet closing; nothing else makes
an API call. -/
def chainCloseEnv : Env := fun c w =>
  match c with
  | Call.close_cb _ x =>
    if x = 1 ∧ uv_is_closing w 2 = false then [Op.close 2 9] else []
  | _ => []

/-- Timers 1 and 2 initialised at time 0; `uv_close` was then called on timer 1
with close callback 9. -/
def pendingClose : World :=
  uv_close (uv_timer_init (uv_timer_init {} 1 0) 2 0) 1 9

/-- The handle an API call initialises, if any. `uv_poll_init_socket` returns
before touching the handle when one of the two `fcntl` calls fails. -/
def Op.inits : Op → Option Handle
  | Op.async_init a _ => some a
  | Op.idle_init i => some i
  | Op.timer_init t _ => some t
  | Op.poll_init_socket p _ getfl setfl _ => if getfl = -1 ∨ setfl = -1 then none else some p
  | _ => none

/-- Init has run for `h` and the close callback of `h` has not fired yet. -/
def liveHandle (w : World) (h : Handle) : Bool :=
  decide ((w.handles h).type ≠ uv_handle_type.UV_UNKNOWN_HANDLE) && !(w.handles h).flags.closed

/-- Usage discipline of an API call in a state: an init is applied to a handle
that was not initialised before, and `uv_close` to a handle that is
initialised and on which `uv_close` was not called before. -/
def Allowed (w : World) (op : Op) : Prop :=
  (∀ h, op.inits = some h → (w.handles h).type = uv_handle_type.UV_UNKNOWN_HANDLE) ∧
  (∀ c ∈ op.closes,
    (w.handles c.1).type ≠ uv_handle_type.UV_UNKNOWN_HANDLE ∧ uv_is_closing w c.1 = false)

/-- Every call of a sequence is allowed in the state it is made in. -/
def OpsAllowed (tpm : Int) : World → List Op → Prop
  | _, [] => True
  | w, op :: rest => Allowed w op ∧ OpsAllowed tpm (applyOp tpm w op) rest

/-- User code keeps to the usage discipline in every callback. -/
def Disciplined (env : Env) (tpm : Int) : Prop :=
  ∀ (c : Call) (w : World), OpsAllowed tpm w (env c w)

/-- States reached from the initial state by allowed API calls and the phases
of `uv_run`, with any clock readings and any ready events. -/
inductive Reachable (env : Env) (tpm : Int) : World → Prop where
  | start : Reachable env tpm {}
  | api (w : World) (op : Op) : Reachable env tpm w → Allowed w op →
      Reachable env tpm (applyOp tpm w op)
  | close (w : World) : Reachable env tpm w → Reachable env tpm (close_phase env tpm w)
  | wait (w : World) (now : Int) : Reachable env tpm w →
      Reachable env tpm (wait_phase tpm w now).1
  | poll (w : World) (ready : List epoll_event) : Reachable env tpm w →
      Reachable env tpm (poll_phase env tpm w ready)
  | async (w : World) : Reachable env tpm w → Reachable env tpm (async_phase env tpm w)
  | idle (w : World) : Reachable env tpm w → Reachable env tpm (idle_phase env tpm w)
  | timer (w : World) (now : Int) : Reachable env tpm w →
      Reachable env tpm (timer_phase env tpm w now)

/-- Invariant behind the count of live handles. `rem` lists the handles of the
close phase's copy that are still to be retired (empty outside a close phase). -/
structure CountInv (w : World) (rem : List Handle) : Prop where
  count : ∃ S : List Handle, S.Nodup ∧ (∀ h, h ∈ S ↔ liveHandle w h = true) ∧
    w.loop.numEvents = S.length
  fresh : ∀ h, (w.handles h).type = uv_handle_type.UV_UNKNOWN_HANDLE →
    (w.handles h).flags.closing = false ∧ (w.handles h).flags.closed = false
  closing_live : ∀ h, (w.handles h).flags.closing = true → liveHandle w h = true
  pend_nodup : (rem ++ w.loop.closing.map Prod.fst).Nodup
  pend_closing : ∀ h ∈ rem ++ w.loop.closing.map Prod.fst, (w.handles h).flags.closing = true

/-- User code in which the close callback invoked for handle 1 closes handle 2
(close callback 9) if handle 2 is initialised and not yet closing; nothing else
makes an API call. -/
def guardedCloseEnv : Env := fun c w =>
  match c with
  | Call.close_cb _ x =>
    if x = 1 ∧ (w.handles 2).type ≠ uv_handle_type.UV_UNKNOWN_HANDLE
        ∧ uv_is_closing w 2 = false then [Op.close 2 9] else []
  | _ => []

/-- The handle an API call starts, if any. -/
def Op.starts : Op → Option Handle
  | Op.idle_start i _ => some i
  | Op.poll_start p _ _ _ => some p
  | Op.timer_start t _ _ _ => some t
  | _ => none

/-- User code never starts handle `h`. -/
def NeverStarts (env : Env) (h : Handle) : Prop :=
  ∀ (c : Call) (w : World), ∀ op ∈ env c w, op.starts ≠ some h

/-- Whether an invocation is a timer callback for `t`. -/
def Call.isTimerOf (t : Handle) : Call → Bool
  | Call.timer_cb _ x => decide (x = t)
  | _ => false

/-- Whether an invocation is an idle callback for `i`. -/
def Call.isIdleOf (i : Handle) : Call → Bool
  | Call.idle_cb _ x => decide (x = i)
  | _ => false

/-- The timer callbacks invoked for `t`, in order. -/
def timerCalls (t : Handle) (log : List Call) : List Call :=
  log.filter (Call.isTimerOf t)

/-- The idle callbacks invoked for `i`, in order. -/
def idleCalls (i : Handle) (log : List Call) : List Call :=
  log.filter (Call.isIdleOf i)

/-- Relation between a state and a later one: if `P` held then it still holds
and no invocation selected by `q` was made in between. -/
def Keeps (P : World → Prop) (q : Call → Bool) (w w2 : World) : Prop :=
  P w → P w2 ∧ w2.log.filter q = w.log.filter q

/-- What a `Keeps` argument needs from the property and the selection: the
property depends only on the RUNNING flags and the idle set, callbacks keep
it, and no dispatch made while it holds is selected. -/
structure KeepsSpec (env : Env) (tpm : Int) (P : World → Prop) (q : Call → Bool) : Prop where
  dep : ∀ w w2 : World,
    (∀ x, (w2.handles x).flags.running = (w.handles x).flags.running) →
    w2.loop.idlers = w.loop.idlers → P w → P w2
  ops : ∀ (w : World) (c : Call), P w → P (runOps tpm w (env c w))
  poll : ∀ cb p s e, q (Call.poll_cb cb p s e) = false
  async : ∀ cb a, q (Call.async_cb cb a) = false
  close : ∀ cb h, q (Call.close_cb cb h) = false
  idle : ∀ w : World, P w → ∀ x ∈ w.loop.idlers.val, ∀ cb, q (Call.idle_cb cb x) = false
  timer : ∀ (w : World) (x : Handle), P w → (w.handles x).flags.running = true →
    ∀ cb, q (Call.timer_cb cb x) = false

/-- User code in which the idle callback, when invoked for idle 3, stops idle 5;
no other invocation does anything. -/
def stopOtherEnv : Env := fun c _ =>
  match c with
  | Call.idle_cb _ i => if i = 3 then [Op.idle_stop 5] else []
  | _ => []

/-- Idles 3 and 5, both initialised and started with callback 7. -/
def twoIdles : World :=
  uv_idle_start (uv_idle_start (uv_idle_init (uv_idle_init {} 3) 5) 3 7) 5 7

/-- The handle an API call sends an async wakeup for, if any. -/
def Op.sends : Op → Option Handle
  | Op.async_send a => some a
  | _ => none

/-- User code never calls `uv_async_send` on `a`. -/
def NeverSends (env : Env) (a : Handle) : Prop :=
  ∀ (c : Call) (w : World), ∀ op ∈ env c w, op.sends ≠ some a

/-- Whether an invocation is an async callback for `a`. -/
def Call.isAsyncOf (a : Handle) : Call → Bool
  | Call.async_cb _ x => decide (x = a)
  | _ => false

/-- The async callbacks invoked for `a`, in order. -/
def asyncCalls (a : Handle) (log : List Call) : List Call :=
  log.filter (Call.isAsyncOf a)

/-- The state after `n` calls of `uv_async_send(a)`. -/
def sendTimes (w : World) (a : Handle) : Nat → World
  | 0 => w
  | n + 1 => uv_async_send (sendTimes w a n) a

/-- User code in which the async callback closes the async handle it is
invoked for, if that handle is not yet closing. -/
def closeSelfAsyncEnv : Env := fun c w =>
  match c with
  | Call.async_cb _ a => if uv_is_closing w a = false then [Op.close a 9] else []
  | _ => []

/-- Timers 1, 2 and 3 started at time 0 with timeouts 30, 20 and 10 ms (no
repeat, callback 7), and idle 5 started with callback 7. -/
def threeTimers : World :=
  uv_idle_start
    (uv_timer_start 1000000
      (uv_timer_start 1000000
        (uv_timer_start 1000000 (uv_timer_init {} 1 0) 1 7 30 0) 2 7 20 0) 3 7 10 0)
    5 7

/-- `uv_poll_t::get_poll_cb`: the callback the poll phase invokes for `poll`. -/
def get_poll_cb (w : World) (poll : Handle) : Cb :=
  w.poll_callbacks.getD (w.handles poll).cbIndex 0

/-- The callback a poll was last started with, after one more API call. -/
def pollCbAfter (f : Handle → Option Cb) : Op → Handle → Option Cb
  | Op.poll_start q _ cb _ => fun p => if p = q then some cb else f p
  | _ => f

/-- The callback passed to the most recent `uv_poll_start` of each poll in a
sequence of API calls (`none` for a poll the sequence never starts). -/
def lastPollCb (ops : List Op) : Handle → Option Cb :=
  ops.foldl pollCbAfter fun _ => none

/-- The callback an API call passes to `uv_poll_start`, if it is one. -/
def Op.pollCb : Op → Option Cb
  | Op.poll_start _ _ cb _ => some cb
  | _ => none

/-- Invariant of the callback table: no callback is stored twice, and every
poll for which `f` records a callback points at a slot that holds it. -/
def TableInv (w : World) (f : Handle → Option Cb) : Prop :=
  w.poll_callbacks.Nodup ∧
  ∀ p c, f p = some c →
    (w.handles p).cbIndex < w.poll_callbacks.length ∧ get_poll_cb w p = c

/-- Polls 1, 2 and 3 are started with callbacks 7, 8 and 7; then poll 1 is
started again with callback 8. -/
def pollStarts : List Op :=
  [Op.poll_start 1 1 7 0, Op.poll_start 2 1 8 0, Op.poll_start 3 1 7 0, Op.poll_start 1 1 8 0]

/-- `uv_fileno`. The error codes `UV_EBADF` and `UV_EINVAL` are constants of the
header and enter as parameters. -/
def uv_fileno (UV_EBADF UV_EINVAL : Int) (w : World) (handle : Handle) : Int :=
  match (w.handles handle).type with
  | uv_handle_type.UV_POLL =>
    if uv_is_closing w handle then UV_EBADF else (w.handles handle).fd
  | _ => UV_EINVAL

/-- User code never runs an init on handle `h`. -/
def NeverInits (env : Env) (h : Handle) : Prop :=
  ∀ (c : Call) (w : World), ∀ op ∈ env c w, op.inits ≠ some h

/-- Poll 1 on descriptor 10, initialised and started with callback 7. -/
def onePoll : World :=
  (uv_poll_start (uv_poll_init_socket {} 1 10 0 0 0).1 1 1 7 0).1

/-- User code in which every timer callback stops its own timer and starts it
again with timeout 1 ms and repeat 5 ms (callback 7). -/
def restartEnv : Env := fun c _ =>
  match c with
  | Call.timer_cb _ t => [Op.timer_stop t, Op.timer_start t 7 1 5]
  | _ => []

/-- The state after the timer phase at time 2 ms in which the one-shot timer 1
(deadline 1 ms) fired and its callback restarted it. -/
def afterRestart : World := timer_phase restartEnv 1000000 oneShot 2000000

/-! ## The loop registry -/

/-- The process-wide registry: the array `loops` (`none` is the null pointer)
and `loopHead`. -/
structure Registry where
  loops : Nat → Option uv_loop_t := fun _ => none
  loopHead : Nat := 0

/-- `uv_loop_helper`: the registry afterwards and the loop created. -/
def uv_loop_helper (r : Registry) : Registry × uv_loop_t :=
  let loop : uv_loop_t := { index := r.loopHead, numEvents := 0 }
  ({ loops := fun i => if i = loop.index then some loop else r.loops i,
     loopHead := r.loopHead + 1 }, loop)

/-- `init`. -/
def init (r : Registry) : Registry := (uv_loop_helper r).1

/-- `uv_default_loop`: the registry afterwards and the pointer returned. -/
def uv_default_loop (r : Registry) : Registry × Option uv_loop_t :=
  let r1 := if r.loopHead = 0 then init r else r
  (r1, r1.loops 0)

/-- `uv_loop_new`: the registry afterwards and the loop returned. -/
def uv_loop_new (r : Registry) : Registry × uv_loop_t :=
  let r1 := if r.loopHead = 0 then init r else r
  uv_loop_helper r1

/-- `uv_loop_delete`. -/
def uv_loop_delete (r : Registry) (loop : uv_loop_t) : Registry :=
  { r with loops := fun i => if i = loop.index then none else r.loops i }

/-- Registry states reached from the empty registry by `uv_default_loop`,
`uv_loop_new` and `uv_loop_delete` of a registered loop. -/
inductive RegReachable : Registry → Prop where
  | start : RegReachable {}
  | default (r : Registry) : RegReachable r → RegReachable (uv_default_loop r).1
  | new (r : Registry) : RegReachable r → RegReachable (uv_loop_new r).1
  | delete (r : Registry) (i : Nat) (loop : uv_loop_t) : RegReachable r →
      r.loops i = some loop → RegReachable (uv_loop_delete r loop)

/-- The registry after `uv_loop_new` was called first (creating loops 0 and 1)
and `uv_loop_delete` was applied to the default loop. -/
def defaultDeleted : Registry :=
  uv_loop_delete (uv_loop_new {}).1 { index := 0, numEvents := 0 }

/-- The handle whose RUNNING flag an API call clears, if any. -/
def Op.stops : Op → Option Handle
  | Op.poll_stop p _ => some p
  | Op.timer_stop t => some t
  | _ => none

/-- User code never stops handle `h`. -/
def NeverStops (env : Env) (h : Handle) : Prop :=
  ∀ (c : Call) (w : World), ∀ op ∈ env c w, op.stops ≠ some h

/-- Timers 1 and 2 started in that order at time 0, both with timeout 10 ms
(callback 7, no repeat), on a queue that already holds timer 3 with deadline
20 ms. -/
def tiedTimers : World :=
  uv_timer_start 1000000
    (uv_timer_start 1000000
      (uv_timer_start 1000000 (uv_timer_init {} 3 0) 3 7 20 0) 1 7 10 0) 2 7 10 0

/-- Timer `t` occupies no slot of the timer queue. -/
def NotQueued (t : Handle) (w : World) : Prop := t ∉ w.loop.timers

instance (t : Handle) (w : World) : Decidable (NotQueued t w) := by
  unfold NotQueued; infer_instance

/-- Timer 4 initialised at time 2 ms on `threeTimers` and started with timeout 0,
repeat 0 and callback 8. -/
def zeroTimeout : World :=
  uv_timer_start 1000000 (uv_timer_init threeTimers 4 2000000) 4 8 0 0

/-- Timer `t` is waiting for the next timer phase: it occupies exactly one slot
of the queue, its deadline and the deadlines of all timers queued behind it are
not later than the loop timepoint, it is RUNNING and its repeat is 0. -/
def Pending (t : Handle) (w : World) : Prop :=
  ∃ front back, w.loop.timers = front ++ t :: back ∧ t ∉ front ∧ t ∉ back ∧
    (∀ e ∈ t :: back, (w.handles e).timepoint ≤ w.loop.timepoint) ∧
    (w.handles t).flags.running = true ∧ (w.handles t).repeat_ = 0

/-- What may happen between the start of timer `t` and the next timer phase:
steps that leave the timer queue, every deadline and the repeat of `t` as they
are, do not clear the RUNNING flag of `t`, do not move the loop timepoint back
and invoke no timer callback for `t` (`frame`);
`uv_timer_enqueue` of a timer that is not queued, as called by `uv_timer_start`
and by the timer phase for a popped timer (`enqueue`); `uv_timer_stop` of
another timer (`stop`). -/
inductive Undisturbed (tpm : Int) (t : Handle) : World → World → Prop where
  | refl (w : World) : Undisturbed tpm t w w
  | frame (w w1 w2 : World) : Undisturbed tpm t w w1 →
      w2.loop.timers = w1.loop.timers → w1.loop.timepoint ≤ w2.loop.timepoint →
      (∀ e, (w2.handles e).timepoint = (w1.handles e).timepoint) →
      ((w1.handles t).flags.running = true → (w2.handles t).flags.running = true) →
      (w2.handles t).repeat_ = (w1.handles t).repeat_ →
      timerCalls t w2.log = timerCalls t w1.log → Undisturbed tpm t w w2
  | enqueue (w w1 : World) (x : Handle) (timeout : Int) : Undisturbed tpm t w w1 →
      x ∉ w1.loop.timers → Undisturbed tpm t w (uv_timer_enqueue tpm w1 x timeout)
  | stop (w w1 : World) (x : Handle) : Undisturbed tpm t w w1 → x ≠ t →
      Undisturbed tpm t w (uv_timer_stop w1 x)

/-- An API call that may be made between the start of timer `t` and the next
timer phase: it does not start, stop or initialise `t`, it does not start a
timer that is already queued, and the clock read by `uv_timer_init` is not
behind the loop timepoint. -/
def QuietOp (t : Handle) (w : World) : Op → Prop
  | Op.timer_start u _ _ _ => u ≠ t ∧ u ∉ w.loop.timers
  | Op.timer_stop u => u ≠ t
  | Op.timer_init _ now => w.loop.timepoint ≤ now
  | Op.poll_stop p _ => p ≠ t
  | _ => True

/-- Every call of a sequence is quiet in the state it is made in. -/
def OpsQuiet (tpm : Int) (t : Handle) : World → List Op → Prop
  | _, [] => True
  | w, op :: rest => QuietOp t w op ∧ OpsQuiet tpm t (applyOp tpm w op) rest

/-- User code makes only quiet calls, in every callback. -/
def QuietEnv (env : Env) (tpm : Int) (t : Handle) : Prop :=
  ∀ (c : Call) (w : World), OpsQuiet tpm t w (env c w)

/-- User code in which every idle callback starts timer 6 (callback 9, timeout
50 ms, no repeat) unless timer 6 is already queued; no other callback makes an
API call. -/
def freshStartEnv : Env := fun c w =>
  match c with
  | Call.idle_cb _ _ => if 6 ∈ w.loop.timers then [] else [Op.timer_start 6 9 50 0]
  | _ => []

/-- The idle phase of `uv_run` with the iteration order made explicit. The
source copies the idle set, a `std::unordered_set`, into `readyIdlers` and
visits the copy with a range-for; the order of that visit is unspecified.
`readyIdlers` lists the members of the idle set in the order of the visit.
`idle_phase` is the instance with the order in which the model stores the
set. -/
def idle_phase_in (env : Env) (tpm : Int) (w : World) (readyIdlers : List Handle) : World :=
  if w.loop.idlers.val.length ≠ 0 then readyIdlers.foldl (idle_step env tpm) w
  else w

/-- User code in which the idle callback of idle 3 stops idle 5 and the idle
callback of idle 5 stops idle 3; no other invocation does anything. -/
def stopEachOtherEnv : Env := fun c _ =>
  match c with
  | Call.idle_cb _ i => if i = 3 then [Op.idle_stop 5] else if i = 5 then [Op.idle_stop 3] else []
  | _ => []

/-- User code in which the poll callback, when invoked for poll 1, stops poll 2
(`epoll_ctl` succeeds); no other invocation does anything. -/
def stopPollEnv : Env := fun c _ =>
  match c with
  | Call.poll_cb _ p _ _ => if p = 1 then [Op.poll_stop 2 0] else []
  | _ => []

/-- Whether an invocation is a poll callback for `p`. -/
def Call.isPollOf (p : Handle) : Call → Bool
  | Call.poll_cb _ x _ _ => decide (x = p)
  | _ => false

/-- The poll callbacks invoked for `p`, in order. -/
def pollCalls (p : Handle) (log : List Call) : List Call :=
  log.filter (Call.isPollOf p)

/-! # Properties -/

/-! ## Field access through `setH` and `setL` -/

@[simp] theorem setH_handles (w : World) (h : Handle) (f : uv_handle_t → uv_handle_t)
    (x : Handle) :
    (w.setH h f).handles x = if x = h then f (w.handles h) else w.handles x := rfl

@[simp] theorem setH_loop (w : World) (h : Handle) (f : uv_handle_t → uv_handle_t) :
    (w.setH h f).loop = w.loop := rfl

@[simp] theorem setH_log (w : World) (h : Handle) (f : uv_handle_t → uv_handle_t) :
    (w.setH h f).log = w.log := rfl

@[simp] theorem setH_poll_callbacks (w : World) (h : Handle) (f : uv_handle_t → uv_handle_t) :
    (w.setH h f).poll_callbacks = w.poll_callbacks := rfl

@[simp] theorem setL_handles (w : World) (f : uv_loop_t → uv_loop_t) :
    (w.setL f).handles = w.handles := rfl

@[simp] theorem setL_loop (w : World) (f : uv_loop_t → uv_loop_t) :
    (w.setL f).loop = f w.loop := rfl

@[simp] theorem setL_log (w : World) (f : uv_loop_t → uv_loop_t) :
    (w.setL f).log = w.log := rfl

@[simp] theorem setL_poll_callbacks (w : World) (f : uv_loop_t → uv_loop_t) :
    (w.setL f).poll_callbacks = w.poll_callbacks := rfl

/-! ## Binary search and insertion -/

theorem upper_bound_loop_spec (p : Handle → Bool) (xs : List Handle)
    (hpart : ∀ i j, i ≤ j → j < xs.length → p (xs.getD i 0) = true → p (xs.getD j 0) = true) :
    ∀ fuel first len, len ≤ fuel → first + len ≤ xs.length →
      (∀ i, i < first → p (xs.getD i 0) = false) →
      (∀ i, first + len ≤ i → i < xs.length → p (xs.getD i 0) = true) →
      upper_bound_loop p xs fuel first len ≤ xs.length ∧
      (∀ i, i < upper_bound_loop p xs fuel first len → p (xs.getD i 0) = false) ∧
      (∀ i, upper_bound_loop p xs fuel first len ≤ i → i < xs.length →
        p (xs.getD i 0) = true) := by
  intro fuel
  induction fuel with
  | zero =>
    intro first len hlen hle hlo hhi
    have h0 : len = 0 := by omega
    subst h0
    simp only [upper_bound_loop]
    exact ⟨by omega, hlo, fun i hi hil => hhi i (by omega) hil⟩
  | succ n ih =>
    intro first len hlen hle hlo hhi
    unfold upper_bound_loop
    by_cases h0 : len = 0
    · simp only [h0, if_true]
      subst h0
      exact ⟨by omega, hlo, fun i hi hil => hhi i (by omega) hil⟩
    · simp only [h0, if_false]
      have hhalf : len / 2 < len := Nat.div_lt_self (by omega) (by decide)
      by_cases hp : p (xs.getD (first + len / 2) 0) = true
      · simp only [hp, if_true]
        apply ih first (len / 2) (by omega) (by omega) hlo
        intro i hi hil
        exact hpart _ _ hi hil hp
      · simp only [hp]
        apply ih (first + len / 2 + 1) (len - len / 2 - 1) (by omega) (by omega)
        · intro i hi
          by_contra hc
          have hc2 : p (xs.getD i 0) = true := by
            cases hpi : p (xs.getD i 0) <;> simp_all
          exact hp (hpart i _ (by omega) (by omega) hc2)
        · intro i hi hil
          exact hhi i (by omega) hil

/-- On a range partitioned by `p`, `upper_bound` returns the partition point. -/
theorem upper_bound_spec (p : Handle → Bool) (xs : List Handle)
    (hpart : ∀ i j, i ≤ j → j < xs.length → p (xs.getD i 0) = true → p (xs.getD j 0) = true) :
    upper_bound p xs ≤ xs.length ∧
    (∀ a, a ∈ xs.take (upper_bound p xs) → p a = false) ∧
    (∀ b, b ∈ xs.drop (upper_bound p xs) → p b = true) := by
  obtain ⟨h1, h2, h3⟩ := upper_bound_loop_spec p xs hpart xs.length 0 xs.length
    (le_refl _) (by omega) (fun i hi => absurd hi (by omega))
    (fun i hi hil => absurd hil (by omega))
  have hub : upper_bound p xs = upper_bound_loop p xs xs.length 0 xs.length := rfl
  refine ⟨h1, ?_, ?_⟩
  · intro a ha
    obtain ⟨i, hi, rfl⟩ := List.mem_iff_getElem.mp ha
    rw [List.length_take] at hi
    rw [List.getElem_take]
    have := h2 i (by omega)
    rwa [List.getD_eq_getElem _ _ (by omega)] at this
  · intro b hb
    obtain ⟨i, hi, rfl⟩ := List.mem_iff_getElem.mp hb
    rw [List.length_drop] at hi
    rw [List.getElem_drop]
    have := h3 (upper_bound p xs + i) (by omega) (by omega)
    rwa [List.getD_eq_getElem _ _ (by omega)] at this

/-- A list sorted descending by `key` is partitioned by `key t > key ·`. -/
theorem sorted_partitioned (key : Handle → Int) (t : Handle) (xs : List Handle)
    (hs : xs.Pairwise fun a b => key a ≥ key b) :
    ∀ i j, i ≤ j → j < xs.length →
      decide (key t > key (xs.getD i 0)) = true → decide (key t > key (xs.getD j 0)) = true := by
  intro i j hij hj hi
  rcases Nat.eq_or_lt_of_le hij with heq | hlt
  · subst heq; exact hi
  · have h := List.pairwise_iff_getElem.mp hs i j (by omega) hj hlt
    rw [List.getD_eq_getElem _ _ (by omega)] at hi
    rw [List.getD_eq_getElem _ _ hj]
    simp only [decide_eq_true_eq] at hi ⊢
    omega

theorem vinsert_count (xs : List Handle) (i : Nat) (x y : Handle) :
    (vinsert xs i x).count y = xs.count y + (if x = y then 1 else 0) := by
  unfold vinsert
  rw [List.count_append, List.count_cons]
  have h := congrArg (List.count y) (List.take_append_drop i xs)
  rw [List.count_append] at h
  simp only [beq_iff_eq]
  omega

/-- Inserting at the position `upper_bound` returns keeps a descending list
descending. -/
theorem sorted_vinsert (key : Handle → Int) (t : Handle) (xs : List Handle)
    (hs : xs.Pairwise fun a b => key a ≥ key b) :
    (vinsert xs (upper_bound (fun b => decide (key t > key b)) xs) t).Pairwise
      fun a b => key a ≥ key b := by
  obtain ⟨_, hlo, hhi⟩ := upper_bound_spec (fun b => decide (key t > key b)) xs
    (sorted_partitioned key t xs hs)
  unfold vinsert
  have hsplit := List.take_append_drop (upper_bound (fun b => decide (key t > key b)) xs) xs
  rw [← hsplit] at hs
  obtain ⟨hl, hr, hlr⟩ := List.pairwise_append.mp hs
  rw [List.pairwise_append]
  refine ⟨hl, List.pairwise_cons.mpr ⟨?_, hr⟩, ?_⟩
  · intro b hb
    have := hhi b hb
    simp only [decide_eq_true_eq] at this
    omega
  · intro a ha b hb
    rcases List.mem_cons.mp hb with rfl | hb2
    · have := hlo a ha
      simp only [decide_eq_false_iff_not] at this
      omega
    · exact hlr a ha b hb2

/-! ## Timer start -/

/-- Sortedness only depends on the deadlines of the queued timers. -/
theorem pairwise_setH_of_not_mem (w : World) (t : Handle) (f : uv_handle_t → uv_handle_t)
    (xs : List Handle) (hnot : t ∉ xs)
    (hs : xs.Pairwise fun a b => (w.handles a).timepoint ≥ (w.handles b).timepoint) :
    xs.Pairwise fun a b =>
      ((w.setH t f).handles a).timepoint ≥ ((w.setH t f).handles b).timepoint := by
  refine List.Pairwise.imp_of_mem ?_ hs
  intro a b ha hb hab
  have h1 : a ≠ t := fun h => hnot (h ▸ ha)
  have h2 : b ≠ t := fun h => hnot (h ▸ hb)
  simp [h1, h2, hab]

/-- With a nonzero timeout, `uv_timer_enqueue` keeps a sorted queue sorted. -/
theorem uv_timer_enqueue_sorted (tpm : Int) (w : World) (t : Handle) (timeout : Int)
    (hs : TimersSorted w) (hnot : t ∉ w.loop.timers) (hto : timeout ≠ 0) :
    TimersSorted (uv_timer_enqueue tpm w t timeout) := by
  unfold uv_timer_enqueue
  simp only [setH_loop]
  by_cases hlen : w.loop.timers.length ≠ 0
  · rw [if_pos ⟨hlen, hto⟩]
    unfold TimersSorted
    simp only [setL_loop, setL_handles]
    exact sorted_vinsert
      (fun x => ((w.setH t fun r =>
        { r with timepoint := w.loop.timepoint + timeout * tpm }).handles x).timepoint)
      t w.loop.timers (pairwise_setH_of_not_mem w t _ _ hnot hs)
  · rw [if_neg (fun h => hlen h.1)]
    have hnil : w.loop.timers = [] := by
      cases hq : w.loop.timers with
      | nil => rfl
      | cons a l => rw [hq] at hlen; simp at hlen
    unfold TimersSorted
    simp [hnil]

/-- With timeout zero, `uv_timer_enqueue` keeps a sorted queue sorted when no
queued deadline lies before the loop timepoint. -/
theorem uv_timer_enqueue_zero_sorted (tpm : Int) (w : World) (t : Handle)
    (hs : TimersSorted w) (hnot : t ∉ w.loop.timers)
    (hfresh : ∀ a ∈ w.loop.timers, (w.handles a).timepoint ≥ w.loop.timepoint) :
    TimersSorted (uv_timer_enqueue tpm w t 0) := by
  unfold uv_timer_enqueue
  simp only [setH_loop]
  rw [if_neg (fun h => h.2 rfl)]
  unfold TimersSorted
  simp only [setL_loop, setL_handles]
  rw [List.pairwise_append]
  refine ⟨pairwise_setH_of_not_mem w t _ _ hnot hs, List.pairwise_singleton _ _, ?_⟩
  intro a ha b hb
  have hb2 : b = t := by simpa using hb
  subst hb2
  have h1 : a ≠ b := fun h => hnot (h ▸ ha)
  have := hfresh a ha
  simp [h1]
  omega

/-- After `uv_timer_enqueue` the timer holds the deadline
`loop.timepoint + timeout` ms and occurs once more in the queue. -/
theorem uv_timer_enqueue_effect (tpm : Int) (w : World) (t : Handle) (timeout : Int) :
    ((uv_timer_enqueue tpm w t timeout).handles t).timepoint
      = w.loop.timepoint + timeout * tpm ∧
    (∀ x, (uv_timer_enqueue tpm w t timeout).loop.timers.count x
      = w.loop.timers.count x + (if t = x then 1 else 0)) ∧
    (uv_timer_enqueue tpm w t timeout).loop.timepoint = w.loop.timepoint := by
  unfold uv_timer_enqueue
  simp only [setH_loop]
  split
  · refine ⟨by simp, ?_, by simp⟩
    intro x
    simp only [setL_loop]
    exact vinsert_count _ _ _ _
  · refine ⟨by simp, ?_, by simp⟩
    intro x
    simp only [setL_loop, setH_loop, List.count_append, List.count_singleton, beq_iff_eq]

/-- Evaluation for C1 at a failing input: the queue `[1]` (deadline 5 ms, loop
timepoint 10 ms) is sorted and does not hold timer 2; `uv_timer_start` with
timeout 0 gives timer 2 the deadline `loop.timepoint + 0` and appends it at the
back, behind the earlier deadline of timer 1: the queue `[1, 2]` is no longer
sorted by deadline descending. -/
theorem C1_timeout_zero_unsorted :
    TimersSorted staleQueue ∧ 2 ∉ staleQueue.loop.timers ∧
    (uv_timer_start 1000000 staleQueue 2 7 0 0).loop.timers = [1, 2] ∧
    ((uv_timer_start 1000000 staleQueue 2 7 0 0).handles 2).timepoint
      = staleQueue.loop.timepoint + 0 * 1000000 ∧
    ((uv_timer_start 1000000 staleQueue 2 7 0 0).handles 1).timepoint = 5000000 ∧
    ((uv_timer_start 1000000 staleQueue 2 7 0 0).handles 2).timepoint = 10000000 ∧
    ¬ TimersSorted (uv_timer_start 1000000 staleQueue 2 7 0 0) := by
  decide

/-! ## What API calls leave alone -/

theorem uv_timer_enqueue_log (tpm : Int) (w : World) (t : Handle) (timeout : Int) :
    (uv_timer_enqueue tpm w t timeout).log = w.log := by
  simp only [uv_timer_enqueue]
  split <;> rfl

theorem uv_close_log (w : World) (h : Handle) (cb : Cb) : (uv_close w h cb).log = w.log := by
  simp only [uv_close]
  split <;> rfl

theorem applyOp_log (tpm : Int) (w : World) (op : Op) : (applyOp tpm w op).log = w.log := by
  cases op <;> simp only [applyOp, uv_close_log, uv_async_init, uv_async_send, uv_idle_init,
    uv_idle_start, uv_idle_stop, uv_poll_init_socket, uv_poll_start, uv_poll_stop,
    uv_timer_init, uv_timer_start, uv_timer_stop, uv_timer_enqueue_log, setH_log, setL_log]
  · split
    · rfl
    · split <;> rfl
  · split <;> rfl

theorem runOps_log (tpm : Int) (ops : List Op) :
    ∀ w : World, (runOps tpm w ops).log = w.log := by
  induction ops with
  | nil => intro w; rfl
  | cons op rest ih =>
    intro w
    show (runOps tpm (applyOp tpm w op) rest).log = w.log
    rw [ih, applyOp_log]

/-- A callback invocation adds exactly its own entry to the log. -/
theorem invoke_log (env : Env) (tpm : Int) (w : World) (c : Call) :
    (invoke env tpm w c).log = w.log ++ [c] := by
  unfold invoke
  rw [runOps_log]

/-! ## Re-enqueue after firing -/

/-- Counterexample for C2: timer 1 (repeat 5 ms, RUNNING) is fired from the
snapshot and its callback calls `uv_close` on it. It was not closing before
the callback and is closing after it, yet it is put back in the timer queue,
so membership in the queue is not equivalent to the three conditions of the
claim. -/
theorem C2_closed_in_callback_reenqueued :
    (poppedRepeater.handles 1).flags.running = true ∧
    poppedRepeater.loop.timers = [] ∧
    uv_is_closing poppedRepeater 1 = false ∧
    (fire_timer selfClosingEnv 1000000 poppedRepeater 1).log = [Call.timer_cb 7 1] ∧
    uv_is_closing (fire_timer selfClosingEnv 1000000 poppedRepeater 1) 1 = true ∧
    (fire_timer selfClosingEnv 1000000 poppedRepeater 1).loop.closing = [(1, 9)] ∧
    ¬ (1 ∈ (fire_timer selfClosingEnv 1000000 poppedRepeater 1).loop.timers ↔
        (((fire_timer selfClosingEnv 1000000 poppedRepeater 1).handles 1).repeat_ ≠ 0 ∧
         ((fire_timer selfClosingEnv 1000000 poppedRepeater 1).handles 1).flags.running = true ∧
         uv_is_closing (fire_timer selfClosingEnv 1000000 poppedRepeater 1) 1 = false)) := by
  decide

/-- C2 (amended): a timer fired from the snapshot (RUNNING at dispatch) is put
back in the queue, once, with deadline `loop.timepoint + repeat` ms, if and
only if after its callback its repeat is nonzero and it is still RUNNING;
otherwise the phase leaves the state as the callback left it. Whether the
callback closed the timer plays no role. -/
theorem C2_reenqueue_iff_repeat_and_running (env : Env) (tpm : Int) (w : World) (t : Handle)
    (hrun : (w.handles t).flags.running = true) :
    ((fire_timer env tpm w t).loop.timers.count t
        = (invoke env tpm w (Call.timer_cb (w.handles t).cb t)).loop.timers.count t + 1 ↔
      (((invoke env tpm w (Call.timer_cb (w.handles t).cb t)).handles t).repeat_ ≠ 0 ∧
       ((invoke env tpm w (Call.timer_cb (w.handles t).cb t)).handles t).flags.running = true)) ∧
    ((((invoke env tpm w (Call.timer_cb (w.handles t).cb t)).handles t).repeat_ ≠ 0 ∧
       ((invoke env tpm w (Call.timer_cb (w.handles t).cb t)).handles t).flags.running = true) →
      ((fire_timer env tpm w t).handles t).timepoint
        = (invoke env tpm w (Call.timer_cb (w.handles t).cb t)).loop.timepoint
          + ((invoke env tpm w (Call.timer_cb (w.handles t).cb t)).handles t).repeat_ * tpm) ∧
    (¬ (((invoke env tpm w (Call.timer_cb (w.handles t).cb t)).handles t).repeat_ ≠ 0 ∧
       ((invoke env tpm w (Call.timer_cb (w.handles t).cb t)).handles t).flags.running = true) →
      fire_timer env tpm w t = invoke env tpm w (Call.timer_cb (w.handles t).cb t)) := by
  generalize hw1 : invoke env tpm w (Call.timer_cb (w.handles t).cb t) = w1
  have hfire : fire_timer env tpm w t =
      if (w1.handles t).repeat_ ≠ 0 ∧ (w1.handles t).flags.running = true then
        uv_timer_enqueue tpm w1 t (w1.handles t).repeat_
      else w1 := by
    simp only [fire_timer, hrun, if_true, hw1]
  by_cases hc : (w1.handles t).repeat_ ≠ 0 ∧ (w1.handles t).flags.running = true
  · rw [hfire, if_pos hc]
    obtain ⟨h1, h2, _⟩ := uv_timer_enqueue_effect tpm w1 t (w1.handles t).repeat_
    refine ⟨⟨fun _ => hc, fun _ => ?_⟩, fun _ => h1, fun h => absurd hc h⟩
    rw [h2 t]; simp
  · rw [hfire, if_neg hc]
    refine ⟨⟨fun h => ?_, fun h => absurd h hc⟩, fun h => absurd h hc, fun _ => rfl⟩
    omega

/-- Witness for C2: the amended statement at the self-closing repeating timer. -/
theorem C2_reenqueue_iff_repeat_and_running_witness :
    (poppedRepeater.handles 1).flags.running = true ∧
    (fire_timer selfClosingEnv 1000000 poppedRepeater 1).loop.timers.count 1
      = (invoke selfClosingEnv 1000000 poppedRepeater
          (Call.timer_cb (poppedRepeater.handles 1).cb 1)).loop.timers.count 1 + 1 :=
  ⟨by decide,
   (C2_reenqueue_iff_repeat_and_running selfClosingEnv 1000000 poppedRepeater 1
      (by decide)).1.mpr (by decide)⟩

/-! ## Dispatch and the closing flags -/

/-- Counterexample for C3: polls 1 and 2 are ready in one batch; the callback
of poll 1 calls `uv_close` on both. When the loop reaches the entry of poll 2
`uv_is_closing` is true for it, and its callback is invoked all the same. -/
theorem C3_closing_poll_still_dispatched :
    uv_is_closing twoPolls 2 = false ∧
    uv_is_closing (poll_step closeBothEnv 1000000 twoPolls ⟨some 1, 1⟩) 2 = true ∧
    (poll_phase closeBothEnv 1000000 twoPolls [⟨some 1, 1⟩, ⟨some 2, 1⟩]).log
      = [Call.poll_cb 7 1 0 1, Call.poll_cb 7 2 0 1] := by
  decide

theorem foldl_log_handles {α : Type} (step : World → α → World) (f : α → List Handle)
    (hstep : ∀ w x, (step w x).log.map Call.handle = w.log.map Call.handle ++ f x) :
    ∀ (xs : List α) (w : World),
      (xs.foldl step w).log.map Call.handle
        = w.log.map Call.handle ++ (xs.map f).flatten := by
  intro xs
  induction xs with
  | nil => intro w; simp
  | cons x rest ih =>
    intro w
    rw [List.foldl_cons, ih, hstep]
    simp

theorem poll_step_log (env : Env) (tpm : Int) (w : World) (p : Handle) (ev : Nat) :
    (poll_step env tpm w ⟨some p, ev⟩).log
      = w.log ++ [Call.poll_cb (w.poll_callbacks.getD (w.handles p).cbIndex 0) p
          (if ev &&& EPOLLERR ≠ 0 then -1 else 0) ev] := by
  simp only [poll_step, invoke_log]

theorem fire_timer_log (env : Env) (tpm : Int) (w : World) (t : Handle) :
    (fire_timer env tpm w t).log
      = w.log ++ (if (w.handles t).flags.running = true
          then [Call.timer_cb (w.handles t).cb t] else []) := by
  simp only [fire_timer]
  by_cases hr : (w.handles t).flags.running = true
  · simp only [hr, if_true]
    split
    · rw [uv_timer_enqueue_log, invoke_log]
    · rw [invoke_log]
  · simp [hr]

/-- C3 (amended): no dispatch step consults `uv_is_closing`. Whatever the flags
of the handle at the moment of dispatch, the poll phase invokes the callback of
every non-null entry of the ready batch, the async and idle phases that of
every entry of their snapshot, and the timer phase that of every snapshot entry
whose RUNNING flag is set at that moment (a snapshot timer without RUNNING is
skipped). In particular every entry of an epoll batch gets its callback, in
batch order, and every idle of the snapshot gets its callback. -/
theorem C3_dispatch_ignores_closing (env : Env) (tpm : Int) (w : World) :
    (∀ p ev, (poll_step env tpm w ⟨some p, ev⟩).log
      = w.log ++ [Call.poll_cb (w.poll_callbacks.getD (w.handles p).cbIndex 0) p
          (if ev &&& EPOLLERR ≠ 0 then -1 else 0) ev]) ∧
    (∀ a, (async_step env tpm w a).log = w.log ++ [Call.async_cb (w.handles a).cb a]) ∧
    (∀ i, (idle_step env tpm w i).log = w.log ++ [Call.idle_cb (w.handles i).cb i]) ∧
    (∀ t, (fire_timer env tpm w t).log
      = w.log ++ (if (w.handles t).flags.running = true
          then [Call.timer_cb (w.handles t).cb t] else [])) ∧
    (∀ ready : List epoll_event, (poll_phase env tpm w ready).log.map Call.handle
      = w.log.map Call.handle ++ ready.filterMap fun e => e.ptr) ∧
    (idle_phase env tpm w).log.map Call.handle
      = w.log.map Call.handle ++ w.loop.idlers.val := by
  refine ⟨poll_step_log env tpm w, fun a => ?_, fun i => ?_, fire_timer_log env tpm w, ?_, ?_⟩
  · simp only [async_step, invoke_log]
  · simp only [idle_step, invoke_log]
  · intro ready
    unfold poll_phase
    rw [foldl_log_handles (poll_step env tpm) (fun e => e.ptr.toList)]
    · congr 1
      induction ready with
      | nil => rfl
      | cons e rest ih =>
        rcases e with ⟨_ | p, ev⟩
        · simpa using ih
        · simpa using ih
    · intro w2 e
      rcases e with ⟨_ | p, ev⟩
      · simp [poll_step]
      · rw [poll_step_log]; simp [Call.handle]
  · unfold idle_phase
    split
    · rw [foldl_log_handles (idle_step env tpm) (fun i => [i])]
      · congr 1
        generalize w.loop.idlers.val = xs
        induction xs with
        | nil => rfl
        | cons x rest ih => simpa using ih
      · intro w2 i
        simp [idle_step, invoke_log, Call.handle]
    · rename_i h
      have : w.loop.idlers.val = [] := by
        cases hq : w.loop.idlers.val with
        | nil => rfl
        | cons a l => rw [hq] at h; simp at h
      simp [this]

/-! ## Field-wise description of the API calls -/

theorem uv_close_handles (w : World) (h : Handle) (cb : Cb) (x : Handle) :
    (uv_close w h cb).handles x =
      if x = h then
        { (w.handles h) with
          fd := if (w.handles h).type = uv_handle_type.UV_ASYNC
                  ∨ (w.handles h).type = uv_handle_type.UV_POLL then -1 else (w.handles h).fd,
          flags := { (w.handles h).flags with closing := true } }
      else w.handles x := by
  simp only [uv_close]
  by_cases hx : x = h
  · subst hx
    cases ht : (w.handles x).type <;> simp [ht]
  · cases ht : (w.handles h).type <;> simp [hx]

theorem uv_close_loop (w : World) (h : Handle) (cb : Cb) :
    (uv_close w h cb).loop =
      { w.loop with
        asyncs := if (w.handles h).type = uv_handle_type.UV_ASYNC
                    then w.loop.asyncs.erase h else w.loop.asyncs,
        closing := w.loop.closing ++ [(h, cb)] } := by
  simp only [uv_close]
  cases ht : (w.handles h).type <;> simp

theorem uv_timer_enqueue_handles (tpm : Int) (w : World) (t : Handle) (timeout : Int)
    (x : Handle) :
    (uv_timer_enqueue tpm w t timeout).handles x =
      if x = t then { (w.handles t) with timepoint := w.loop.timepoint + timeout * tpm }
      else w.handles x := by
  simp only [uv_timer_enqueue]
  split <;> simp

theorem uv_timer_enqueue_loop (tpm : Int) (w : World) (t : Handle) (timeout : Int) :
    (uv_timer_enqueue tpm w t timeout).loop =
      { w.loop with timers := (uv_timer_enqueue tpm w t timeout).loop.timers } := by
  simp only [uv_timer_enqueue]
  split <;> simp

theorem uv_timer_enqueue_fields (tpm : Int) (w : World) (t : Handle) (timeout : Int) :
    (uv_timer_enqueue tpm w t timeout).loop.closing = w.loop.closing ∧
    (uv_timer_enqueue tpm w t timeout).loop.asyncs = w.loop.asyncs ∧
    (uv_timer_enqueue tpm w t timeout).loop.idlers = w.loop.idlers ∧
    (uv_timer_enqueue tpm w t timeout).loop.numEvents = w.loop.numEvents ∧
    (uv_timer_enqueue tpm w t timeout).loop.timepoint = w.loop.timepoint ∧
    (uv_timer_enqueue tpm w t timeout).loop.wakeups = w.loop.wakeups ∧
    (uv_timer_enqueue tpm w t timeout).poll_callbacks = w.poll_callbacks := by
  simp only [uv_timer_enqueue]
  split <;> simp

theorem applyOp_closing_queue (tpm : Int) (w : World) (op : Op) :
    (applyOp tpm w op).loop.closing = w.loop.closing ++ op.closes := by
  cases op <;>
    simp [applyOp, Op.closes, uv_close_loop, uv_async_init, uv_async_send, uv_idle_init,
      uv_idle_start, uv_idle_stop, uv_poll_init_socket, uv_poll_start, uv_poll_stop,
      uv_timer_init, uv_timer_start, uv_timer_stop, (uv_timer_enqueue_fields _ _ _ _).1]
  all_goals (repeat' split)
  all_goals rfl

theorem applyOp_flags_closed (tpm : Int) (w : World) (op : Op) (x : Handle) :
    ((applyOp tpm w op).handles x).flags.closed = (w.handles x).flags.closed := by
  cases op <;>
    simp [applyOp, uv_close_handles, uv_async_init, uv_async_send, uv_idle_init,
      uv_idle_start, uv_idle_stop, uv_poll_init_socket, uv_poll_start, uv_poll_stop,
      uv_timer_init, uv_timer_start, uv_timer_stop, uv_timer_enqueue_handles,
      apply_ite uv_handle_t.flags, apply_ite Flags.closed, apply_ite Flags.closing]
  all_goals (repeat' split)
  all_goals (try simp)
  all_goals (repeat' split)
  all_goals (first | rfl | exact Bool.or_comm _ _ | simp_all)

theorem applyOp_flags_closing (tpm : Int) (w : World) (op : Op) (x : Handle) :
    ((applyOp tpm w op).handles x).flags.closing
      = ((w.handles x).flags.closing || decide (x ∈ op.closes.map Prod.fst)) := by
  cases op <;>
    simp [applyOp, Op.closes, uv_close_handles, uv_async_init, uv_async_send, uv_idle_init,
      uv_idle_start, uv_idle_stop, uv_poll_init_socket, uv_poll_start, uv_poll_stop,
      uv_timer_init, uv_timer_start, uv_timer_stop, uv_timer_enqueue_handles,
      apply_ite uv_handle_t.flags, apply_ite Flags.closed, apply_ite Flags.closing]
  all_goals (repeat' split)
  all_goals (try simp)
  all_goals (repeat' split)
  all_goals (first | rfl | exact Bool.or_comm _ _ | simp_all)

theorem runOps_cons (tpm : Int) (w : World) (op : Op) (ops : List Op) :
    runOps tpm w (op :: ops) = runOps tpm (applyOp tpm w op) ops := rfl

theorem runOps_closing_queue (tpm : Int) (ops : List Op) :
    ∀ w : World, (runOps tpm w ops).loop.closing
      = w.loop.closing ++ (ops.map Op.closes).flatten := by
  induction ops with
  | nil => intro w; simp [runOps]
  | cons op rest ih =>
    intro w
    rw [runOps_cons, ih, applyOp_closing_queue]
    simp

theorem runOps_flags_closed (tpm : Int) (ops : List Op) (x : Handle) :
    ∀ w : World, ((runOps tpm w ops).handles x).flags.closed = (w.handles x).flags.closed := by
  induction ops with
  | nil => intro w; rfl
  | cons op rest ih =>
    intro w
    rw [runOps_cons, ih, applyOp_flags_closed]

theorem runOps_flags_closing (tpm : Int) (ops : List Op) (x : Handle) :
    ∀ w : World, ((runOps tpm w ops).handles x).flags.closing
      = ((w.handles x).flags.closing
          || decide (x ∈ ((ops.map Op.closes).flatten).map Prod.fst)) := by
  induction ops with
  | nil => intro w; simp [runOps]
  | cons op rest ih =>
    intro w
    rw [runOps_cons, ih, applyOp_flags_closing]
    simp only [List.map_cons, List.flatten_cons, List.map_append, List.mem_append,
      Bool.decide_or, Bool.or_assoc]

/-! ## Closing handles and the dispatch structures -/

/-- Counterexample for C4: a started timer that is closed has CLOSING set and
sits in the pending-close queue, and is still in the timer queue; likewise a
started idle that is closed is still in the idle set. -/
theorem C4_closing_timer_still_linked :
    (closedStartedTimer.handles 1).flags.closing = true ∧
    closedStartedTimer.loop.closing = [(1, 9)] ∧
    1 ∈ closedStartedTimer.loop.timers ∧
    (closedStartedIdle.handles 3).flags.closing = true ∧
    closedStartedIdle.loop.closing = [(3, 9)] ∧
    3 ∈ closedStartedIdle.loop.idlers.val := by
  decide

theorem HSet.not_mem_erase (s : HSet) (x : Handle) : x ∉ (s.erase x).val := by
  unfold HSet.erase
  simp only
  intro hmem
  have hn := s.property
  have := List.Nodup.mem_erase_iff hn |>.mp hmem
  exact this.1 rfl

theorem not_mem_closes_flatten (h : Handle) (ops : List Op)
    (hops : ∀ op ∈ ops, h ∉ op.closes.map Prod.fst) :
    h ∉ ((ops.map Op.closes).flatten).map Prod.fst := by
  intro hmem
  rw [List.mem_map] at hmem
  obtain ⟨⟨a, c⟩, hin, rfl⟩ := hmem
  rw [List.mem_flatten] at hin
  obtain ⟨l, hl, hal⟩ := hin
  rw [List.mem_map] at hl
  obtain ⟨op, hop, rfl⟩ := hl
  exact hops op hop (List.mem_map.mpr ⟨(a, c), hal, rfl⟩)

/-- C4 (amended): after `uv_close(h, cb)` on a handle that is not already in the
pending-close queue, `h` has CLOSING set and occurs in the pending-close queue
exactly once, with `cb`; an async handle is no longer in the async set.
`uv_close` leaves the timer queue and the idle set as they are (a started
timer or idle stays linked until it is stopped). CLOSING and the single
occurrence in the queue persist through every later sequence of API calls that
does not close `h` again. -/
theorem C4_close_effect (w : World) (h : Handle) (cb : Cb)
    (hfresh : h ∉ w.loop.closing.map Prod.fst) :
    ((uv_close w h cb).handles h).flags.closing = true ∧
    ((uv_close w h cb).loop.closing.map Prod.fst).count h = 1 ∧
    (h, cb) ∈ (uv_close w h cb).loop.closing ∧
    ((w.handles h).type = uv_handle_type.UV_ASYNC → h ∉ (uv_close w h cb).loop.asyncs.val) ∧
    (uv_close w h cb).loop.timers = w.loop.timers ∧
    (uv_close w h cb).loop.idlers = w.loop.idlers ∧
    (∀ (tpm : Int) (ops : List Op), (∀ op ∈ ops, h ∉ op.closes.map Prod.fst) →
      ((runOps tpm (uv_close w h cb) ops).handles h).flags.closing = true ∧
      ((runOps tpm (uv_close w h cb) ops).loop.closing.map Prod.fst).count h = 1) := by
  have hcount : ((uv_close w h cb).loop.closing.map Prod.fst).count h = 1 := by
    rw [uv_close_loop]
    simp only [List.map_append, List.map_cons, List.map_nil, List.count_append]
    rw [List.count_eq_zero_of_not_mem hfresh]
    simp
  have hflag : ((uv_close w h cb).handles h).flags.closing = true := by
    simp [uv_close_handles]
  refine ⟨hflag, hcount, ?_, ?_, ?_, ?_, ?_⟩
  · rw [uv_close_loop]; simp
  · intro ht
    rw [uv_close_loop]
    simp only [ht, if_true]
    exact HSet.not_mem_erase _ _
  · rw [uv_close_loop]
  · rw [uv_close_loop]
  · intro tpm ops hops
    constructor
    · rw [runOps_flags_closing, hflag]; rfl
    · rw [runOps_closing_queue, List.map_append, List.count_append, hcount,
        List.count_eq_zero_of_not_mem (not_mem_closes_flatten h ops hops)]

/-- Witness for C4: closing the async handle 4, which is in the async set. -/
theorem C4_close_effect_witness :
    4 ∈ oneAsync.loop.asyncs.val ∧ 4 ∉ oneAsync.loop.closing.map Prod.fst ∧
    ((uv_close oneAsync 4 9).loop.closing.map Prod.fst).count 4 = 1 ∧
    4 ∉ (uv_close oneAsync 4 9).loop.asyncs.val :=
  ⟨by decide, by decide, (C4_close_effect oneAsync 4 9 (by decide)).2.1,
   (C4_close_effect oneAsync 4 9 (by decide)).2.2.2.1 (by decide)⟩

/-! ## RUNNING and the dispatch structures -/

/-- Counterexample for C5: a started idle is a member of the idle set while its
RUNNING flag is clear; a one-shot timer that fired in a timer phase has RUNNING
set while it is no longer in the timer queue. -/
theorem C5_running_not_equivalent_to_linked :
    (3 ∈ startedIdle.loop.idlers.val ∧ (startedIdle.handles 3).flags.running = false) ∧
    ((timer_phase quietEnv 1000000 oneShot 2000000).log = [Call.timer_cb 7 1] ∧
     ((timer_phase quietEnv 1000000 oneShot 2000000).handles 1).flags.running = true ∧
     1 ∉ (timer_phase quietEnv 1000000 oneShot 2000000).loop.timers) := by
  decide

theorem HSet.mem_insert (s : HSet) (x : Handle) : x ∈ (s.insert x).val := by
  unfold HSet.insert
  split
  · assumption
  · simp

theorem uv_timer_start_handles (tpm : Int) (w : World) (t : Handle) (cb : Cb)
    (timeout rep : Int) (x : Handle) :
    (uv_timer_start tpm w t cb timeout rep).handles x =
      if x = t then
        { (w.handles t) with
          cb := cb, repeat_ := rep, flags := { (w.handles t).flags with running := true },
          timepoint := w.loop.timepoint + timeout * tpm }
      else w.handles x := by
  simp only [uv_timer_start, uv_timer_enqueue_handles]
  split <;> simp_all

theorem uv_timer_start_count (tpm : Int) (w : World) (t : Handle) (cb : Cb)
    (timeout rep : Int) (x : Handle) :
    (uv_timer_start tpm w t cb timeout rep).loop.timers.count x
      = w.loop.timers.count x + (if t = x then 1 else 0) := by
  simp only [uv_timer_start]
  rw [(uv_timer_enqueue_effect tpm _ t timeout).2.1 x]
  rfl

theorem collect_ready_handles_free (due : Handle → Bool) :
    ∀ (fuel : Nat) (timers ready : List Handle),
      List.Sublist (collect_ready due fuel timers ready).1 timers := by
  intro fuel
  induction fuel with
  | zero => intro timers ready; exact List.Sublist.refl _
  | succ n ih =>
    intro timers ready
    unfold collect_ready
    split
    · exact List.Sublist.refl _
    · split
      · exact (ih _ _).trans (List.dropLast_sublist _)
      · exact List.Sublist.refl _

/-- C5 (amended): what the start and stop calls and the timer phase do to
RUNNING and to the dispatch structures. `uv_timer_start` sets RUNNING and adds
one occurrence of the timer to the queue; `uv_timer_stop` clears RUNNING and
removes one occurrence; `uv_poll_start` sets and `uv_poll_stop` clears RUNNING;
`uv_idle_start` and `uv_idle_stop` insert and erase the idle and leave every
flag as it was; the `while` loop of the timer phase removes due timers from the
queue and leaves every flag as it was. -/
theorem C5_running_and_linking (tpm : Int) (w : World) (h : Handle) (cb : Cb) :
    (∀ timeout rep : Int,
      ((uv_timer_start tpm w h cb timeout rep).handles h).flags.running = true ∧
      (uv_timer_start tpm w h cb timeout rep).loop.timers.count h
        = w.loop.timers.count h + 1) ∧
    (((uv_timer_stop w h).handles h).flags.running = false ∧
      (uv_timer_stop w h).loop.timers.count h = w.loop.timers.count h - 1) ∧
    (∀ (events : Nat) (ctl : Int),
      ((uv_poll_start w h events cb ctl).1.handles h).flags.running = true) ∧
    (∀ ctl : Int, ((uv_poll_stop w h ctl).1.handles h).flags.running = false) ∧
    (h ∈ (uv_idle_start w h cb).loop.idlers.val ∧
      ∀ x, ((uv_idle_start w h cb).handles x).flags = (w.handles x).flags) ∧
    (h ∉ (uv_idle_stop w h).loop.idlers.val ∧ (uv_idle_stop w h).handles = w.handles) ∧
    (∀ now : Int, (timer_snapshot tpm w now).1.handles = w.handles ∧
      List.Sublist (timer_snapshot tpm w now).1.loop.timers w.loop.timers) := by
  refine ⟨fun timeout rep => ⟨?_, ?_⟩, ⟨?_, ?_⟩, fun events ctl => ?_, fun ctl => ?_,
    ⟨?_, fun x => ?_⟩, ⟨?_, rfl⟩, fun now => ⟨rfl, ?_⟩⟩
  · simp [uv_timer_start_handles]
  · rw [uv_timer_start_count]; simp
  · simp [uv_timer_stop]
  · simp only [uv_timer_stop, setL_loop, setH_loop]
    exact List.count_erase_self h _
  · simp only [uv_poll_start]
    split <;> simp
  · simp [uv_poll_stop]
  · simp only [uv_idle_start, setL_loop, setH_loop]
    exact HSet.mem_insert _ _
  · simp only [uv_idle_start, setL_handles, setH_handles]
    split <;> simp_all
  · simp only [uv_idle_stop, setL_loop]
    exact HSet.not_mem_erase _ _
  · simp only [timer_snapshot, setL_loop]
    exact collect_ready_handles_free _ _ _ _

/-! ## The close phase -/

theorem CloseQuiet.cq_refl (h : Handle) (w : World) : CloseQuiet h w w :=
  ⟨id, id, rfl⟩

theorem CloseQuiet.cq_trans {h : Handle} {a b c : World}
    (h1 : CloseQuiet h a b) (h2 : CloseQuiet h b c) : CloseQuiet h a c :=
  ⟨fun x => h2.1 (h1.1 x), fun x => h2.2.1 (h1.2.1 x), h2.2.2.trans h1.2.2⟩

/-- A step that leaves the pending-close queue, the flags of `h` and the log
alone. -/
theorem CloseQuiet.cq_of_fields {h : Handle} {w w2 : World}
    (hq : w2.loop.closing = w.loop.closing)
    (hf : (w2.handles h).flags.closing = (w.handles h).flags.closing ∧
          (w2.handles h).flags.closed = (w.handles h).flags.closed)
    (hl : w2.log = w.log) : CloseQuiet h w w2 := by
  refine ⟨fun x => hq ▸ x, fun x => ?_, by rw [hl]⟩
  simp only [uv_is_closing] at x ⊢
  rw [hf.1, hf.2]; exact x

theorem CloseQuiet.cq_foldl {α : Type} {h : Handle} (step : World → α → World)
    (hstep : ∀ w x, CloseQuiet h w (step w x)) :
    ∀ (xs : List α) (w : World), CloseQuiet h w (xs.foldl step w) := by
  intro xs
  induction xs with
  | nil => intro w; exact CloseQuiet.cq_refl h w
  | cons x rest ih => intro w; exact (hstep w x).cq_trans (ih _)

theorem CloseQuiet.cq_runOps {h : Handle} (tpm : Int) (w : World) (ops : List Op)
    (hops : ∀ op ∈ ops, h ∉ op.closes.map Prod.fst) :
    CloseQuiet h w (runOps tpm w ops) := by
  refine ⟨fun x => ?_, fun x => ?_, by rw [runOps_log]⟩
  · rw [runOps_closing_queue, List.map_append, List.mem_append]
    rintro (h1 | h2)
    · exact x h1
    · exact not_mem_closes_flatten h ops hops h2
  · simp only [uv_is_closing] at x ⊢
    rw [runOps_flags_closing, runOps_flags_closed]
    cases hc : (w.handles h).flags.closing <;> simp_all

theorem CloseQuiet.cq_invoke {h : Handle} (env : Env) (tpm : Int) (w : World) (c : Call)
    (henv : NeverCloses env h) (hc : c.isCloseOf h = false) :
    CloseQuiet h w (invoke env tpm w c) := by
  unfold uUV.invoke
  have h1 : CloseQuiet h w { w with log := w.log ++ [c] } := by
    refine ⟨id, id, ?_⟩
    simp [closeCalls, List.filter_append, hc]
  exact h1.cq_trans (CloseQuiet.cq_runOps tpm _ _ (henv c _))

theorem CloseQuiet.cq_enqueue {h : Handle} (tpm : Int) (w : World) (t : Handle) (timeout : Int) :
    CloseQuiet h w (uv_timer_enqueue tpm w t timeout) := by
  apply CloseQuiet.cq_of_fields
  · exact (uv_timer_enqueue_fields tpm w t timeout).1
  · rw [uv_timer_enqueue_handles]
    split <;> simp_all
  · exact uv_timer_enqueue_log tpm w t timeout

theorem CloseQuiet.cq_foldl_mem {α : Type} {h : Handle} (step : World → α → World)
    (xs : List α) (hstep : ∀ w x, x ∈ xs → CloseQuiet h w (step w x)) :
    ∀ w : World, CloseQuiet h w (xs.foldl step w) := by
  induction xs with
  | nil => intro w; exact CloseQuiet.cq_refl h w
  | cons x rest ih =>
    intro w
    exact (hstep w x (List.mem_cons_self _ _)).cq_trans
      (ih (fun w2 y hy => hstep w2 y (List.mem_cons_of_mem _ hy)) _)

theorem async_collect_fields (xs : List Handle) :
    ∀ acc : World × List Handle,
      let r := xs.foldl
        (fun (acc : World × List Handle) a =>
          if (acc.1.handles a).run then
            (acc.1.setH a fun r => { r with run := false }, acc.2 ++ [a])
          else acc) acc
      r.1.loop = acc.1.loop ∧ r.1.log = acc.1.log ∧
      r.1.poll_callbacks = acc.1.poll_callbacks ∧
      ∀ x, (r.1.handles x).flags = (acc.1.handles x).flags ∧
        (r.1.handles x).type = (acc.1.handles x).type ∧
        (r.1.handles x).cb = (acc.1.handles x).cb := by
  induction xs with
  | nil => intro acc; exact ⟨rfl, rfl, rfl, fun _ => ⟨rfl, rfl, rfl⟩⟩
  | cons a rest ih =>
    intro acc
    simp only [List.foldl_cons]
    split
    · obtain ⟨h1, h2, h3, h4⟩ := ih (acc.1.setH a fun r => { r with run := false }, acc.2 ++ [a])
      refine ⟨h1, h2, h3, fun x => ?_⟩
      rw [(h4 x).1, (h4 x).2.1, (h4 x).2.2]
      simp only [setH_handles]
      split <;> simp_all
    · exact ih acc

theorem CloseQuiet.cq_wait {h : Handle} (tpm : Int) (w : World) (now : Int) :
    CloseQuiet h w (wait_phase tpm w now).1 :=
  CloseQuiet.cq_of_fields rfl ⟨rfl, rfl⟩ rfl

theorem CloseQuiet.cq_poll {h : Handle} (env : Env) (tpm : Int) (henv : NeverCloses env h)
    (w : World) (ready : List epoll_event) :
    CloseQuiet h w (poll_phase env tpm w ready) := by
  unfold poll_phase
  apply CloseQuiet.cq_foldl
  intro w2 e
  rcases e with ⟨_ | p, ev⟩
  · exact CloseQuiet.cq_of_fields rfl ⟨rfl, rfl⟩ rfl
  · exact CloseQuiet.cq_invoke env tpm w2 _ henv rfl

theorem CloseQuiet.cq_async {h : Handle} (env : Env) (tpm : Int) (henv : NeverCloses env h)
    (w : World) : CloseQuiet h w (async_phase env tpm w) := by
  unfold async_phase
  split
  · obtain ⟨h1, h2, _, h4⟩ := async_collect_fields w.loop.asyncs.val (w, [])
    have hc : CloseQuiet h w (async_collect w w.loop.asyncs.val).1 :=
      CloseQuiet.cq_of_fields (by rw [async_collect, h1]) (by rw [async_collect, (h4 h).1]; exact ⟨rfl, rfl⟩)
        (by rw [async_collect, h2])
    refine hc.cq_trans (CloseQuiet.cq_foldl (async_step env tpm) (fun w2 a => ?_) _ _)
    exact CloseQuiet.cq_invoke env tpm w2 (Call.async_cb (w2.handles a).cb a) henv rfl
  · exact CloseQuiet.cq_refl h w

theorem CloseQuiet.cq_idle {h : Handle} (env : Env) (tpm : Int) (henv : NeverCloses env h)
    (w : World) : CloseQuiet h w (idle_phase env tpm w) := by
  unfold idle_phase
  split
  · refine CloseQuiet.cq_foldl (idle_step env tpm) (fun w2 a => ?_) _ _
    exact CloseQuiet.cq_invoke env tpm w2 (Call.idle_cb (w2.handles a).cb a) henv rfl
  · exact CloseQuiet.cq_refl h w

theorem CloseQuiet.cq_fire {h : Handle} (env : Env) (tpm : Int) (henv : NeverCloses env h)
    (w : World) (t : Handle) : CloseQuiet h w (fire_timer env tpm w t) := by
  simp only [fire_timer]
  split
  · split
    · exact (CloseQuiet.cq_invoke env tpm w (Call.timer_cb (w.handles t).cb t) henv rfl).cq_trans
        (CloseQuiet.cq_enqueue tpm _ t _)
    · exact CloseQuiet.cq_invoke env tpm w (Call.timer_cb (w.handles t).cb t) henv rfl
  · exact CloseQuiet.cq_refl h w

theorem CloseQuiet.cq_timer {h : Handle} (env : Env) (tpm : Int) (henv : NeverCloses env h)
    (w : World) (now : Int) : CloseQuiet h w (timer_phase env tpm w now) := by
  unfold timer_phase
  split
  · have hs : CloseQuiet h w (timer_snapshot tpm w now).1 :=
      CloseQuiet.cq_of_fields rfl ⟨rfl, rfl⟩ rfl
    exact hs.cq_trans (CloseQuiet.cq_foldl _ (CloseQuiet.cq_fire env tpm henv) _ _)
  · exact CloseQuiet.cq_refl h w

theorem close_retire_fields (w : World) (x : Handle) :
    (close_retire w x).loop.closing = w.loop.closing ∧
    (close_retire w x).log = w.log ∧
    (∀ y, y ≠ x → (close_retire w x).handles y = w.handles y) ∧
    ((close_retire w x).handles x).flags.closing = false ∧
    ((close_retire w x).handles x).flags.closed = true ∧
    (close_retire w x).loop.numEvents = w.loop.numEvents - 1 := by
  refine ⟨rfl, rfl, fun y hy => ?_, ?_, ?_, rfl⟩
  · simp [close_retire, hy]
  · simp [close_retire]
  · simp [close_retire]

/-- A close phase that starts with no pending close for `h` invokes no close
callback for `h`. -/
theorem CloseQuiet.cq_close {h : Handle} (env : Env) (tpm : Int) (henv : NeverCloses env h)
    (w : World) (hq : h ∉ w.loop.closing.map Prod.fst) :
    CloseQuiet h w (close_phase env tpm w) := by
  unfold close_phase
  split
  · have h0 : CloseQuiet h w (w.setL fun l => { l with closing := [] }) :=
      ⟨fun _ => by simp, id, rfl⟩
    refine h0.cq_trans (CloseQuiet.cq_foldl_mem _ _ (fun w2 c hc => ?_) _)
    have hne : c.1 ≠ h := fun he => hq (List.mem_map.mpr ⟨c, hc, he⟩)
    obtain ⟨f1, f2, f3, _⟩ := close_retire_fields w2 c.1
    have h1 : CloseQuiet h w2 (close_retire w2 c.1) :=
      CloseQuiet.cq_of_fields f1 (by rw [f3 h (Ne.symm hne)]; exact ⟨rfl, rfl⟩) f2
    exact h1.cq_trans (CloseQuiet.cq_invoke env tpm _ _ henv (by simp [Call.isCloseOf, hne]))
  · exact CloseQuiet.cq_refl h w

theorem CloseQuiet.cq_iter {h : Handle} (env : Env) (tpm : Int) (henv : NeverCloses env h)
    (w : World) (inp : IterInput) (hq : h ∉ w.loop.closing.map Prod.fst) :
    CloseQuiet h w (uv_run_iter env tpm w inp) := by
  unfold uv_run_iter
  exact (CloseQuiet.cq_close env tpm henv w hq).cq_trans
    ((CloseQuiet.cq_wait tpm _ _).cq_trans
      ((CloseQuiet.cq_poll env tpm henv _ _).cq_trans
        ((CloseQuiet.cq_async env tpm henv _).cq_trans
          ((CloseQuiet.cq_idle env tpm henv _).cq_trans (CloseQuiet.cq_timer env tpm henv _ _)))))

theorem CloseQuiet.cq_run_loop {h : Handle} (env : Env) (tpm : Int) (henv : NeverCloses env h)
    (inputs : Nat → IterInput) :
    ∀ (left loopIter : Nat) (w : World), h ∉ w.loop.closing.map Prod.fst →
      CloseQuiet h w (uv_run_loop env tpm inputs left loopIter w) := by
  intro left
  induction left with
  | zero => intro k w _; exact CloseQuiet.cq_refl h w
  | succ n ih =>
    intro k w hq
    unfold uv_run_loop
    split
    · have h1 := CloseQuiet.cq_iter env tpm henv w (inputs k) hq
      exact h1.cq_trans (ih (k + 1) _ (h1.1 hq))
    · exact CloseQuiet.cq_refl h w

theorem close_phase_fold_log (env : Env) (tpm : Int) (xs : List (Handle × Cb)) :
    ∀ w : World, (xs.foldl (close_step env tpm) w).log
      = w.log ++ xs.map fun c => Call.close_cb c.2 c.1 := by
  induction xs with
  | nil => intro w; simp
  | cons c rest ih =>
    intro w
    rw [List.foldl_cons, ih]
    simp only [close_step, invoke_log, (close_retire_fields w c.1).2.1, List.map_cons,
      List.append_assoc, List.singleton_append]

/-- The close phase invokes exactly the close callbacks of the entries that
were pending when it began, in queue order. -/
theorem close_phase_log (env : Env) (tpm : Int) (w : World) :
    (close_phase env tpm w).log
      = w.log ++ w.loop.closing.map fun c => Call.close_cb c.2 c.1 := by
  unfold close_phase
  split
  · rw [close_phase_fold_log]; rfl
  · rename_i hlen
    have : w.loop.closing = [] := by
      cases hq : w.loop.closing with
      | nil => rfl
      | cons a l => rw [hq] at hlen; simp at hlen
    simp [this]

theorem applyOp_is_closing (tpm : Int) (w : World) (op : Op) (h : Handle)
    (hc : uv_is_closing w h = true) : uv_is_closing (applyOp tpm w op) h = true := by
  simp only [uv_is_closing] at hc ⊢
  rw [applyOp_flags_closing, applyOp_flags_closed]
  cases h1 : (w.handles h).flags.closing <;> simp_all

theorem runOps_is_closing (tpm : Int) (ops : List Op) (h : Handle) :
    ∀ w : World, uv_is_closing w h = true → uv_is_closing (runOps tpm w ops) h = true := by
  induction ops with
  | nil => intro w hc; exact hc
  | cons op rest ih =>
    intro w hc
    rw [runOps_cons]
    exact ih _ (applyOp_is_closing tpm w op h hc)

theorem close_retire_is_closing (w : World) (x h : Handle)
    (hc : uv_is_closing w h = true) : uv_is_closing (close_retire w x) h = true := by
  obtain ⟨_, _, f3, f4, f5, _⟩ := close_retire_fields w x
  by_cases hx : h = x
  · subst hx
    simp [uv_is_closing, f5]
  · simp only [uv_is_closing] at hc ⊢
    rw [f3 h hx]; exact hc

theorem close_step_keeps (env : Env) (tpm : Int) (h : Handle) (w : World) (c : Handle × Cb) :
    (NeverCloses env h → h ∉ w.loop.closing.map Prod.fst →
      h ∉ (close_step env tpm w c).loop.closing.map Prod.fst) ∧
    (uv_is_closing w h = true → uv_is_closing (close_step env tpm w c) h = true) := by
  constructor
  · intro henv hq
    simp only [close_step, uUV.invoke]
    exact (CloseQuiet.cq_runOps tpm _ _ (henv _ _)).1 hq
  · intro hc
    simp only [close_step, uUV.invoke]
    apply runOps_is_closing
    exact close_retire_is_closing w c.1 h hc

theorem close_phase_keeps (env : Env) (tpm : Int) (h : Handle) (w : World) :
    (NeverCloses env h → w.loop.closing ≠ [] →
      h ∉ (close_phase env tpm w).loop.closing.map Prod.fst) ∧
    (uv_is_closing w h = true → uv_is_closing (close_phase env tpm w) h = true) := by
  have hfold : ∀ (xs : List (Handle × Cb)) (w2 : World),
      (NeverCloses env h → h ∉ w2.loop.closing.map Prod.fst →
        h ∉ (xs.foldl (close_step env tpm) w2).loop.closing.map Prod.fst) ∧
      (uv_is_closing w2 h = true →
        uv_is_closing (xs.foldl (close_step env tpm) w2) h = true) := by
    intro xs
    induction xs with
    | nil => intro w2; exact ⟨fun _ x => x, id⟩
    | cons c rest ih =>
      intro w2
      obtain ⟨k1, k2⟩ := close_step_keeps env tpm h w2 c
      obtain ⟨i1, i2⟩ := ih (close_step env tpm w2 c)
      exact ⟨fun henv hq => i1 henv (k1 henv hq), fun hc => i2 (k2 hc)⟩
  unfold close_phase
  constructor
  · intro henv hne
    have hlen : w.loop.closing.length ≠ 0 := by
      intro h0; exact hne (List.length_eq_zero.mp h0)
    rw [if_pos hlen]
    exact (hfold _ _).1 henv (by simp)
  · intro hc
    split
    · exact (hfold _ _).2 hc
    · exact hc

/-- C6: a handle `h` on which `uv_close(h, cb)` was called once (it is pending
once, with `cb`, and user code never closes it again) gets `cb(h)` exactly once
in the next close phase; that phase invokes exactly the callbacks of the
entries pending at its start, so a close issued inside a close callback waits
for the next iteration; through all later iterations no close callback is
invoked for `h` again. When the loop retires `h` it clears CLOSING and sets
CLOSED before the callback is entered, and `uv_is_closing(h)` stays true
through every API call, the close phase and all later iterations. -/
theorem C6_close_callback_exactly_once (env : Env) (tpm : Int) (w : World) (h : Handle)
    (cb : Cb)
    (hq : w.loop.closing.filter (fun c => decide (c.1 = h)) = [(h, cb)])
    (hflag : uv_is_closing w h = true)
    (henv : NeverCloses env h) :
    closeCalls h (close_phase env tpm w).log = closeCalls h w.log ++ [Call.close_cb cb h] ∧
    (close_phase env tpm w).log
      = w.log ++ w.loop.closing.map (fun c => Call.close_cb c.2 c.1) ∧
    (∀ (inputs : Nat → IterInput) (left loopIter : Nat),
      closeCalls h (uv_run_loop env tpm inputs left loopIter (close_phase env tpm w)).log
        = closeCalls h (close_phase env tpm w).log ∧
      uv_is_closing (uv_run_loop env tpm inputs left loopIter (close_phase env tpm w)) h
        = true) ∧
    (∀ w2 : World, ((close_retire w2 h).handles h).flags.closing = false ∧
      ((close_retire w2 h).handles h).flags.closed = true) ∧
    uv_is_closing (close_phase env tpm w) h = true ∧
    (∀ (w2 : World) (ops : List Op), uv_is_closing w2 h = true →
      uv_is_closing (runOps tpm w2 ops) h = true) := by
  have hne : w.loop.closing ≠ [] := by
    intro h0; rw [h0] at hq; simp at hq
  have hafter := (close_phase_keeps env tpm h w).1 henv hne
  have hclosing := (close_phase_keeps env tpm h w).2 hflag
  refine ⟨?_, close_phase_log env tpm w, fun inputs left k => ?_, fun w2 => ?_, hclosing,
    fun w2 ops hc => runOps_is_closing tpm ops h w2 hc⟩
  · rw [close_phase_log]
    simp only [closeCalls, List.filter_append]
    congr 1
    have hmap : ∀ xs : List (Handle × Cb),
        (xs.map fun c => Call.close_cb c.2 c.1).filter (Call.isCloseOf h)
          = (xs.filter fun c => decide (c.1 = h)).map fun c => Call.close_cb c.2 c.1 := by
      intro xs
      induction xs with
      | nil => rfl
      | cons c rest ih =>
        by_cases hc : c.1 = h
        · simp [List.filter_cons, Call.isCloseOf, hc, ih]
        · simp [List.filter_cons, Call.isCloseOf, hc, ih]
    rw [hmap, hq]
    rfl
  · have hrun := CloseQuiet.cq_run_loop env tpm henv inputs left k (close_phase env tpm w) hafter
    exact ⟨hrun.2.2, hrun.2.1 hclosing⟩
  · exact ⟨(close_retire_fields w2 h).2.2.2.1, (close_retire_fields w2 h).2.2.2.2.1⟩

/-- Witness for C6: timer 1 is pending close once; its close callback closes
timer 2, which is served in the following iteration, not in this phase. -/
theorem C6_close_callback_exactly_once_witness :
    pendingClose.loop.closing.filter (fun c => decide (c.1 = 1)) = [(1, 9)] ∧
    uv_is_closing pendingClose 1 = true ∧
    (close_phase chainCloseEnv 1000000 pendingClose).log = [Call.close_cb 9 1] ∧
    (close_phase chainCloseEnv 1000000 pendingClose).loop.closing = [(2, 9)] ∧
    closeCalls 1 (close_phase chainCloseEnv 1000000 pendingClose).log
      = closeCalls 1 pendingClose.log ++ [Call.close_cb 9 1] :=
  ⟨by decide, by decide, by decide, by decide,
   (C6_close_callback_exactly_once chainCloseEnv 1000000 pendingClose 1 9 (by decide)
      (by decide)
      (by
        intro c w op hop
        cases c <;> simp [chainCloseEnv] at hop
        obtain ⟨_, rfl⟩ := hop
        simp [Op.closes])).1⟩

/-! ## The count of live handles -/

theorem applyOp_type (tpm : Int) (w : World) (op : Op) (x : Handle) :
    ((applyOp tpm w op).handles x).type ≠ uv_handle_type.UV_UNKNOWN_HANDLE ↔
      ((w.handles x).type ≠ uv_handle_type.UV_UNKNOWN_HANDLE ∨ op.inits = some x) := by
  cases op <;>
    simp [applyOp, Op.inits, uv_close_handles, uv_async_init, uv_async_send, uv_idle_init,
      uv_idle_start, uv_idle_stop, uv_poll_init_socket, uv_poll_start, uv_poll_stop,
      uv_timer_init, uv_timer_start, uv_timer_stop, uv_timer_enqueue_handles,
      apply_ite uv_handle_t.type]
  all_goals (repeat' split)
  all_goals (try simp)
  all_goals (repeat' split)
  all_goals (first | rfl | (intro h1; omega) | (simp_all; done) | tauto)

theorem applyOp_numEvents (tpm : Int) (w : World) (op : Op) :
    (applyOp tpm w op).loop.numEvents
      = w.loop.numEvents + (if op.inits.isSome then 1 else 0) := by
  cases op <;>
    simp [applyOp, Op.inits, uv_close_loop, uv_async_init, uv_async_send, uv_idle_init,
      uv_idle_start, uv_idle_stop, uv_poll_init_socket, uv_poll_start, uv_poll_stop,
      uv_timer_init, uv_timer_start, uv_timer_stop, (uv_timer_enqueue_fields _ _ _ _).2.2.2.1]
  all_goals (repeat' split)
  all_goals (first | rfl | simp_all)

theorem liveHandle_congr {w w2 : World} {h : Handle}
    (ht : (w2.handles h).type = uv_handle_type.UV_UNKNOWN_HANDLE ↔
      (w.handles h).type = uv_handle_type.UV_UNKNOWN_HANDLE)
    (hc : (w2.handles h).flags.closed = (w.handles h).flags.closed) :
    liveHandle w2 h = liveHandle w h := by
  simp only [liveHandle, hc]
  congr 1
  simp only [ne_eq, decide_eq_decide]
  exact not_congr ht

/-- A step that leaves the tags, the CLOSING and CLOSED flags, `numEvents` and
the pending-close queue alone keeps the invariant. -/
theorem CountInv.ci_of_fields {w w2 : World} {rem : List Handle}
    (ht : ∀ x, (w2.handles x).type = uv_handle_type.UV_UNKNOWN_HANDLE ↔
      (w.handles x).type = uv_handle_type.UV_UNKNOWN_HANDLE)
    (hf : ∀ x, (w2.handles x).flags.closing = (w.handles x).flags.closing ∧
      (w2.handles x).flags.closed = (w.handles x).flags.closed)
    (hn : w2.loop.numEvents = w.loop.numEvents)
    (hq : w2.loop.closing = w.loop.closing)
    (inv : CountInv w rem) : CountInv w2 rem := by
  have hl : ∀ x, liveHandle w2 x = liveHandle w x :=
    fun x => liveHandle_congr (ht x) (hf x).2
  obtain ⟨S, hS1, hS2, hS3⟩ := inv.count
  refine ⟨⟨S, hS1, fun h => by rw [hl]; exact hS2 h, by rw [hn]; exact hS3⟩, ?_, ?_, ?_, ?_⟩
  · intro h hu
    rw [(hf h).1, (hf h).2]
    exact inv.fresh h ((ht h).mp hu)
  · intro h hc
    rw [hl]; rw [(hf h).1] at hc
    exact inv.closing_live h hc
  · rw [hq]; exact inv.pend_nodup
  · intro h hh
    rw [hq] at hh
    rw [(hf h).1]; exact inv.pend_closing h hh

theorem Op.closes_of_inits {op : Op} {h : Handle} (hi : op.inits = some h) :
    op.closes = [] := by
  cases op <;> simp_all [Op.inits, Op.closes]

theorem Op.closes_cases (op : Op) :
    op.closes = [] ∨ ∃ h cb, op.closes = [(h, cb)] ∧ op.inits = none := by
  cases op <;> simp [Op.inits, Op.closes]

theorem CountInv.ci_init {tpm : Int} {w : World} {rem : List Handle} {op : Op} {h : Handle}
    (hi : op.inits = some h) (hal : Allowed w op) (inv : CountInv w rem) :
    CountInv (applyOp tpm w op) rem := by
  have hcl : op.closes = [] := Op.closes_of_inits hi
  have hu : (w.handles h).type = uv_handle_type.UV_UNKNOWN_HANDLE := hal.1 h hi
  have hty := applyOp_type tpm w op
  have hclosed := applyOp_flags_closed tpm w op
  have hclosing : ∀ x, ((applyOp tpm w op).handles x).flags.closing
      = (w.handles x).flags.closing := by
    intro x; rw [applyOp_flags_closing, hcl]; simp
  have hq : (applyOp tpm w op).loop.closing = w.loop.closing := by
    rw [applyOp_closing_queue, hcl]; simp
  have hn : (applyOp tpm w op).loop.numEvents = w.loop.numEvents + 1 := by
    rw [applyOp_numEvents, hi]; simp
  have hlive : ∀ x, liveHandle (applyOp tpm w op) x = true ↔ (x = h ∨ liveHandle w x = true) := by
    intro x
    simp only [liveHandle, Bool.and_eq_true, decide_eq_true_eq, Bool.not_eq_true',
      hclosed, hty, hi, Option.some.injEq]
    constructor
    · rintro ⟨h1 | h1, h2⟩
      · exact Or.inr ⟨h1, h2⟩
      · exact Or.inl h1.symm
    · rintro (rfl | ⟨h1, h2⟩)
      · exact ⟨Or.inr rfl, (inv.fresh x hu).2⟩
      · exact ⟨Or.inl h1, h2⟩
  obtain ⟨S, hS1, hS2, hS3⟩ := inv.count
  have hnot : h ∉ S := by
    intro hm
    have := (hS2 h).mp hm
    simp [liveHandle, hu] at this
  refine ⟨⟨h :: S, List.nodup_cons.mpr ⟨hnot, hS1⟩, fun x => ?_, ?_⟩, ?_, ?_, ?_, ?_⟩
  · rw [hlive, List.mem_cons, hS2]
  · rw [hn, hS3]; simp
  · intro x hx
    have hx2 : (w.handles x).type = uv_handle_type.UV_UNKNOWN_HANDLE := by
      by_contra hc
      exact (hty x).mpr (Or.inl hc) hx
    rw [hclosing, hclosed]
    exact inv.fresh x hx2
  · intro x hx
    rw [hclosing] at hx
    exact (hlive x).mpr (Or.inr (inv.closing_live x hx))
  · rw [hq]; exact inv.pend_nodup
  · intro x hx
    rw [hq] at hx
    rw [hclosing]; exact inv.pend_closing x hx

theorem CountInv.ci_close {tpm : Int} {w : World} {rem : List Handle} {op : Op} {h : Handle}
    {cb : Cb} (hcl : op.closes = [(h, cb)]) (hi : op.inits = none) (hal : Allowed w op)
    (inv : CountInv w rem) : CountInv (applyOp tpm w op) rem := by
  obtain ⟨hty0, hnc⟩ := hal.2 (h, cb) (by rw [hcl]; simp)
  simp only [uv_is_closing, Bool.or_eq_false_iff] at hnc
  have hty : ∀ x, ((applyOp tpm w op).handles x).type = uv_handle_type.UV_UNKNOWN_HANDLE ↔
      (w.handles x).type = uv_handle_type.UV_UNKNOWN_HANDLE := by
    intro x
    have := applyOp_type tpm w op x
    rw [hi] at this
    simp only [reduceCtorEq, or_false] at this
    exact not_iff_not.mp this
  have hclosed := applyOp_flags_closed tpm w op
  have hclosing : ∀ x, ((applyOp tpm w op).handles x).flags.closing
      = ((w.handles x).flags.closing || decide (x = h)) := by
    intro x; rw [applyOp_flags_closing, hcl]; simp
  have hq : (applyOp tpm w op).loop.closing = w.loop.closing ++ [(h, cb)] := by
    rw [applyOp_closing_queue, hcl]
  have hn : (applyOp tpm w op).loop.numEvents = w.loop.numEvents := by
    rw [applyOp_numEvents, hi]; simp
  have hl : ∀ x, liveHandle (applyOp tpm w op) x = liveHandle w x :=
    fun x => liveHandle_congr (hty x) (hclosed x)
  have hlive_h : liveHandle w h = true := by
    simp [liveHandle, hty0, hnc.2]
  obtain ⟨S, hS1, hS2, hS3⟩ := inv.count
  refine ⟨⟨S, hS1, fun x => by rw [hl]; exact hS2 x, by rw [hn]; exact hS3⟩, ?_, ?_, ?_, ?_⟩
  · intro x hx
    have hx2 := (hty x).mp hx
    have hne : x ≠ h := fun he => hty0 (he ▸ hx2)
    rw [hclosing, hclosed]
    simp only [hne, decide_False, Bool.or_false]
    exact inv.fresh x hx2
  · intro x hx
    rw [hl]
    rw [hclosing] at hx
    simp only [Bool.or_eq_true, decide_eq_true_eq] at hx
    rcases hx with hx | rfl
    · exact inv.closing_live x hx
    · exact hlive_h
  · rw [hq, List.map_append, ← List.append_assoc]
    have hnotin : h ∉ rem ++ w.loop.closing.map Prod.fst := by
      intro hm
      have := inv.pend_closing h hm
      rw [hnc.1] at this
      exact Bool.false_ne_true this
    rw [List.nodup_append]
    refine ⟨inv.pend_nodup, by simp, ?_⟩
    intro a ha hb
    simp only [List.map_cons, List.map_nil, List.mem_singleton] at hb
    subst hb
    exact hnotin ha
  · intro x hx
    rw [hclosing]
    rw [hq, List.map_append, ← List.append_assoc, List.mem_append] at hx
    rcases hx with hx | hx
    · rw [inv.pend_closing x hx]; rfl
    · simp only [List.map_cons, List.map_nil, List.mem_singleton] at hx
      simp [hx]

theorem CountInv.ci_applyOp {tpm : Int} {w : World} {rem : List Handle} {op : Op}
    (hal : Allowed w op) (inv : CountInv w rem) : CountInv (applyOp tpm w op) rem := by
  cases hi : op.inits with
  | some h => exact CountInv.ci_init hi hal inv
  | none =>
    rcases Op.closes_cases op with hcl | ⟨h, cb, hcl, _⟩
    · refine CountInv.ci_of_fields (fun x => ?_) (fun x => ⟨?_, applyOp_flags_closed tpm w op x⟩)
        ?_ ?_ inv
      · have := applyOp_type tpm w op x
        rw [hi] at this
        simp only [reduceCtorEq, or_false] at this
        exact not_iff_not.mp this
      · rw [applyOp_flags_closing, hcl]; simp
      · rw [applyOp_numEvents, hi]; simp
      · rw [applyOp_closing_queue, hcl]; simp
    · exact CountInv.ci_close hcl hi hal inv

theorem CountInv.ci_runOps {tpm : Int} {rem : List Handle} (ops : List Op) :
    ∀ w : World, OpsAllowed tpm w ops → CountInv w rem → CountInv (runOps tpm w ops) rem := by
  induction ops with
  | nil => intro w _ inv; exact inv
  | cons op rest ih =>
    intro w hal inv
    rw [runOps_cons]
    exact ih _ hal.2 (CountInv.ci_applyOp hal.1 inv)

theorem CountInv.ci_invoke {env : Env} {tpm : Int} {w : World} {rem : List Handle}
    (hd : Disciplined env tpm) (c : Call) (inv : CountInv w rem) :
    CountInv (invoke env tpm w c) rem := by
  unfold uUV.invoke
  apply CountInv.ci_runOps _ _ (hd c _)
  exact @CountInv.ci_of_fields w _ rem (fun _ => Iff.rfl) (fun _ => ⟨rfl, rfl⟩) rfl rfl inv

theorem CountInv.ci_retire {w : World} {rem : List Handle} {x : Handle}
    (inv : CountInv w (x :: rem)) : CountInv (close_retire w x) rem := by
  obtain ⟨f1, _, f3, f4, f5, f6⟩ := close_retire_fields w x
  have hxc : (w.handles x).flags.closing = true := inv.pend_closing x (by simp)
  have hxl : liveHandle w x = true := inv.closing_live x hxc
  have hl : ∀ y, y ≠ x → liveHandle (close_retire w x) y = liveHandle w y := by
    intro y hy; simp only [liveHandle, f3 y hy]
  have hlx : liveHandle (close_retire w x) x = false := by
    simp [liveHandle, f5]
  have hnd := inv.pend_nodup
  rw [List.cons_append, List.nodup_cons] at hnd
  obtain ⟨S, hS1, hS2, hS3⟩ := inv.count
  have hxS : x ∈ S := (hS2 x).mpr hxl
  refine ⟨⟨S.erase x, hS1.erase x, fun y => ?_, ?_⟩, ?_, ?_, ?_, ?_⟩
  · rw [hS1.mem_erase_iff]
    by_cases hy : y = x
    · subst hy; simp [hlx]
    · rw [hl y hy, hS2]; simp [hy]
  · rw [f6, hS3, List.length_erase_of_mem hxS]
    have : 0 < S.length := List.length_pos_of_mem hxS
    omega
  · intro y hy
    by_cases hyx : y = x
    · subst hyx
      have hty : (w.handles y).type ≠ uv_handle_type.UV_UNKNOWN_HANDLE := by
        simp only [liveHandle, Bool.and_eq_true, decide_eq_true_eq] at hxl
        exact hxl.1
      exfalso
      simp only [uUV.close_retire, setH_handles, if_true] at hy
      exact hty hy
    · rw [f3 y hyx] at hy ⊢
      exact inv.fresh y hy
  · intro y hy
    by_cases hyx : y = x
    · subst hyx; rw [f4] at hy; exact absurd hy Bool.false_ne_true
    · rw [hl y hyx]; rw [f3 y hyx] at hy
      exact inv.closing_live y hy
  · rw [f1]; exact hnd.2
  · intro y hy
    rw [f1] at hy
    have hyx : y ≠ x := fun he => hnd.1 (he ▸ hy)
    rw [f3 y hyx]
    exact inv.pend_closing y (by rw [List.cons_append]; exact List.mem_cons_of_mem _ hy)

theorem CountInv.ci_close_fold {env : Env} {tpm : Int} (hd : Disciplined env tpm)
    (xs : List (Handle × Cb)) :
    ∀ w : World, CountInv w (xs.map Prod.fst) →
      CountInv (xs.foldl (close_step env tpm) w) [] := by
  induction xs with
  | nil => intro w inv; exact inv
  | cons c rest ih =>
    intro w inv
    rw [List.foldl_cons]
    apply ih
    simp only [close_step]
    exact CountInv.ci_invoke hd _ (CountInv.ci_retire inv)

theorem CountInv.ci_closePhase {env : Env} {tpm : Int} (hd : Disciplined env tpm)
    {w : World} (inv : CountInv w []) : CountInv (close_phase env tpm w) [] := by
  unfold uUV.close_phase
  split
  · apply CountInv.ci_close_fold hd
    obtain ⟨c, f, cl, pn, pc⟩ := inv
    refine ⟨c, f, cl, ?_, ?_⟩
    · simpa using pn
    · intro h hh
      apply pc h
      simpa using hh
  · exact inv

theorem CountInv.ci_foldl {α : Type} (step : World → α → World)
    (hstep : ∀ w x, CountInv w [] → CountInv (step w x) []) :
    ∀ (xs : List α) (w : World), CountInv w [] → CountInv (xs.foldl step w) [] := by
  intro xs
  induction xs with
  | nil => intro w inv; exact inv
  | cons x rest ih => intro w inv; exact ih _ (hstep w x inv)

theorem CountInv.ci_pollPhase {env : Env} {tpm : Int} (hd : Disciplined env tpm)
    {w : World} (ready : List epoll_event) (inv : CountInv w []) :
    CountInv (poll_phase env tpm w ready) [] := by
  unfold uUV.poll_phase
  refine CountInv.ci_foldl _ (fun w2 e inv2 => ?_) _ _ inv
  rcases e with ⟨_ | p, ev⟩
  · exact @CountInv.ci_of_fields w2 _ [] (fun _ => Iff.rfl) (fun _ => ⟨rfl, rfl⟩) rfl rfl inv2
  · exact CountInv.ci_invoke hd _ inv2

theorem CountInv.ci_asyncPhase {env : Env} {tpm : Int} (hd : Disciplined env tpm)
    {w : World} (inv : CountInv w []) : CountInv (async_phase env tpm w) [] := by
  unfold uUV.async_phase
  split
  · refine CountInv.ci_foldl _ (fun w2 a inv2 => CountInv.ci_invoke hd _ inv2) _ _ ?_
    obtain ⟨h1, _, _, h4⟩ := async_collect_fields w.loop.asyncs.val (w, [])
    refine @CountInv.ci_of_fields w _ [] (fun x => ?_) (fun x => ?_) ?_ ?_ inv
    · rw [async_collect, (h4 x).2.1]
    · rw [async_collect, (h4 x).1]; exact ⟨rfl, rfl⟩
    · rw [async_collect, h1]
    · rw [async_collect, h1]
  · exact inv

theorem CountInv.ci_idlePhase {env : Env} {tpm : Int} (hd : Disciplined env tpm)
    {w : World} (inv : CountInv w []) : CountInv (idle_phase env tpm w) [] := by
  unfold uUV.idle_phase
  split
  · exact CountInv.ci_foldl _ (fun w2 a inv2 => CountInv.ci_invoke hd _ inv2) _ _ inv
  · exact inv

theorem CountInv.ci_enqueue {tpm : Int} {w : World} (t : Handle) (timeout : Int)
    (inv : CountInv w []) : CountInv (uv_timer_enqueue tpm w t timeout) [] := by
  obtain ⟨e1, _, _, e4, _⟩ := uv_timer_enqueue_fields tpm w t timeout
  refine @CountInv.ci_of_fields w _ [] (fun x => ?_) (fun x => ?_) e4 e1 inv
  · rw [uv_timer_enqueue_handles]; split <;> simp_all
  · rw [uv_timer_enqueue_handles]; split <;> simp_all

theorem CountInv.ci_timerPhase {env : Env} {tpm : Int} (hd : Disciplined env tpm)
    {w : World} (now : Int) (inv : CountInv w []) :
    CountInv (timer_phase env tpm w now) [] := by
  unfold uUV.timer_phase
  split
  · refine CountInv.ci_foldl _ (fun w2 t inv2 => ?_) _ _ ?_
    · simp only [fire_timer]
      split
      · split
        · exact CountInv.ci_enqueue _ _ (CountInv.ci_invoke hd _ inv2)
        · exact CountInv.ci_invoke hd _ inv2
      · exact inv2
    · exact @CountInv.ci_of_fields w _ [] (fun _ => Iff.rfl) (fun _ => ⟨rfl, rfl⟩) rfl rfl inv
  · exact inv

theorem CountInv.ci_start : CountInv {} [] := by
  refine ⟨⟨[], List.nodup_nil, fun h => ?_, rfl⟩, fun h _ => ⟨rfl, rfl⟩, fun h hc => ?_, ?_, ?_⟩
  · simp [liveHandle]
  · exact absurd hc Bool.false_ne_true
  · exact List.nodup_nil
  · intro h hh; simp at hh

theorem CountInv.ci_of_reachable {env : Env} {tpm : Int} (hd : Disciplined env tpm)
    {w : World} (hr : Reachable env tpm w) : CountInv w [] := by
  induction hr with
  | start => exact CountInv.ci_start
  | api w op _ hal ih => exact CountInv.ci_applyOp hal ih
  | close w _ ih => exact CountInv.ci_closePhase hd ih
  | wait w now _ ih =>
    exact @CountInv.ci_of_fields w _ [] (fun _ => Iff.rfl) (fun _ => ⟨rfl, rfl⟩) rfl rfl ih
  | poll w ready _ ih => exact CountInv.ci_pollPhase hd ready ih
  | async w _ ih => exact CountInv.ci_asyncPhase hd ih
  | idle w _ ih => exact CountInv.ci_idlePhase hd ih
  | timer w now _ ih => exact CountInv.ci_timerPhase hd now ih

/-- C7: in every state reached from the initial state by API calls and phases
of `uv_run`, where every init is applied to a handle not initialised before
and `uv_close` is called at most once per handle and only on initialised
handles (by the program and by its callbacks), `numEvents` is non-negative and
equals the number of handles for which init has run and whose close callback
has not fired: `S` lists these handles without repetition. -/
theorem C7_numEvents_counts_live_handles (env : Env) (tpm : Int) (w : World)
    (hd : Disciplined env tpm) (hr : Reachable env tpm w) :
    0 ≤ w.loop.numEvents ∧
    ∃ S : List Handle, S.Nodup ∧ (∀ h, h ∈ S ↔ liveHandle w h = true) ∧
      w.loop.numEvents = S.length := by
  obtain ⟨S, hS1, hS2, hS3⟩ := (CountInv.ci_of_reachable hd hr).count
  exact ⟨by rw [hS3]; exact Int.natCast_nonneg _, S, hS1, hS2, hS3⟩

theorem guardedCloseEnv_disciplined (tpm : Int) : Disciplined guardedCloseEnv tpm := by
  intro c w
  cases c <;> simp only [guardedCloseEnv, OpsAllowed]
  split
  · rename_i hg
    refine ⟨⟨fun h hi => by simp [Op.inits] at hi, fun c hc => ?_⟩, trivial⟩
    simp only [Op.closes, List.mem_singleton] at hc
    subst hc
    exact ⟨hg.2.1, hg.2.2⟩
  · trivial

/-- Witness for C7: timers 1 and 2 are initialised, timer 1 is closed, and the
close phase runs; the close callback of timer 1 closes timer 2. Afterwards
`numEvents` is 1 and timer 2 is the one live handle. -/
theorem C7_numEvents_counts_live_handles_witness :
    (close_phase guardedCloseEnv 1000000 pendingClose).loop.numEvents = 1 ∧
    liveHandle (close_phase guardedCloseEnv 1000000 pendingClose) 1 = false ∧
    liveHandle (close_phase guardedCloseEnv 1000000 pendingClose) 2 = true ∧
    (0 ≤ (close_phase guardedCloseEnv 1000000 pendingClose).loop.numEvents ∧
     ∃ S : List Handle, S.Nodup ∧
      (∀ h, h ∈ S ↔ liveHandle (close_phase guardedCloseEnv 1000000 pendingClose) h = true) ∧
      (close_phase guardedCloseEnv 1000000 pendingClose).loop.numEvents = S.length) :=
  ⟨by decide, by decide, by decide,
   C7_numEvents_counts_live_handles guardedCloseEnv 1000000 _
     (guardedCloseEnv_disciplined 1000000)
     (Reachable.close _
       (Reachable.api _ (Op.close 1 9)
         (Reachable.api _ (Op.timer_init 2 0)
           (Reachable.api _ (Op.timer_init 1 0) Reachable.start
             ⟨fun h hi => rfl, fun c hc => by simp [Op.closes] at hc⟩)
           ⟨fun h hi => by simp [Op.inits] at hi; subst hi; decide,
            fun c hc => by simp [Op.closes] at hc⟩)
         ⟨fun h hi => by simp [Op.inits] at hi,
          fun c hc => by simp [Op.closes] at hc; subst hc; decide⟩))⟩

/-! ## Stopped handles -/

theorem Keeps.kp_refl (P : World → Prop) (q : Call → Bool) (w : World) : Keeps P q w w :=
  fun h => ⟨h, rfl⟩

theorem Keeps.kp_trans {P : World → Prop} {q : Call → Bool} {a b c : World}
    (h1 : Keeps P q a b) (h2 : Keeps P q b c) : Keeps P q a c :=
  fun h => ⟨(h2 (h1 h).1).1, (h2 (h1 h).1).2.trans (h1 h).2⟩

theorem Keeps.kp_foldl {α : Type} {P : World → Prop} {q : Call → Bool}
    (step : World → α → World) (hstep : ∀ w x, Keeps P q w (step w x)) :
    ∀ (xs : List α) (w : World), Keeps P q w (xs.foldl step w) := by
  intro xs
  induction xs with
  | nil => intro w; exact Keeps.kp_refl P q w
  | cons x rest ih => intro w; exact (hstep w x).kp_trans (ih _)

theorem Keeps.kp_neutral {env : Env} {tpm : Int} {P : World → Prop} {q : Call → Bool}
    (sp : KeepsSpec env tpm P q) {w w2 : World}
    (hr : ∀ x, (w2.handles x).flags.running = (w.handles x).flags.running)
    (hi : w2.loop.idlers = w.loop.idlers) (hl : w2.log = w.log) : Keeps P q w w2 :=
  fun h => ⟨sp.dep w w2 hr hi h, by rw [hl]⟩

theorem Keeps.kp_invoke {env : Env} {tpm : Int} {P : World → Prop} {q : Call → Bool}
    (sp : KeepsSpec env tpm P q) (w : World) (c : Call) (hc : P w → q c = false) :
    Keeps P q w (uUV.invoke env tpm w c) := by
  intro h
  unfold uUV.invoke
  refine ⟨sp.ops _ c (sp.dep w _ (fun _ => rfl) rfl h), ?_⟩
  rw [runOps_log]
  simp [List.filter_append, hc h]

theorem Keeps.kp_poll {env : Env} {tpm : Int} {P : World → Prop} {q : Call → Bool}
    (sp : KeepsSpec env tpm P q) (w : World) (ready : List epoll_event) :
    Keeps P q w (poll_phase env tpm w ready) := by
  unfold poll_phase
  apply Keeps.kp_foldl
  intro w2 e
  rcases e with ⟨_ | p, ev⟩
  · exact Keeps.kp_neutral sp (fun _ => rfl) rfl rfl
  · exact Keeps.kp_invoke sp w2 _ (fun _ => sp.poll _ _ _ _)

theorem Keeps.kp_async {env : Env} {tpm : Int} {P : World → Prop} {q : Call → Bool}
    (sp : KeepsSpec env tpm P q) (w : World) : Keeps P q w (async_phase env tpm w) := by
  unfold async_phase
  split
  · obtain ⟨h1, h2, _, h4⟩ := async_collect_fields w.loop.asyncs.val (w, [])
    have hc : Keeps P q w (async_collect w w.loop.asyncs.val).1 :=
      Keeps.kp_neutral sp (fun x => by rw [async_collect, (h4 x).1]) (by rw [async_collect, h1])
        (by rw [async_collect, h2])
    refine hc.kp_trans (Keeps.kp_foldl (async_step env tpm) (fun w2 a => ?_) _ _)
    exact Keeps.kp_invoke sp w2 (Call.async_cb (w2.handles a).cb a) (fun _ => sp.async _ _)
  · exact Keeps.kp_refl P q w

theorem Keeps.kp_fire {env : Env} {tpm : Int} {P : World → Prop} {q : Call → Bool}
    (sp : KeepsSpec env tpm P q) (w : World) (t : Handle) :
    Keeps P q w (fire_timer env tpm w t) := by
  simp only [fire_timer]
  split
  · rename_i hrun
    have h1 : Keeps P q w (uUV.invoke env tpm w (Call.timer_cb (w.handles t).cb t)) :=
      Keeps.kp_invoke sp w _ (fun hp => sp.timer w t hp hrun _)
    split
    · refine h1.kp_trans (Keeps.kp_neutral sp (fun x => ?_)
        (uv_timer_enqueue_fields tpm _ t _).2.2.1 (uv_timer_enqueue_log tpm _ t _))
      rw [uv_timer_enqueue_handles]; split <;> simp_all
    · exact h1
  · exact Keeps.kp_refl P q w

theorem Keeps.kp_timer {env : Env} {tpm : Int} {P : World → Prop} {q : Call → Bool}
    (sp : KeepsSpec env tpm P q) (w : World) (now : Int) :
    Keeps P q w (timer_phase env tpm w now) := by
  unfold timer_phase
  split
  · have hs : Keeps P q w (timer_snapshot tpm w now).1 :=
      Keeps.kp_neutral sp (fun _ => rfl) rfl rfl
    exact hs.kp_trans (Keeps.kp_foldl _ (Keeps.kp_fire sp) _ _)
  · exact Keeps.kp_refl P q w

theorem Keeps.kp_close {env : Env} {tpm : Int} {P : World → Prop} {q : Call → Bool}
    (sp : KeepsSpec env tpm P q) (w : World) : Keeps P q w (close_phase env tpm w) := by
  unfold close_phase
  split
  · have h0 : Keeps P q w (w.setL fun l => { l with closing := [] }) :=
      Keeps.kp_neutral sp (fun _ => rfl) rfl rfl
    refine h0.kp_trans (Keeps.kp_foldl _ (fun w2 c => ?_) _ _)
    have h1 : Keeps P q w2 (close_retire w2 c.1) := by
      refine Keeps.kp_neutral sp (fun x => ?_) rfl rfl
      simp only [close_retire, setH_handles, setL_handles]
      split <;> simp_all
    exact h1.kp_trans (Keeps.kp_invoke sp _ _ (fun _ => sp.close _ _))
  · exact Keeps.kp_refl P q w

theorem Keeps.kp_foldl_mem {α : Type} {P : World → Prop} {q : Call → Bool}
    (step : World → α → World) (xs : List α)
    (hstep : ∀ w x, x ∈ xs → Keeps P q w (step w x)) :
    ∀ w : World, Keeps P q w (xs.foldl step w) := by
  induction xs with
  | nil => intro w; exact Keeps.kp_refl P q w
  | cons x rest ih =>
    intro w
    exact (hstep w x (List.mem_cons_self _ _)).kp_trans
      (ih (fun w2 y hy => hstep w2 y (List.mem_cons_of_mem _ hy)) _)

theorem Keeps.kp_idle {env : Env} {tpm : Int} {P : World → Prop} {q : Call → Bool}
    (sp : KeepsSpec env tpm P q) (w : World) : Keeps P q w (idle_phase env tpm w) := by
  unfold idle_phase
  split
  · intro hP
    have hsnap := sp.idle w hP
    exact Keeps.kp_foldl_mem (idle_step env tpm) _
      (fun w2 x hx => Keeps.kp_invoke sp w2 (Call.idle_cb (w2.handles x).cb x)
        (fun _ => hsnap x hx _)) w hP
  · exact Keeps.kp_refl P q w

theorem Keeps.kp_iter {env : Env} {tpm : Int} {P : World → Prop} {q : Call → Bool}
    (sp : KeepsSpec env tpm P q) (w : World) (inp : IterInput) :
    Keeps P q w (uv_run_iter env tpm w inp) := by
  unfold uv_run_iter
  have hw : Keeps P q (close_phase env tpm w) (wait_phase tpm (close_phase env tpm w) inp.nowWait).1 :=
    Keeps.kp_neutral sp (fun _ => rfl) rfl rfl
  exact (Keeps.kp_close sp w).kp_trans
    (hw.kp_trans ((Keeps.kp_poll sp _ _).kp_trans
      ((Keeps.kp_async sp _).kp_trans ((Keeps.kp_idle sp _).kp_trans (Keeps.kp_timer sp _ _)))))

theorem Keeps.kp_run_loop {env : Env} {tpm : Int} {P : World → Prop} {q : Call → Bool}
    (sp : KeepsSpec env tpm P q) (inputs : Nat → IterInput) :
    ∀ (left loopIter : Nat) (w : World),
      Keeps P q w (uv_run_loop env tpm inputs left loopIter w) := by
  intro left
  induction left with
  | zero => intro k w; exact Keeps.kp_refl P q w
  | succ n ih =>
    intro k w
    unfold uv_run_loop
    split
    · exact (Keeps.kp_iter sp w (inputs k)).kp_trans (ih (k + 1) _)
    · exact Keeps.kp_refl P q w

theorem HSet.mem_insert_iff (s : HSet) (x y : Handle) :
    y ∈ (s.insert x).val ↔ y ∈ s.val ∨ y = x := by
  unfold HSet.insert
  split
  · rename_i hx
    constructor
    · exact Or.inl
    · rintro (h | rfl)
      · exact h
      · exact hx
  · simp

theorem HSet.mem_of_mem_erase (s : HSet) (x y : Handle) (h : y ∈ (s.erase x).val) :
    y ∈ s.val :=
  List.mem_of_mem_erase h

theorem applyOp_running_false (tpm : Int) (w : World) (op : Op) (t : Handle)
    (hns : op.starts ≠ some t) (hr : (w.handles t).flags.running = false) :
    ((applyOp tpm w op).handles t).flags.running = false := by
  cases op <;>
    simp [applyOp, Op.starts, uv_close_handles, uv_async_init, uv_async_send, uv_idle_init,
      uv_idle_start, uv_idle_stop, uv_poll_init_socket, uv_poll_start, uv_poll_stop,
      uv_timer_init, uv_timer_start, uv_timer_stop, uv_timer_enqueue_handles,
      apply_ite uv_handle_t.flags, apply_ite Flags.running] at hns ⊢
  all_goals (repeat' split)
  all_goals (try simp)
  all_goals (repeat' split)
  all_goals (try (first | exact hr | (intro h1; omega) | (simp_all; done) | omega))
  exact ⟨fun h => hns h.symm, hr⟩

theorem applyOp_idlers_not_mem (tpm : Int) (w : World) (op : Op) (i : Handle)
    (hns : op.starts ≠ some i) (hi : i ∉ w.loop.idlers.val) :
    i ∉ (applyOp tpm w op).loop.idlers.val := by
  cases op <;>
    simp [applyOp, Op.starts, uv_close_loop, uv_async_init, uv_async_send, uv_idle_init,
      uv_idle_start, uv_idle_stop, uv_poll_init_socket, uv_poll_start, uv_poll_stop,
      uv_timer_init, uv_timer_start, uv_timer_stop,
      (uv_timer_enqueue_fields _ _ _ _).2.2.1, HSet.mem_insert_iff] at hns ⊢
  all_goals (repeat' split)
  all_goals (try (first | exact hi | (simp_all; done)))
  · exact ⟨hi, fun h => hns h.symm⟩
  · exact fun h => hi (HSet.mem_of_mem_erase _ _ _ h)

theorem runOps_running_false (tpm : Int) (t : Handle) (ops : List Op)
    (hops : ∀ op ∈ ops, op.starts ≠ some t) :
    ∀ w : World, (w.handles t).flags.running = false →
      ((runOps tpm w ops).handles t).flags.running = false := by
  induction ops with
  | nil => intro w h; exact h
  | cons op rest ih =>
    intro w h
    rw [runOps_cons]
    exact ih (fun o ho => hops o (List.mem_cons_of_mem _ ho)) _
      (applyOp_running_false tpm w op t (hops op (List.mem_cons_self _ _)) h)

theorem runOps_idlers_not_mem (tpm : Int) (i : Handle) (ops : List Op)
    (hops : ∀ op ∈ ops, op.starts ≠ some i) :
    ∀ w : World, i ∉ w.loop.idlers.val → i ∉ (runOps tpm w ops).loop.idlers.val := by
  induction ops with
  | nil => intro w h; exact h
  | cons op rest ih =>
    intro w h
    rw [runOps_cons]
    exact ih (fun o ho => hops o (List.mem_cons_of_mem _ ho)) _
      (applyOp_idlers_not_mem tpm w op i (hops op (List.mem_cons_self _ _)) h)

theorem stoppedTimerSpec (env : Env) (tpm : Int) (t : Handle) (hns : NeverStarts env t) :
    KeepsSpec env tpm (fun w => (w.handles t).flags.running = false) (Call.isTimerOf t) where
  dep := fun w w2 hr _ h => by rw [hr t]; exact h
  ops := fun w c h => runOps_running_false tpm t _ (hns c w) w h
  poll := fun _ _ _ _ => rfl
  async := fun _ _ => rfl
  close := fun _ _ => rfl
  idle := fun _ _ _ _ _ => rfl
  timer := fun w x hp hx cb => by
    have hne : x ≠ t := by
      intro he; subst he; rw [hp] at hx; exact Bool.false_ne_true hx
    simp [Call.isTimerOf, hne]

theorem stoppedIdleSpec (env : Env) (tpm : Int) (i : Handle) (hns : NeverStarts env i) :
    KeepsSpec env tpm (fun w => i ∉ w.loop.idlers.val) (Call.isIdleOf i) where
  dep := fun w w2 _ hi h => by rw [hi]; exact h
  ops := fun w c h => runOps_idlers_not_mem tpm i _ (hns c w) w h
  poll := fun _ _ _ _ => rfl
  async := fun _ _ => rfl
  close := fun _ _ => rfl
  idle := fun w hp x hx cb => by
    have hne : x ≠ i := fun he => hp (he ▸ hx)
    simp [Call.isIdleOf, hne]
  timer := fun _ _ _ _ _ => rfl

/-! ## The snapshot of the timer phase -/

/-- Truncation to whole milliseconds: the difference counts as not positive
exactly when it is less than one millisecond. -/
theorem tdiv_nonpos_iff (d tpm : Int) (htpm : 0 < tpm) : Int.tdiv d tpm ≤ 0 ↔ d < tpm := by
  rcases lt_or_le d 0 with hneg | hpos
  · constructor
    · intro _; omega
    · intro _
      have h1 : Int.tdiv d tpm = -Int.tdiv (-d) tpm := by
        rw [← Int.neg_tdiv, neg_neg]
      have h2 : 0 ≤ Int.tdiv (-d) tpm := Int.tdiv_nonneg (by omega) (by omega)
      omega
  · rw [Int.tdiv_eq_ediv hpos (by omega)]
    constructor
    · intro h
      have h3 : d / tpm < 1 := by omega
      have := Int.lt_mul_of_ediv_lt htpm h3
      omega
    · intro h
      rw [Int.ediv_eq_zero_of_lt hpos h]

theorem collect_ready_spec (due : Handle → Bool) :
    ∀ (fuel : Nat) (timers ready : List Handle), timers.length ≤ fuel →
      collect_ready due fuel timers ready
        = ((timers.reverse.dropWhile due).reverse, ready ++ timers.reverse.takeWhile due) := by
  intro fuel
  induction fuel with
  | zero =>
    intro timers ready hlen
    have : timers = [] := List.length_eq_zero.mp (by omega)
    subst this
    simp [collect_ready]
  | succ n ih =>
    intro timers ready hlen
    rcases List.eq_nil_or_concat timers with rfl | ⟨ys, b, rfl⟩
    · simp [collect_ready]
    · simp only [List.concat_eq_append] at hlen ⊢
      unfold collect_ready
      rw [List.getLast?_concat]
      simp only [List.dropLast_concat, List.reverse_append, List.reverse_cons, List.reverse_nil,
        List.nil_append, List.singleton_append]
      by_cases hb : due b = true
      · rw [if_pos hb, ih ys (ready ++ [b]) (by simp at hlen; omega)]
        simp [List.takeWhile_cons, List.dropWhile_cons, hb]
      · rw [if_neg hb]
        simp [List.takeWhile_cons, List.dropWhile_cons, hb]

theorem dropWhile_all_false (due : Handle → Bool) (R : Handle → Handle → Prop)
    (hmono : ∀ a b, R a b → due b = true → due a = true) :
    ∀ r : List Handle, r.Pairwise R → ∀ x ∈ r.dropWhile due, due x = false := by
  intro r
  induction r with
  | nil => intro _ x hx; simp at hx
  | cons a rest ih =>
    intro hp x hx
    rw [List.pairwise_cons] at hp
    by_cases ha : due a = true
    · rw [List.dropWhile_cons_of_pos ha] at hx
      exact ih hp.2 x hx
    · rw [List.dropWhile_cons_of_neg ha] at hx
      rcases List.mem_cons.mp hx with rfl | hx2
      · simpa using ha
      · by_contra hc
        have : due x = true := by simpa using hc
        exact ha (hmono a x (hp.1 x hx2) this)

theorem fire_fold_sublist (env : Env) (tpm : Int) (ready : List Handle) :
    ∀ w : World, ∃ L : List Call,
      (ready.foldl (fire_timer env tpm) w).log = w.log ++ L ∧
      List.Sublist (L.map Call.handle) ready ∧
      ∀ c ∈ L, ∃ cb t, c = Call.timer_cb cb t := by
  induction ready with
  | nil => intro w; exact ⟨[], by simp, by simp, by simp⟩
  | cons t rest ih =>
    intro w
    obtain ⟨L, hL1, hL2, hL3⟩ := ih (fire_timer env tpm w t)
    rw [List.foldl_cons, hL1, fire_timer_log]
    by_cases hr : (w.handles t).flags.running = true
    · refine ⟨Call.timer_cb (w.handles t).cb t :: L, by simp [hr], ?_, ?_⟩
      · simp only [List.map_cons, Call.handle]
        exact hL2.cons₂ t
      · intro c hc
        rcases List.mem_cons.mp hc with rfl | hc2
        · exact ⟨_, _, rfl⟩
        · exact hL3 c hc2
    · refine ⟨L, by simp [hr], hL2.cons t, hL3⟩

theorem sendTimes_fields (w : World) (a : Handle) :
    ∀ n : Nat, (sendTimes w a n).loop.asyncs = w.loop.asyncs ∧
      (sendTimes w a n).log = w.log ∧
      (∀ x, (sendTimes w a n).handles x
        = if x = a ∧ 1 ≤ n then { (w.handles a) with run := true } else w.handles x) := by
  intro n
  induction n with
  | zero => exact ⟨rfl, rfl, fun x => by simp [sendTimes]⟩
  | succ k ih =>
    obtain ⟨h1, h2, h3⟩ := ih
    refine ⟨?_, ?_, fun x => ?_⟩
    · simp only [sendTimes, uv_async_send, setH_loop, setL_loop]; exact h1
    · simp only [sendTimes, uv_async_send, setH_log, setL_log]; exact h2
    · simp only [sendTimes, uv_async_send, setH_handles, setL_handles, h3]
      by_cases hx : x = a
      · subst hx
        by_cases hk : 1 ≤ k <;> simp [hk]
      · simp [hx]

theorem async_collect_spec (xs : List Handle) (hnd : xs.Nodup) :
    ∀ acc : World × List Handle,
      let r := xs.foldl
        (fun (acc : World × List Handle) a =>
          if (acc.1.handles a).run then
            (acc.1.setH a fun r => { r with run := false }, acc.2 ++ [a])
          else acc) acc
      r.2 = acc.2 ++ xs.filter (fun a => (acc.1.handles a).run) ∧
      (∀ x ∈ xs, (r.1.handles x).run = false) ∧
      (∀ x, x ∉ xs → r.1.handles x = acc.1.handles x) := by
  induction xs with
  | nil => intro acc; simp
  | cons a rest ih =>
    intro acc
    rw [List.nodup_cons] at hnd
    simp only [List.foldl_cons]
    by_cases hr : (acc.1.handles a).run = true
    · rw [if_pos hr]
      obtain ⟨h1, h2, h3⟩ := ih hnd.2 (acc.1.setH a fun r => { r with run := false }, acc.2 ++ [a])
      have hfilter : rest.filter (fun x =>
          ((acc.1.setH a fun r => { r with run := false }).handles x).run)
          = rest.filter (fun x => (acc.1.handles x).run) := by
        apply List.filter_congr
        intro x hx
        have hne : x ≠ a := fun he => hnd.1 (he ▸ hx)
        simp [hne]
      refine ⟨?_, ?_, ?_⟩
      · rw [h1, hfilter, List.filter_cons]
        simp [hr]
      · intro x hx
        rcases List.mem_cons.mp hx with rfl | hx2
        · rw [h3 x hnd.1]; simp
        · exact h2 x hx2
      · intro x hx
        have hxa : x ≠ a := fun he => hx (he ▸ List.mem_cons_self _ _)
        rw [h3 x (fun hm => hx (List.mem_cons_of_mem _ hm))]
        simp [hxa]
    · rw [if_neg hr]
      obtain ⟨h1, h2, h3⟩ := ih hnd.2 acc
      refine ⟨?_, ?_, ?_⟩
      · rw [h1, List.filter_cons]
        simp [hr]
      · intro x hx
        rcases List.mem_cons.mp hx with rfl | hx2
        · rw [h3 x hnd.1]; simpa using hr
        · exact h2 x hx2
      · intro x hx
        exact h3 x (fun hm => hx (List.mem_cons_of_mem _ hm))

theorem async_fold_log (env : Env) (tpm : Int) (ready : List Handle) :
    ∀ w : World, ∃ L : List Call,
      (ready.foldl (async_step env tpm) w).log = w.log ++ L ∧
      L.map Call.handle = ready ∧ ∀ c ∈ L, ∃ cb a, c = Call.async_cb cb a := by
  induction ready with
  | nil => intro w; exact ⟨[], by simp, rfl, by simp⟩
  | cons a rest ih =>
    intro w
    obtain ⟨L, hL1, hL2, hL3⟩ := ih (async_step env tpm w a)
    refine ⟨Call.async_cb (w.handles a).cb a :: L, ?_, ?_, ?_⟩
    · rw [List.foldl_cons, hL1]
      simp [async_step, invoke_log]
    · simp [Call.handle, hL2]
    · intro c hc
      rcases List.mem_cons.mp hc with rfl | hc2
      · exact ⟨_, _, rfl⟩
      · exact hL3 c hc2

theorem asyncCalls_length (a : Handle) :
    ∀ L : List Call, (∀ c ∈ L, ∃ cb x, c = Call.async_cb cb x) →
      (L.filter (Call.isAsyncOf a)).length = (L.map Call.handle).count a := by
  intro L
  induction L with
  | nil => intro _; rfl
  | cons c rest ih =>
    intro hall
    obtain ⟨cb, x, rfl⟩ := hall c (List.mem_cons_self _ _)
    have ih2 := ih (fun c hc => hall c (List.mem_cons_of_mem _ hc))
    by_cases hx : x = a
    · subst hx
      simp [List.filter_cons, Call.isAsyncOf, Call.handle, ih2]
    · have hx2 : ¬ (x == a) = true := by simpa using hx
      simp [List.filter_cons, Call.isAsyncOf, Call.handle, ih2, hx, List.count_cons, hx2]

theorem applyOp_run_false (tpm : Int) (w : World) (op : Op) (a : Handle)
    (hns : op.sends ≠ some a) (hr : (w.handles a).run = false) :
    ((applyOp tpm w op).handles a).run = false := by
  cases op <;>
    simp [applyOp, Op.sends, uv_close_handles, uv_async_init, uv_async_send, uv_idle_init,
      uv_idle_start, uv_idle_stop, uv_poll_init_socket, uv_poll_start, uv_poll_stop,
      uv_timer_init, uv_timer_start, uv_timer_stop, uv_timer_enqueue_handles,
      apply_ite uv_handle_t.run] at hns ⊢
  all_goals (repeat' split)
  all_goals (try simp)
  all_goals (repeat' split)
  all_goals (try (first | exact hr | (simp_all; done)))
  exact ⟨fun h => hns h.symm, hr⟩

theorem runOps_run_false (tpm : Int) (a : Handle) (ops : List Op)
    (hops : ∀ op ∈ ops, op.sends ≠ some a) :
    ∀ w : World, (w.handles a).run = false → ((runOps tpm w ops).handles a).run = false := by
  induction ops with
  | nil => intro w h; exact h
  | cons op rest ih =>
    intro w h
    rw [runOps_cons]
    exact ih (fun o ho => hops o (List.mem_cons_of_mem _ ho)) _
      (applyOp_run_false tpm w op a (hops op (List.mem_cons_self _ _)) h)

theorem async_fold_run_false (env : Env) (tpm : Int) (a : Handle) (hns : NeverSends env a)
    (ready : List Handle) :
    ∀ w : World, (w.handles a).run = false →
      ((ready.foldl (async_step env tpm) w).handles a).run = false := by
  induction ready with
  | nil => intro w h; exact h
  | cons x rest ih =>
    intro w h
    rw [List.foldl_cons]
    apply ih
    simp only [async_step, invoke]
    exact runOps_run_false tpm a _ (hns _ _) _ h

/-- The async phase, started with the pending bit of `a` equal to `b`, invokes
the callback of `a` once if `b` is set and not at all otherwise, and clears
the bit before any callback runs. -/
theorem async_phase_spec (env : Env) (tpm : Int) (w : World) (a : Handle)
    (hmem : a ∈ w.loop.asyncs.val) :
    (asyncCalls a (async_phase env tpm w).log).length
      = (asyncCalls a w.log).length + (if (w.handles a).run = true then 1 else 0) ∧
    ((async_collect w w.loop.asyncs.val).1.handles a).run = false ∧
    (NeverSends env a → ((async_phase env tpm w).handles a).run = false) := by
  have hlen : w.loop.asyncs.val.length ≠ 0 := by
    intro h0
    rw [List.length_eq_zero.mp h0] at hmem
    simp at hmem
  obtain ⟨c1, c2, _⟩ := async_collect_spec w.loop.asyncs.val w.loop.asyncs.property (w, [])
  obtain ⟨_, c4, _, _⟩ := async_collect_fields w.loop.asyncs.val (w, [])
  have hcoll2 : (async_collect w w.loop.asyncs.val).2
      = w.loop.asyncs.val.filter (fun x => (w.handles x).run) := by
    rw [async_collect, c1]; simp
  have hrun : ((async_collect w w.loop.asyncs.val).1.handles a).run = false := by
    rw [async_collect]; exact c2 a hmem
  have hlog0 : (async_collect w w.loop.asyncs.val).1.log = w.log := by
    rw [async_collect]; exact c4
  simp only [async_phase, hlen, ne_eq, not_false_eq_true, if_true]
  refine ⟨?_, hrun, fun hns => async_fold_run_false env tpm a hns _ _ hrun⟩
  obtain ⟨L, hL1, hL2, hL3⟩ := async_fold_log env tpm
    (async_collect w w.loop.asyncs.val).2 (async_collect w w.loop.asyncs.val).1
  rw [hL1, hlog0]
  simp only [asyncCalls, List.filter_append, List.length_append]
  congr 1
  rw [asyncCalls_length a L hL3, hL2, hcoll2]
  by_cases hr : (w.handles a).run = true
  · rw [if_pos hr, List.count_filter (by simpa using hr)]
    exact List.count_eq_one_of_mem w.loop.asyncs.property hmem
  · rw [if_neg hr]
    apply List.count_eq_zero_of_not_mem
    intro hm
    exact hr (by simpa using (List.mem_filter.mp hm).2)

/-- C10: for an async handle `a` in the loop's async set, after `n ≥ 1` calls
of `uv_async_send(a)` the async phase invokes the callback of `a` exactly once
and clears the pending bit before any callback runs; the bit is false at the
end of the phase unless a callback of this phase called `uv_async_send(a)`
again. With no send and the bit false the callback of `a` is not invoked. -/
theorem C10_async_sends_coalesce (env : Env) (tpm : Int) (w : World) (a : Handle) (n : Nat)
    (hmem : a ∈ w.loop.asyncs.val) :
    (1 ≤ n →
      (asyncCalls a (async_phase env tpm (sendTimes w a n)).log).length
        = (asyncCalls a w.log).length + 1 ∧
      ((async_collect (sendTimes w a n) (sendTimes w a n).loop.asyncs.val).1.handles a).run
        = false ∧
      (NeverSends env a → ((async_phase env tpm (sendTimes w a n)).handles a).run = false)) ∧
    ((w.handles a).run = false →
      (asyncCalls a (async_phase env tpm w).log).length = (asyncCalls a w.log).length ∧
      (NeverSends env a → ((async_phase env tpm w).handles a).run = false)) := by
  constructor
  · intro hn
    obtain ⟨s1, s2, s3⟩ := sendTimes_fields w a n
    have hmem2 : a ∈ (sendTimes w a n).loop.asyncs.val := by rw [s1]; exact hmem
    have hrun : ((sendTimes w a n).handles a).run = true := by
      rw [s3 a]; simp [hn]
    obtain ⟨p1, p2, p3⟩ := async_phase_spec env tpm (sendTimes w a n) a hmem2
    rw [hrun, s2] at p1
    exact ⟨by simpa using p1, p2, p3⟩
  · intro hr
    obtain ⟨p1, _, p3⟩ := async_phase_spec env tpm w a hmem
    rw [hr] at p1
    exact ⟨by simpa using p1, p3⟩

/-- Witness for C10: three sends to the async handle 4 give one invocation,
even though the callback closes the handle. -/
theorem C10_async_sends_coalesce_witness :
    4 ∈ oneAsync.loop.asyncs.val ∧
    (async_phase closeSelfAsyncEnv 1000000 (sendTimes oneAsync 4 3)).log
      = [Call.async_cb 7 4] ∧
    (asyncCalls 4 (async_phase closeSelfAsyncEnv 1000000 (sendTimes oneAsync 4 3)).log).length
      = (asyncCalls 4 oneAsync.log).length + 1 :=
  ⟨by decide, by decide,
   ((C10_async_sends_coalesce closeSelfAsyncEnv 1000000 oneAsync 4 3 (by decide)).1
      (by decide)).1⟩

/-! ## Start followed by stop -/

theorem vinsert_erase (xs : List Handle) (i : Nat) (t : Handle) (ht : t ∉ xs) :
    (vinsert xs i t).erase t = xs := by
  unfold vinsert
  rw [List.erase_append_right _ (fun h => ht (List.mem_of_mem_take h)), List.erase_cons_head,
    List.take_append_drop]

theorem uv_timer_enqueue_erase (tpm : Int) (w : World) (t : Handle) (timeout : Int)
    (ht : t ∉ w.loop.timers) :
    (uv_timer_enqueue tpm w t timeout).loop.timers.erase t = w.loop.timers := by
  simp only [uv_timer_enqueue]
  split
  · simp only [setL_loop, setH_loop]
    exact vinsert_erase _ _ _ ht
  · simp only [setL_loop, setH_loop]
    rw [List.erase_append_right _ ht, List.erase_cons_head, List.append_nil]

/-- C11: for a timer `t` that is not in the timer queue, `uv_timer_start`
followed by `uv_timer_stop` leaves the timer queue equal to the queue before
the start, with RUNNING clear; for an idle `i` that is not in the idle set,
`uv_idle_start` followed by `uv_idle_stop` leaves the idle set equal to the
original. Neither pair invokes a callback (the log is unchanged), and each
leaves the other dispatch structures and `numEvents` as they were. -/
theorem C11_start_stop_round_trip (tpm : Int) (w : World) (t i : Handle) (cb : Cb)
    (timeout rep : Int) (ht : t ∉ w.loop.timers) (hi : i ∉ w.loop.idlers.val) :
    (uv_timer_stop (uv_timer_start tpm w t cb timeout rep) t).loop.timers = w.loop.timers ∧
    ((uv_timer_stop (uv_timer_start tpm w t cb timeout rep) t).handles t).flags.running
      = false ∧
    (uv_timer_stop (uv_timer_start tpm w t cb timeout rep) t).log = w.log ∧
    (uv_timer_stop (uv_timer_start tpm w t cb timeout rep) t).loop.idlers = w.loop.idlers ∧
    (uv_timer_stop (uv_timer_start tpm w t cb timeout rep) t).loop.asyncs = w.loop.asyncs ∧
    (uv_timer_stop (uv_timer_start tpm w t cb timeout rep) t).loop.numEvents
      = w.loop.numEvents ∧
    (uv_idle_stop (uv_idle_start w i cb) i).loop.idlers = w.loop.idlers ∧
    (uv_idle_stop (uv_idle_start w i cb) i).log = w.log ∧
    (uv_idle_stop (uv_idle_start w i cb) i).loop.timers = w.loop.timers ∧
    (uv_idle_stop (uv_idle_start w i cb) i).loop.numEvents = w.loop.numEvents ∧
    (∀ x, ((uv_idle_stop (uv_idle_start w i cb) i).handles x).flags = (w.handles x).flags) := by
  have hf := uv_timer_enqueue_fields tpm
    (w.setH t fun r =>
      { r with cb := cb, repeat_ := rep, flags := { r.flags with running := true } }) t timeout
  refine ⟨?_, ?_, ?_, ?_, ?_, ?_, ?_, rfl, rfl, rfl, fun x => ?_⟩
  · simp only [uv_timer_stop, uv_timer_start, setL_loop, setH_loop]
    exact uv_timer_enqueue_erase tpm _ t timeout ht
  · simp [uv_timer_stop]
  · simp only [uv_timer_stop, uv_timer_start, setL_log, setH_log, uv_timer_enqueue_log]
  · simp only [uv_timer_stop, uv_timer_start, setL_loop, setH_loop]
    exact hf.2.2.1
  · simp only [uv_timer_stop, uv_timer_start, setL_loop, setH_loop]
    exact hf.2.1
  · simp only [uv_timer_stop, uv_timer_start, setL_loop, setH_loop]
    exact hf.2.2.2.1
  · simp only [uv_idle_stop, uv_idle_start, setL_loop, setH_loop]
    apply Subtype.ext
    simp only [HSet.erase, HSet.insert, hi, dite_false]
    rw [List.erase_append_right _ hi, List.erase_cons_head, List.append_nil]
  · simp only [uv_idle_stop, uv_idle_start, setL_handles, setH_handles]
    split <;> simp_all

/-- Witness for C11: timer 4 is inserted in the middle of a three-timer queue
and removed again; idle 6 joins idle 5 and leaves again. -/
theorem C11_start_stop_round_trip_witness :
    4 ∉ threeTimers.loop.timers ∧ 6 ∉ threeTimers.loop.idlers.val ∧
    (uv_timer_start 1000000 threeTimers 4 7 15 0).loop.timers = [1, 2, 4, 3] ∧
    (uv_timer_stop (uv_timer_start 1000000 threeTimers 4 7 15 0) 4).loop.timers
      = threeTimers.loop.timers ∧
    (uv_idle_stop (uv_idle_start threeTimers 6 7) 6).loop.idlers = threeTimers.loop.idlers :=
  ⟨by decide, by decide, by decide,
   (C11_start_stop_round_trip 1000000 threeTimers 4 6 7 15 0 (by decide) (by decide)).1,
   (C11_start_stop_round_trip 1000000 threeTimers 4 6 7 15 0 (by decide)
      (by decide)).2.2.2.2.2.2.1⟩

/-! ## Failure of `uv_poll_init_socket` -/

/-- When one of the two `fcntl` calls fails, `uv_poll_init_socket` returns -1
and leaves the handle and the loop as they were. -/
theorem uv_poll_init_socket_fcntl_failure (w : World) (p : Handle)
    (socket getfl setfl ctl : Int) (hfail : getfl = -1 ∨ setfl = -1) :
    uv_poll_init_socket w p socket getfl setfl ctl = (w, -1) := by
  unfold uv_poll_init_socket
  rcases hfail with h | h
  · rw [if_pos h]
  · by_cases hg : getfl = -1
    · rw [if_pos hg]
    · rw [if_neg hg, if_pos h]

/-- When both `fcntl` calls succeed, `uv_poll_init_socket` returns the result
of `epoll_ctl`, whatever it is, after it has written the handle and
incremented `numEvents`. -/
theorem uv_poll_init_socket_after_fcntl (w : World) (p : Handle)
    (socket getfl setfl ctl : Int) (hg : getfl ≠ -1) (hs : setfl ≠ -1) :
    (uv_poll_init_socket w p socket getfl setfl ctl).2 = ctl ∧
    ((uv_poll_init_socket w p socket getfl setfl ctl).1.handles p).type
      = uv_handle_type.UV_POLL ∧
    ((uv_poll_init_socket w p socket getfl setfl ctl).1.handles p).fd = socket ∧
    ((uv_poll_init_socket w p socket getfl setfl ctl).1.handles p).events = 0 ∧
    ((uv_poll_init_socket w p socket getfl setfl ctl).1.handles p).loopIndex = w.loop.index ∧
    (uv_poll_init_socket w p socket getfl setfl ctl).1.loop.numEvents
      = w.loop.numEvents + 1 := by
  unfold uv_poll_init_socket
  rw [if_neg hg, if_neg hs]
  simp

/-- Evaluation for C12 at a failing input: on the initial state, with both
`fcntl` calls succeeding and `epoll_ctl` returning -1, `uv_poll_init_socket`
returns the error -1, yet poll 1 has been tagged `UV_POLL`, its `fd` is the
socket 10, and `numEvents` went from 0 to 1. With a failing `fcntl` the same
call returns -1 and changes neither. -/
theorem C12_epoll_ctl_failure_after_writes :
    (uv_poll_init_socket {} 1 10 0 0 (-1)).2 = -1 ∧
    (({} : World).handles 1).type = uv_handle_type.UV_UNKNOWN_HANDLE ∧
    ((uv_poll_init_socket {} 1 10 0 0 (-1)).1.handles 1).type = uv_handle_type.UV_POLL ∧
    (({} : World).handles 1).fd = 0 ∧
    ((uv_poll_init_socket {} 1 10 0 0 (-1)).1.handles 1).fd = 10 ∧
    ({} : World).loop.numEvents = 0 ∧
    (uv_poll_init_socket {} 1 10 0 0 (-1)).1.loop.numEvents = 1 ∧
    (uv_poll_init_socket {} 1 10 (-1) 0 0).2 = -1 ∧
    ((uv_poll_init_socket {} 1 10 (-1) 0 0).1.handles 1).type
      = uv_handle_type.UV_UNKNOWN_HANDLE ∧
    (uv_poll_init_socket {} 1 10 (-1) 0 0).1.loop.numEvents = 0 ∧
    (uv_poll_init_socket {} 1 10 0 (-1) 0).2 = -1 ∧
    ((uv_poll_init_socket {} 1 10 0 (-1) 0).1.handles 1).type
      = uv_handle_type.UV_UNKNOWN_HANDLE ∧
    (uv_poll_init_socket {} 1 10 0 (-1) 0).1.loop.numEvents = 0 := by
  decide

/-! ## The table of poll callbacks -/

theorem findCb_le (cb : Cb) (tbl : List Cb) : findCb cb tbl ≤ tbl.length := by
  induction tbl with
  | nil => simp [findCb]
  | cons c cs ih =>
    simp only [findCb, List.length_cons]
    split <;> omega

theorem findCb_getD (cb : Cb) (tbl : List Cb) (h : findCb cb tbl < tbl.length) :
    tbl.getD (findCb cb tbl) 0 = cb := by
  induction tbl with
  | nil => simp at h
  | cons c cs ih =>
    simp only [findCb] at h ⊢
    by_cases hc : c = cb
    · simp [hc]
    · simp only [hc, if_false, List.length_cons, Nat.add_lt_add_iff_right] at h ⊢
      simpa using ih h

theorem findCb_eq_length (cb : Cb) (tbl : List Cb) (h : findCb cb tbl = tbl.length) :
    cb ∉ tbl := by
  induction tbl with
  | nil => simp
  | cons c cs ih =>
    simp only [findCb, List.length_cons] at h
    by_cases hc : c = cb
    · simp [hc] at h
    · simp only [hc, if_false, Nat.add_right_cancel_iff] at h
      simp only [List.mem_cons, not_or]
      exact ⟨fun e => hc e.symm, ih h⟩

theorem applyOp_poll_table (tpm : Int) (w : World) (op : Op) (hp : op.pollCb = none) :
    (applyOp tpm w op).poll_callbacks = w.poll_callbacks ∧
    ∀ x, ((applyOp tpm w op).handles x).cbIndex = (w.handles x).cbIndex := by
  cases op <;>
    simp [applyOp, Op.pollCb, uv_close_handles, uv_close, uv_async_init, uv_async_send,
      uv_idle_init, uv_idle_start, uv_idle_stop, uv_poll_init_socket, uv_poll_stop,
      uv_timer_init, uv_timer_start, uv_timer_stop, uv_timer_enqueue_handles,
      (uv_timer_enqueue_fields _ _ _ _).2.2.2.2.2.2, apply_ite uv_handle_t.cbIndex] at hp ⊢
  all_goals (repeat' split)
  all_goals (try simp)
  all_goals (try (first | rfl | (simp_all; done)))
  intro x
  split
  · rename_i hx; rw [hx]
  · rfl

theorem tableInv_step (tpm : Int) (w : World) (f : Handle → Option Cb) (op : Op)
    (inv : TableInv w f) : TableInv (applyOp tpm w op) (pollCbAfter f op) := by
  cases hp : op.pollCb with
  | none =>
    obtain ⟨h1, h2⟩ := applyOp_poll_table tpm w op hp
    have hf : pollCbAfter f op = f := by
      cases op <;> simp_all [pollCbAfter, Op.pollCb]
    rw [hf]
    refine ⟨by rw [h1]; exact inv.1, fun p c hpc => ?_⟩
    obtain ⟨i1, i2⟩ := inv.2 p c hpc
    simp only [get_poll_cb] at i2 ⊢
    rw [h1, h2 p]
    exact ⟨i1, i2⟩
  | some c0 =>
    cases op <;> simp only [Op.pollCb, reduceCtorEq, Option.some.injEq] at hp
    rename_i q ev cb ctl
    subst hp
    have hle := findCb_le cb w.poll_callbacks
    simp only [applyOp, uv_poll_start, pollCbAfter]
    by_cases hnew : findCb cb w.poll_callbacks = w.poll_callbacks.length
    · have hnot := findCb_eq_length cb _ hnew
      simp only [hnew, if_true]
      refine ⟨?_, fun p c hpc => ?_⟩
      · rw [List.nodup_append]
        refine ⟨inv.1, List.nodup_singleton _, ?_⟩
        intro a ha hb
        simp only [List.mem_singleton] at hb
        subst hb
        exact hnot ha
      · simp only [get_poll_cb, setH_handles, List.length_append, List.length_singleton]
        by_cases hpq : p = q
        · simp only [hpq, if_true] at hpc ⊢
          simp only [Option.some.injEq] at hpc
          subst hpc
          refine ⟨by omega, ?_⟩
          rw [List.getD_append_right _ _ _ _ (le_refl _)]
          simp
        · simp only [hpq, if_false] at hpc ⊢
          obtain ⟨i1, i2⟩ := inv.2 p c hpc
          refine ⟨by omega, ?_⟩
          rw [List.getD_append _ _ _ _ i1]
          exact i2
    · have hlt : findCb cb w.poll_callbacks < w.poll_callbacks.length := by omega
      simp only [hnew, if_false]
      refine ⟨inv.1, fun p c hpc => ?_⟩
      simp only [get_poll_cb, setH_handles, setH_poll_callbacks]
      by_cases hpq : p = q
      · simp only [hpq, if_true] at hpc ⊢
        simp only [Option.some.injEq] at hpc
        subst hpc
        exact ⟨hlt, findCb_getD cb _ hlt⟩
      · simp only [hpq, if_false] at hpc ⊢
        exact inv.2 p c hpc

theorem tableInv_run (tpm : Int) (ops : List Op) :
    ∀ (w : World) (f : Handle → Option Cb), TableInv w f →
      TableInv (runOps tpm w ops) (ops.foldl pollCbAfter f) := by
  induction ops with
  | nil => intro w f inv; exact inv
  | cons op rest ih =>
    intro w f inv
    rw [runOps_cons, List.foldl_cons]
    exact ih _ _ (tableInv_step tpm w f op inv)

theorem table_subset_step (tpm : Int) (w : World) (op : Op) :
    ∀ c ∈ (applyOp tpm w op).poll_callbacks, c ∈ w.poll_callbacks ∨ op.pollCb = some c := by
  intro c hc
  cases hp : op.pollCb with
  | none =>
    rw [(applyOp_poll_table tpm w op hp).1] at hc
    exact Or.inl hc
  | some c0 =>
    cases op <;> simp only [Op.pollCb, reduceCtorEq, Option.some.injEq] at hp
    rename_i q ev cb ctl
    subst hp
    simp only [applyOp, uv_poll_start] at hc
    split at hc
    · simp only [List.mem_append, List.mem_singleton] at hc
      rcases hc with h | h
      · exact Or.inl h
      · exact Or.inr (by rw [h])
    · exact Or.inl hc

theorem table_subset_run (tpm : Int) (ops : List Op) :
    ∀ w : World, ∀ c ∈ (runOps tpm w ops).poll_callbacks,
      c ∈ w.poll_callbacks ∨ c ∈ ops.filterMap Op.pollCb := by
  induction ops with
  | nil => intro w c hc; exact Or.inl hc
  | cons op rest ih =>
    intro w c hc
    rw [runOps_cons] at hc
    rcases ih _ c hc with h | h
    · rcases table_subset_step tpm w op c h with h2 | h2
      · exact Or.inl h2
      · exact Or.inr (List.mem_filterMap.mpr ⟨op, List.mem_cons_self _ _, h2⟩)
    · right
      obtain ⟨o, ho, hoc⟩ := List.mem_filterMap.mp h
      exact List.mem_filterMap.mpr ⟨o, List.mem_cons_of_mem _ ho, hoc⟩

/-- C13: starting from a callback table without repetition (the empty table of
a fresh process is one), after any sequence of API calls the callback the poll
phase invokes for a poll `p` is the callback passed to the most recent
`uv_poll_start` of `p`, whatever was started on other handles afterwards; two
polls whose most recent start passed the same callback hold the same table
index; the table never stores a callback twice, so with at most `cbs.length`
distinct callbacks in use (128 for the array of the source) it never grows
beyond that many slots. -/
theorem C13_poll_callback_resolution (env : Env) (tpm : Int) (w : World) (ops : List Op)
    (hnd : w.poll_callbacks.Nodup) :
    (∀ p c, lastPollCb ops p = some c → get_poll_cb (runOps tpm w ops) p = c) ∧
    (∀ p c ev, lastPollCb ops p = some c →
      (poll_step env tpm (runOps tpm w ops) ⟨some p, ev⟩).log
        = (runOps tpm w ops).log
          ++ [Call.poll_cb c p (if ev &&& EPOLLERR ≠ 0 then -1 else 0) ev]) ∧
    (∀ p q c, lastPollCb ops p = some c → lastPollCb ops q = some c →
      ((runOps tpm w ops).handles p).cbIndex = ((runOps tpm w ops).handles q).cbIndex) ∧
    (runOps tpm w ops).poll_callbacks.Nodup ∧
    (∀ cbs : List Cb, (∀ c ∈ w.poll_callbacks, c ∈ cbs) →
      (∀ c ∈ ops.filterMap Op.pollCb, c ∈ cbs) →
      (runOps tpm w ops).poll_callbacks.length ≤ cbs.length) := by
  have inv : TableInv (runOps tpm w ops) (lastPollCb ops) :=
    tableInv_run tpm ops w (fun _ => none) ⟨hnd, fun p c h => by simp at h⟩
  refine ⟨fun p c h => (inv.2 p c h).2, fun p c ev h => ?_, fun p q c hp hq => ?_, inv.1,
    fun cbs h1 h2 => ?_⟩
  · rw [poll_step_log]
    have := (inv.2 p c h).2
    simp only [get_poll_cb] at this
    rw [this]
  · obtain ⟨p1, p2⟩ := inv.2 p c hp
    obtain ⟨q1, q2⟩ := inv.2 q c hq
    simp only [get_poll_cb] at p2 q2
    rw [List.getD_eq_getElem _ _ p1] at p2
    rw [List.getD_eq_getElem _ _ q1] at q2
    exact (inv.1.getElem_inj_iff).mp (p2.trans q2.symm)
  · apply (inv.1.subperm ?_).length_le
    intro c hc
    rcases table_subset_run tpm ops w c hc with h | h
    · exact h1 c h
    · exact h2 c h

/-- Witness for C13: polls 1, 2, 3 started with callbacks 7, 8, 7 and poll 1
started again with 8: poll 1 resolves to 8, poll 3 to 7, and polls 1 and 2
share slot 1. -/
theorem C13_poll_callback_resolution_witness :
    ({} : World).poll_callbacks.Nodup ∧
    lastPollCb pollStarts 1 = some 8 ∧ lastPollCb pollStarts 3 = some 7 ∧
    (runOps 1000000 {} pollStarts).poll_callbacks = [7, 8] ∧
    get_poll_cb (runOps 1000000 {} pollStarts) 1 = 8 ∧
    get_poll_cb (runOps 1000000 {} pollStarts) 3 = 7 ∧
    ((runOps 1000000 {} pollStarts).handles 1).cbIndex
      = ((runOps 1000000 {} pollStarts).handles 2).cbIndex :=
  ⟨List.nodup_nil, by decide, by decide, by decide,
   (C13_poll_callback_resolution quietEnv 1000000 {} pollStarts List.nodup_nil).1 1 8
      (by decide),
   (C13_poll_callback_resolution quietEnv 1000000 {} pollStarts List.nodup_nil).1 3 7
      (by decide),
   (C13_poll_callback_resolution quietEnv 1000000 {} pollStarts List.nodup_nil).2.2.1 1 2 8
      (by decide) (by decide)⟩

/-! ## `uv_fileno` and `uv_is_closing` -/

theorem applyOp_type_eq (tpm : Int) (w : World) (op : Op) (x : Handle)
    (hi : op.inits ≠ some x) :
    ((applyOp tpm w op).handles x).type = (w.handles x).type := by
  cases op <;>
    simp [applyOp, Op.inits, uv_close_handles, uv_async_init, uv_async_send, uv_idle_init,
      uv_idle_start, uv_idle_stop, uv_poll_init_socket, uv_poll_start, uv_poll_stop,
      uv_timer_init, uv_timer_start, uv_timer_stop, uv_timer_enqueue_handles,
      apply_ite uv_handle_t.type] at hi ⊢
  all_goals (repeat' split)
  all_goals (try simp)
  all_goals (try (first | rfl | (intro h1; omega) | (simp_all; done)))
  · intro h1; exact absurd h1.symm hi
  · intro h1; exact absurd h1.symm hi
  · split
    · rename_i h1 h2 hx; exact absurd hx.symm (hi h1 h2)
    · rfl
  · split
    · rename_i hx; rw [hx]
    · rfl
  · split
    · rename_i hx; rw [hx]
    · rfl
  · intro h1; exact absurd h1.symm hi

theorem runOps_type_eq (tpm : Int) (x : Handle) (ops : List Op)
    (hops : ∀ op ∈ ops, op.inits ≠ some x) :
    ∀ w : World, ((runOps tpm w ops).handles x).type = (w.handles x).type := by
  induction ops with
  | nil => intro w; rfl
  | cons op rest ih =>
    intro w
    rw [runOps_cons, ih (fun o ho => hops o (List.mem_cons_of_mem _ ho)),
      applyOp_type_eq tpm w op x (hops op (List.mem_cons_self _ _))]

theorem close_phase_type_eq (env : Env) (tpm : Int) (x : Handle) (henv : NeverInits env x)
    (w : World) : ((close_phase env tpm w).handles x).type = (w.handles x).type := by
  have hfold : ∀ (xs : List (Handle × Cb)) (w2 : World),
      ((xs.foldl (close_step env tpm) w2).handles x).type = (w2.handles x).type := by
    intro xs
    induction xs with
    | nil => intro w2; rfl
    | cons c rest ih =>
      intro w2
      rw [List.foldl_cons, ih]
      simp only [close_step, invoke]
      rw [runOps_type_eq tpm x _ (henv _ _)]
      simp only [close_retire, setH_handles, setL_handles]
      split <;> simp_all
  unfold close_phase
  split
  · rw [hfold]; rfl
  · rfl

/-- C14: `uv_is_closing(h)` is true exactly when CLOSING or CLOSED is set. For a
poll handle `uv_fileno` returns the wrapped descriptor when `uv_is_closing` is
false and `UV_EBADF` when it is true; for a timer, async or idle handle it
returns `UV_EINVAL` whatever the flags. After `uv_close(p, cb)` on a poll `p`,
`uv_fileno(p)` is `UV_EBADF`, and it still is after the close phase (user code
does not run an init on `p` again). -/
theorem C14_fileno_and_is_closing (UV_EBADF UV_EINVAL : Int) (env : Env) (tpm : Int)
    (w : World) (p : Handle) (cb : Cb)
    (hp : (w.handles p).type = uv_handle_type.UV_POLL) (henv : NeverInits env p) :
    (∀ (w2 : World) (h : Handle), uv_is_closing w2 h = true ↔
      ((w2.handles h).flags.closing = true ∨ (w2.handles h).flags.closed = true)) ∧
    (∀ (w2 : World) (h : Handle), (w2.handles h).type = uv_handle_type.UV_POLL →
      (uv_is_closing w2 h = false → uv_fileno UV_EBADF UV_EINVAL w2 h = (w2.handles h).fd) ∧
      (uv_is_closing w2 h = true → uv_fileno UV_EBADF UV_EINVAL w2 h = UV_EBADF)) ∧
    (∀ (w2 : World) (h : Handle),
      ((w2.handles h).type = uv_handle_type.UV_TIMER ∨
       (w2.handles h).type = uv_handle_type.UV_ASYNC ∨
       (w2.handles h).type = uv_handle_type.UV_IDLE) →
      uv_fileno UV_EBADF UV_EINVAL w2 h = UV_EINVAL) ∧
    uv_fileno UV_EBADF UV_EINVAL (uv_close w p cb) p = UV_EBADF ∧
    uv_fileno UV_EBADF UV_EINVAL (close_phase env tpm (uv_close w p cb)) p = UV_EBADF := by
  have hpoll : ∀ (w2 : World) (h : Handle), (w2.handles h).type = uv_handle_type.UV_POLL →
      uv_is_closing w2 h = true → uv_fileno UV_EBADF UV_EINVAL w2 h = UV_EBADF := by
    intro w2 h ht hc
    simp [uv_fileno, ht, hc]
  have htype : ((uv_close w p cb).handles p).type = uv_handle_type.UV_POLL := by
    rw [uv_close_handles]; simp [hp]
  have hclosing : uv_is_closing (uv_close w p cb) p = true := by
    simp [uv_is_closing, uv_close_handles]
  refine ⟨fun w2 h => ?_, fun w2 h ht => ⟨fun hc => ?_, hpoll w2 h ht⟩, fun w2 h ht => ?_,
    hpoll _ _ htype hclosing, ?_⟩
  · simp [uv_is_closing]
  · simp [uv_fileno, ht, hc]
  · rcases ht with ht | ht | ht <;> simp [uv_fileno, ht]
  · apply hpoll
    · rw [close_phase_type_eq env tpm p henv]; exact htype
    · exact (close_phase_keeps env tpm p _).2 hclosing

/-- Witness for C14: poll 1 is closed; `uv_fileno` gives -9 (the value taken
for `UV_EBADF`) before and after the close phase. -/
theorem C14_fileno_and_is_closing_witness :
    (onePoll.handles 1).type = uv_handle_type.UV_POLL ∧
    uv_fileno (-9) (-22) onePoll 1 = 10 ∧
    uv_fileno (-9) (-22) (uv_close onePoll 1 9) 1 = -9 ∧
    uv_fileno (-9) (-22) (close_phase quietEnv 1000000 (uv_close onePoll 1 9)) 1 = -9 :=
  ⟨by decide, by decide,
   (C14_fileno_and_is_closing (-9) (-22) quietEnv 1000000 onePoll 1 9 (by decide)
      (fun c w op hop => by simp [quietEnv] at hop)).2.2.2.1,
   (C14_fileno_and_is_closing (-9) (-22) quietEnv 1000000 onePoll 1 9 (by decide)
      (fun c w op hop => by simp [quietEnv] at hop)).2.2.2.2⟩

/-! ## Restart inside the timer callback -/

/-- Evaluation for C16 at a failing input: timer 1 is in the queue once; its
callback calls `uv_timer_stop` and then `uv_timer_start` with repeat 5 ms. In
the phase that runs the restarting callback the callback is invoked once, but
after that phase the timer occupies two slots of the queue (the restart put it
in once, the re-enqueue of the loop a second time). In the phase at 8 ms, when
the restarted deadline has expired, both slots are popped and the callback is
invoked twice within that one phase. -/
theorem C16_restart_in_callback_double_fires :
    oneShot.loop.timers.count 1 = 1 ∧
    afterRestart.log = [Call.timer_cb 7 1] ∧
    afterRestart.loop.timers = [1, 1] ∧
    (timer_snapshot 1000000 afterRestart 8000000).2 = [1, 1] ∧
    (timer_phase restartEnv 1000000 afterRestart 8000000).log
      = [Call.timer_cb 7 1, Call.timer_cb 7 1, Call.timer_cb 7 1] ∧
    (timerCalls 1 (timer_phase restartEnv 1000000 afterRestart 8000000).log).length
      = (timerCalls 1 afterRestart.log).length + 2 := by
  decide

/-! ## The loop registry -/

/-- Counterexample for C17: `uv_loop_new` is called first (it creates the
default loop, index 0, and a second loop, index 1), then `uv_loop_delete` is
applied to the default loop. In that reachable state `uv_default_loop` returns
the null pointer and creates nothing. -/
theorem C17_default_loop_null_after_delete :
    ((uv_loop_new {}).1.loops 0).map (fun l => l.index) = some 0 ∧
    (uv_loop_new {}).2.index = 1 ∧
    defaultDeleted.loopHead = 2 ∧
    ((uv_default_loop defaultDeleted).2).isNone = true ∧
    (uv_default_loop defaultDeleted).1.loopHead = 2 := by
  decide

theorem RegReachable.indices (r : Registry) (hr : RegReachable r) :
    ∀ i l, r.loops i = some l → l.index = i ∧ i < r.loopHead := by
  have hhelper : ∀ r0 : Registry,
      (∀ i l, r0.loops i = some l → l.index = i ∧ i < r0.loopHead) →
      ∀ i l, (uv_loop_helper r0).1.loops i = some l →
        l.index = i ∧ i < (uv_loop_helper r0).1.loopHead := by
    intro r0 h0 i l hl
    simp only [uv_loop_helper] at hl ⊢
    by_cases hi : i = r0.loopHead
    · simp only [hi, if_true, Option.some.injEq] at hl
      subst hl
      exact ⟨hi.symm, by omega⟩
    · simp only [hi, if_false] at hl
      have := h0 i l hl
      exact ⟨this.1, by omega⟩
  induction hr with
  | start => intro i l hl; simp at hl
  | default r _ ih =>
    simp only [uv_default_loop]
    split
    · exact hhelper r ih
    · exact ih
  | new r _ ih =>
    simp only [uv_loop_new]
    split
    · exact hhelper _ (hhelper r ih)
    · exact hhelper r ih
  | delete r j loop _ _ ih =>
    intro i l hl
    simp only [uv_loop_delete] at hl ⊢
    split at hl
    · simp at hl
    · exact ih i l hl

/-- C17 (amended): in every reachable registry state, `uv_default_loop` returns
`loops[0]`, creating the default loop only when the registry has never been
used (`loopHead` is 0): the result is a live loop with index 0 if the registry
was unused or the default loop has not been deleted, and the null pointer once
`uv_loop_delete` has been applied to the default loop. Every loop created by
`uv_loop_new` receives the index `loopHead` (after the lazy creation of the
default loop), which is greater than the index of every registered loop;
`loopHead` grows by one with every creation and no operation lowers it, so no
index is handed out twice. -/
theorem C17_registry_indices (r : Registry) (hr : RegReachable r) :
    (uv_default_loop r).2 = (uv_default_loop r).1.loops 0 ∧
    ((r.loopHead = 0 ∨ (r.loops 0).isSome = true) →
      ∃ l, (uv_default_loop r).2 = some l ∧ l.index = 0) ∧
    ((r.loopHead ≠ 0 ∧ r.loops 0 = none) →
      (uv_default_loop r).2 = none ∧ (uv_default_loop r).1 = r) ∧
    r.loopHead ≤ (uv_loop_new r).2.index ∧
    (∀ i l, r.loops i = some l → l.index < (uv_loop_new r).2.index) ∧
    (uv_loop_new r).1.loopHead = (uv_loop_new r).2.index + 1 ∧
    ((uv_loop_new r).1.loops (uv_loop_new r).2.index).map (fun l => l.index)
      = some (uv_loop_new r).2.index ∧
    r.loopHead ≤ (uv_default_loop r).1.loopHead ∧
    (∀ loop, (uv_loop_delete r loop).loopHead = r.loopHead) := by
  have hidx := RegReachable.indices r hr
  refine ⟨rfl, ?_, ?_, ?_, ?_, ?_, ?_, ?_, fun _ => rfl⟩
  · intro h
    simp only [uv_default_loop]
    by_cases h0 : r.loopHead = 0
    · simp [h0, init, uv_loop_helper]
    · rcases h with h | h
      · exact absurd h h0
      · simp only [h0, if_false]
        obtain ⟨l, hl⟩ := Option.isSome_iff_exists.mp h
        exact ⟨l, hl, (hidx 0 l hl).1⟩
  · rintro ⟨h0, hnone⟩
    simp [uv_default_loop, h0, hnone]
  · simp only [uv_loop_new]
    split <;> simp [uv_loop_helper, init]
  · intro i l hl
    have := hidx i l hl
    simp only [uv_loop_new]
    split <;> simp [uv_loop_helper, init] <;> omega
  · simp only [uv_loop_new]
    split <;> simp [uv_loop_helper, init]
  · simp only [uv_loop_new]
    split <;> simp [uv_loop_helper, init]
  · simp only [uv_default_loop]
    split <;> simp [uv_loop_helper, init]

/-- Witness for C17: the amended statement at the registry in which the
default loop was deleted. -/
theorem C17_registry_indices_witness :
    RegReachable defaultDeleted ∧
    defaultDeleted.loopHead ≤ (uv_loop_new defaultDeleted).2.index ∧
    (uv_loop_new defaultDeleted).2.index = 2 :=
  have hr : RegReachable defaultDeleted :=
    RegReachable.delete (uv_loop_new {}).1 0 { index := 0, numEvents := 0 }
      (RegReachable.new {} RegReachable.start) rfl
  ⟨hr, (C17_registry_indices defaultDeleted hr).2.2.2.1, by decide⟩

/-! ## The timeout passed to `epoll_wait` -/

theorem toInt32_of_range (x : Int) (h1 : -2147483648 ≤ x) (h2 : x < 2147483648) :
    toInt32 x = x := by
  unfold toInt32; omega

theorem tdiv_le_of_le_mul (n tpm timeout : Int) (htpm : 0 < tpm) (ht : 0 ≤ timeout)
    (hn : n ≤ timeout * tpm) : Int.tdiv n tpm ≤ timeout := by
  rcases lt_or_le n 0 with hneg | hpos
  · have := (tdiv_nonpos_iff n tpm htpm).mpr (by omega)
    omega
  · rw [Int.tdiv_eq_ediv hpos (by omega)]
    exact Int.ediv_le_of_le_mul htpm hn

/-- Counterexample for C18: the idle set is empty, the back timer (started
with timeout 1 ms) has deadline 1 ms and the wait phase reads the clock
2147483649 ms later. The whole-millisecond difference `d` is -2147483649, so
`max(0, d)` is 0, but the delay computed is 2147483647: the difference is
narrowed to `int` before the maximum is taken. The delay is also larger than
the timeout the timer was started with. -/
theorem C18_delay_wraps :
    oneShot.loop.idlers.val = [] ∧ oneShot.loop.timers.getLast? = some 1 ∧
    (oneShot.handles 1).timepoint = oneShot.loop.timepoint + 1 * 1000000 ∧
    oneShot.loop.timepoint ≤ 2147483650000000 ∧
    msUntil 1000000 (wait_phase 1000000 oneShot 2147483650000000).1 1 = -2147483649 ∧
    max (-2147483649 : Int) 0 = 0 ∧
    (wait_phase 1000000 oneShot 2147483650000000).2 = 2147483647 := by
  decide

/-- C18 (amended): with `tpm > 0` ticks per millisecond, the delay computed in
the wait phase is 0 if the idle set is non-empty; otherwise, if the timer queue
is non-empty, it is `max(0, d)` for the whole-millisecond difference `d`
between the deadline of the back timer and the refreshed timepoint, provided
`d` lies in the range of `int` (it is narrowed to `int` before the maximum is
taken); otherwise it is -1. If the back timer was started with a timeout
`0 ≤ timeout < 2^31` no later than the refreshed timepoint, and `d` is not
below the range of `int`, the delay is not larger than that timeout. -/
theorem C18_epoll_timeout (tpm : Int) (w : World) (now : Int) (htpm : 0 < tpm) :
    (wait_phase tpm w now).1.loop.timepoint = now ∧
    (w.loop.idlers.val ≠ [] → (wait_phase tpm w now).2 = 0) ∧
    (∀ back, w.loop.idlers.val = [] → w.loop.timers.getLast? = some back →
      -2147483648 ≤ msUntil tpm (wait_phase tpm w now).1 back →
      msUntil tpm (wait_phase tpm w now).1 back < 2147483648 →
      (wait_phase tpm w now).2 = max (msUntil tpm (wait_phase tpm w now).1 back) 0) ∧
    (w.loop.idlers.val = [] → w.loop.timers = [] → (wait_phase tpm w now).2 = -1) ∧
    (∀ back, msUntil tpm (wait_phase tpm w now).1 back
      = Int.tdiv ((w.handles back).timepoint - now) tpm) ∧
    (∀ back start timeout, w.loop.timers.getLast? = some back →
      (w.handles back).timepoint = start + timeout * tpm → start ≤ now →
      0 ≤ timeout → timeout < 2147483648 →
      -2147483648 ≤ msUntil tpm (wait_phase tpm w now).1 back →
      (wait_phase tpm w now).2 ≤ timeout) := by
  have hms : ∀ back, msUntil tpm (wait_phase tpm w now).1 back
      = Int.tdiv ((w.handles back).timepoint - now) tpm := fun _ => rfl
  have hdelay : (wait_phase tpm w now).2
      = if w.loop.idlers.val.length ≠ 0 then 0
        else match w.loop.timers.getLast? with
          | some back => max (toInt32 (msUntil tpm (wait_phase tpm w now).1 back)) 0
          | none => -1 := rfl
  refine ⟨rfl, fun hi => ?_, fun back hi hb h1 h2 => ?_, fun hi ht => ?_, hms,
    fun back start timeout hb htp hstart h0 h31 hlow => ?_⟩
  · have hlen : w.loop.idlers.val.length ≠ 0 := fun h => hi (List.length_eq_zero.mp h)
    rw [hdelay, if_pos hlen]
  · have hlen : ¬ w.loop.idlers.val.length ≠ 0 := by simp [hi]
    rw [hdelay, if_neg hlen, hb]
    simp only
    rw [toInt32_of_range _ h1 h2]
  · have hlen : ¬ w.loop.idlers.val.length ≠ 0 := by simp [hi]
    rw [hdelay, if_neg hlen, ht]
    rfl
  · have hd : msUntil tpm (wait_phase tpm w now).1 back ≤ timeout := by
      rw [hms]
      exact tdiv_le_of_le_mul _ tpm timeout htpm h0 (by rw [htp]; omega)
    by_cases hi : w.loop.idlers.val.length ≠ 0
    · rw [hdelay, if_pos hi]
      exact h0
    · rw [hdelay, if_neg hi, hb]
      simp only
      rw [toInt32_of_range _ hlow (by omega)]
      exact max_le hd h0

/-- Witness for C18: the queue of `threeTimers` with its idle stopped, at
time 4 ms: the back timer (timeout 10 ms) gives a delay of 6 ms. -/
theorem C18_epoll_timeout_witness :
    (0 : Int) < 1000000 ∧
    (wait_phase 1000000 (uv_idle_stop threeTimers 5) 4000000).2 = 6 ∧
    (wait_phase 1000000 (uv_idle_stop threeTimers 5) 4000000).2 ≤ 10 :=
  ⟨by decide, by decide,
   (C18_epoll_timeout 1000000 (uv_idle_stop threeTimers 5) 4000000 (by decide)).2.2.2.2.2
      3 0 10 (by decide) (by decide) (by decide) (by decide) (by decide) (by decide)⟩

/-! ## Order of dispatch within a timer phase -/

theorem applyOp_running_true (tpm : Int) (w : World) (op : Op) (t : Handle)
    (hns : op.stops ≠ some t) (hr : (w.handles t).flags.running = true) :
    ((applyOp tpm w op).handles t).flags.running = true := by
  cases op <;>
    simp [applyOp, Op.stops, uv_close_handles, uv_async_init, uv_async_send, uv_idle_init,
      uv_idle_start, uv_idle_stop, uv_poll_init_socket, uv_poll_start, uv_poll_stop,
      uv_timer_init, uv_timer_start, uv_timer_stop, uv_timer_enqueue_handles,
      apply_ite uv_handle_t.flags, apply_ite Flags.running] at hns ⊢
  all_goals (repeat' split)
  all_goals (try simp)
  all_goals (repeat' split)
  all_goals (try (first | exact hr | (simp_all; done)))
  all_goals exact ⟨fun h => hns h.symm, hr⟩

theorem runOps_running_true (tpm : Int) (t : Handle) (ops : List Op)
    (hops : ∀ op ∈ ops, op.stops ≠ some t) :
    ∀ w : World, (w.handles t).flags.running = true →
      ((runOps tpm w ops).handles t).flags.running = true := by
  induction ops with
  | nil => intro w h; exact h
  | cons op rest ih =>
    intro w h
    rw [runOps_cons]
    exact ih (fun o ho => hops o (List.mem_cons_of_mem _ ho)) _
      (applyOp_running_true tpm w op t (hops op (List.mem_cons_self _ _)) h)

theorem fire_timer_running_true (env : Env) (tpm : Int) (t : Handle)
    (hstop : NeverStops env t) (w : World) (x : Handle)
    (hr : (w.handles t).flags.running = true) :
    ((fire_timer env tpm w x).handles t).flags.running = true := by
  have hinv : ((invoke env tpm w (Call.timer_cb (w.handles x).cb x)).handles t).flags.running
      = true := by
    simp only [invoke]
    exact runOps_running_true tpm t _ (hstop _ _) _ hr
  simp only [fire_timer]
  split
  · split
    · rw [uv_timer_enqueue_handles]
      split
      · rename_i hx; subst hx; exact hinv
      · exact hinv
    · exact hinv
  · exact hr

/-- A timer that is RUNNING and is not stopped by user code is invoked once for
each of its occurrences in the snapshot. -/
theorem fire_fold_count (env : Env) (tpm : Int) (t : Handle) (hstop : NeverStops env t)
    (ready : List Handle) :
    ∀ w : World, (w.handles t).flags.running = true →
      (timerCalls t (ready.foldl (fire_timer env tpm) w).log).length
        = (timerCalls t w.log).length + ready.count t ∧
      ((ready.foldl (fire_timer env tpm) w).handles t).flags.running = true := by
  induction ready with
  | nil => intro w hr; exact ⟨rfl, hr⟩
  | cons x rest ih =>
    intro w hr
    rw [List.foldl_cons]
    obtain ⟨i1, i2⟩ := ih (fire_timer env tpm w x) (fire_timer_running_true env tpm t hstop w x hr)
    refine ⟨?_, i2⟩
    rw [i1, fire_timer_log]
    by_cases hx : x = t
    · subst hx
      simp [timerCalls, List.filter_append, hr, Call.isTimerOf]
      omega
    · have hx2 : ¬ (x == t) = true := by simpa using hx
      by_cases hrx : (w.handles x).flags.running = true
      · simp [timerCalls, List.filter_append, hrx, Call.isTimerOf, hx, List.count_cons, hx2]
      · simp [timerCalls, List.filter_append, hrx, List.count_cons, hx2]

theorem timer_snapshot_eq (tpm : Int) (w : World) (now : Int) (htpm : 0 < tpm) :
    (timer_snapshot tpm w now).2
      = w.loop.timers.reverse.takeWhile
          (fun t => decide ((w.handles t).timepoint < now + tpm)) ∧
    (timer_snapshot tpm w now).1.log = w.log ∧
    (timer_snapshot tpm w now).1.handles = w.handles := by
  have hfun : (fun t => decide (msUntil tpm (w.setL fun l => { l with timepoint := now }) t ≤ 0))
      = fun t => decide ((w.handles t).timepoint < now + tpm) := by
    funext t
    simp only [msUntil, setL_handles, setL_loop, decide_eq_decide]
    rw [tdiv_nonpos_iff _ _ htpm]
    constructor <;> intro h <;> omega
  refine ⟨?_, rfl, rfl⟩
  simp only [timer_snapshot, setL_loop, hfun]
  rw [collect_ready_spec _ _ _ _ (le_refl _)]
  simp

theorem sublist_order (a b : Handle) (s1 s2 m x y : List Handle)
    (hsub : List.Sublist m (s1 ++ b :: s2)) (hm : m = x ++ a :: y)
    (ha : a ∉ s1) (hb : b ∉ s2) : b ∉ y := by
  intro hby
  have h1 : List.Sublist [a, b] m := by
    rw [hm]
    exact ((List.singleton_sublist.mpr hby).cons₂ a).trans (List.sublist_append_right _ _)
  have h2 := h1.trans hsub
  obtain ⟨r1, r2, hr, har, hbr⟩ := List.cons_sublist_iff.mp h2
  have hbr2 : b ∈ r2 := List.singleton_sublist.mp hbr
  rcases List.append_eq_append_iff.mp hr with ⟨c, h3, h4⟩ | ⟨c, h3, h4⟩
  · cases c with
    | nil =>
      simp only [List.append_nil] at h3
      exact ha (h3 ▸ har)
    | cons d c2 =>
      simp only [List.cons_append, List.cons.injEq] at h4
      exact hb (h4.2 ▸ List.mem_append_right _ hbr2)
  · exact ha (h3 ▸ List.mem_append_left _ har)

theorem uv_timer_enqueue_position (tpm : Int) (w : World) (t : Handle) (timeout : Int)
    (hs : TimersSorted w) (hnot : t ∉ w.loop.timers) (hto : timeout ≠ 0)
    (hne : w.loop.timers ≠ []) :
    ∃ pre post, w.loop.timers = pre ++ post ∧
      (uv_timer_enqueue tpm w t timeout).loop.timers = pre ++ t :: post ∧
      (∀ e ∈ pre, w.loop.timepoint + timeout * tpm ≤ (w.handles e).timepoint) ∧
      (∀ e ∈ post, (w.handles e).timepoint < w.loop.timepoint + timeout * tpm) := by
  have hlen : w.loop.timers.length ≠ 0 := fun h => hne (List.length_eq_zero.mp h)
  have hsorted := pairwise_setH_of_not_mem w t
    (fun r => { r with timepoint := w.loop.timepoint + timeout * tpm }) _ hnot hs
  obtain ⟨p, hp⟩ : ∃ p : Handle → Bool, p = (fun b => decide (((w.setH t fun r =>
        { r with timepoint := w.loop.timepoint + timeout * tpm }).handles t).timepoint
      > ((w.setH t fun r =>
        { r with timepoint := w.loop.timepoint + timeout * tpm }).handles b).timepoint)) :=
    ⟨_, rfl⟩
  obtain ⟨_, hlo, hhi⟩ := upper_bound_spec p w.loop.timers
    (by
      rw [hp]
      exact sorted_partitioned
        (fun x => ((w.setH t fun r =>
          { r with timepoint := w.loop.timepoint + timeout * tpm }).handles x).timepoint)
        t w.loop.timers hsorted)
  refine ⟨w.loop.timers.take (upper_bound p w.loop.timers),
    w.loop.timers.drop (upper_bound p w.loop.timers),
    (List.take_append_drop _ _).symm, ?_, ?_, ?_⟩
  · simp only [uv_timer_enqueue, setH_loop]
    rw [if_pos ⟨hlen, hto⟩, hp]
    rfl
  · intro e he
    have hne2 : e ≠ t := fun h => hnot (h ▸ List.mem_of_mem_take he)
    have := hlo e he
    rw [hp] at this
    simp only [setH_handles, if_true, hne2, if_false, decide_eq_false_iff_not] at this
    omega
  · intro e he
    have hne2 : e ≠ t := fun h => hnot (h ▸ List.mem_of_mem_drop he)
    have := hhi e he
    rw [hp] at this
    simp only [setH_handles, if_true, hne2, if_false, decide_eq_true_eq] at this
    omega

theorem uv_timer_start_position (tpm : Int) (w : World) (t : Handle) (cb : Cb)
    (timeout rep : Int) (hs : TimersSorted w) (hnot : t ∉ w.loop.timers) (hto : timeout ≠ 0)
    (hne : w.loop.timers ≠ []) :
    ∃ pre post, w.loop.timers = pre ++ post ∧
      (uv_timer_start tpm w t cb timeout rep).loop.timers = pre ++ t :: post ∧
      (∀ e ∈ pre, w.loop.timepoint + timeout * tpm ≤ (w.handles e).timepoint) ∧
      (∀ e ∈ post, (w.handles e).timepoint < w.loop.timepoint + timeout * tpm) := by
  have hs2 : TimersSorted (w.setH t fun r =>
      { r with cb := cb, repeat_ := rep, flags := { r.flags with running := true } }) :=
    pairwise_setH_of_not_mem w t _ _ hnot hs
  obtain ⟨pre, post, h1, h2, h3, h4⟩ := uv_timer_enqueue_position tpm _ t timeout hs2 hnot hto hne
  refine ⟨pre, post, h1, h2, fun e he => ?_, fun e he => ?_⟩
  · have hne2 : e ≠ t := fun h => hnot (by
      rw [show w.loop.timers = pre ++ post from h1]; exact h ▸ List.mem_append_left _ he)
    have := h3 e he
    simpa [hne2] using this
  · have hne2 : e ≠ t := fun h => hnot (by
      rw [show w.loop.timers = pre ++ post from h1]; exact h ▸ List.mem_append_right _ he)
    have := h4 e he
    simpa [hne2] using this

theorem uv_timer_start_frame (tpm : Int) (w : World) (t : Handle) (cb : Cb)
    (timeout rep : Int) :
    (uv_timer_start tpm w t cb timeout rep).log = w.log ∧
    (∀ e, e ≠ t → (uv_timer_start tpm w t cb timeout rep).handles e = w.handles e) ∧
    ((uv_timer_start tpm w t cb timeout rep).handles t).timepoint
      = w.loop.timepoint + timeout * tpm ∧
    ((uv_timer_start tpm w t cb timeout rep).handles t).flags.running = true ∧
    ((uv_timer_start tpm w t cb timeout rep).handles t).repeat_ = rep ∧
    ((uv_timer_start tpm w t cb timeout rep).handles t).cb = cb ∧
    (uv_timer_start tpm w t cb timeout rep).loop.timepoint = w.loop.timepoint := by
  unfold uv_timer_start uv_timer_enqueue
  simp only [setH_loop]
  split
  · refine ⟨rfl, ?_, by simp, by simp, by simp, by simp, by simp⟩
    intro e he
    simp [he]
  · refine ⟨rfl, ?_, by simp, by simp, by simp, by simp, by simp⟩
    intro e he
    simp [he]

theorem takeWhile_reverse_split (due : Handle → Bool) (pre post : List Handle) (b : Handle)
    (hpost : ∀ e ∈ post, due e = true) (hb : due b = true) :
    (pre ++ b :: post).reverse.takeWhile due
      = post.reverse ++ b :: pre.reverse.takeWhile due := by
  have h1 : (pre ++ b :: post).reverse = post.reverse ++ (b :: pre.reverse) := by simp
  rw [h1, List.takeWhile_append_of_pos (fun e he => hpost e (List.mem_reverse.mp he)),
    List.takeWhile_cons, if_pos hb]

theorem mem_takeWhile_reverse (due : Handle → Bool) (p1 p2 : List Handle) (a : Handle)
    (hp2 : ∀ e ∈ p2, due e = true) (ha : due a = true) :
    a ∈ (p1 ++ a :: p2).reverse.takeWhile due := by
  rw [takeWhile_reverse_split due p1 p2 a hp2 ha]
  simp

theorem isTimerOf_handle (t : Handle) (c : Call) (h : Call.isTimerOf t c = true) :
    c.handle = t := by
  cases c <;> simp_all [Call.isTimerOf, Call.handle]

theorem timerCalls_mem (t : Handle) (L : List Call) (h : 0 < (timerCalls t L).length) :
    t ∈ L.map Call.handle := by
  obtain ⟨c, hc⟩ := List.exists_mem_of_length_pos h
  unfold timerCalls at hc
  rw [List.mem_filter] at hc
  exact List.mem_map.mpr ⟨c, hc.1, isTimerOf_handle t c hc.2⟩

/-- C19: on a sorted queue holding timer `a` with deadline `D`, starting a fresh
timer `b` with a nonzero timeout and the same deadline `D` puts `b` behind `a`
(`a` is nearer the front); when `D` is due in the next timer phase the snapshot
extracts `b` before `a`, no callback of `b` is invoked after a callback of `a`,
and if both are RUNNING and never stopped by user code both callbacks run, so
`b` runs before `a`. -/
theorem C19_ties_insertion_order (env : Env) (tpm : Int) (w : World) (a b : Handle)
    (cb : Cb) (timeout rep now : Int)
    (htpm : 0 < tpm) (hs : TimersSorted w) (ha : a ∈ w.loop.timers)
    (hb : b ∉ w.loop.timers) (hto : timeout ≠ 0)
    (heq : (w.handles a).timepoint = w.loop.timepoint + timeout * tpm)
    (hdue : w.loop.timepoint + timeout * tpm < now + tpm) :
    (∃ pre post, (uv_timer_start tpm w b cb timeout rep).loop.timers = pre ++ b :: post ∧
      a ∈ pre ∧ a ∉ post ∧ b ∉ pre ∧ b ∉ post) ∧
    (∃ s1 s2, (timer_snapshot tpm (uv_timer_start tpm w b cb timeout rep) now).2
        = s1 ++ b :: s2 ∧ a ∈ s2 ∧ a ∉ s1 ∧ b ∉ s1 ∧ b ∉ s2) ∧
    (∃ L, (timer_phase env tpm (uv_timer_start tpm w b cb timeout rep) now).log = w.log ++ L ∧
      (∀ x y, L.map Call.handle = x ++ a :: y → b ∉ y) ∧
      ((w.handles a).flags.running = true → NeverStops env a → NeverStops env b →
        a ∈ L.map Call.handle ∧ b ∈ L.map Call.handle)) := by
  have hne : w.loop.timers ≠ [] := List.ne_nil_of_mem ha
  have hab : a ≠ b := fun h => hb (h ▸ ha)
  obtain ⟨pre, post, hq, hq2, hpre, hpost⟩ :=
    uv_timer_start_position tpm w b cb timeout rep hs hb hto hne
  obtain ⟨hlog, hframe, htp, hrun, _, _, _⟩ := uv_timer_start_frame tpm w b cb timeout rep
  have hbpre : b ∉ pre := fun h => hb (hq ▸ List.mem_append_left _ h)
  have hbpost : b ∉ post := fun h => hb (hq ▸ List.mem_append_right _ h)
  have hapost : a ∉ post := fun h => by
    have := hpost a h
    omega
  have hapre : a ∈ pre := by
    rw [hq] at ha
    rcases List.mem_append.mp ha with h | h
    · exact h
    · exact absurd h hapost
  -- the snapshot
  obtain ⟨hsnap, hslog, hsh⟩ := timer_snapshot_eq tpm (uv_timer_start tpm w b cb timeout rep) now htpm
  have hdueb : decide (((uv_timer_start tpm w b cb timeout rep).handles b).timepoint < now + tpm)
      = true := by
    rw [htp]; exact decide_eq_true hdue
  have hduepost : ∀ e ∈ post,
      decide (((uv_timer_start tpm w b cb timeout rep).handles e).timepoint < now + tpm)
        = true := by
    intro e he
    have hne2 : e ≠ b := fun h => hbpost (h ▸ he)
    rw [hframe e hne2]
    have := hpost e he
    exact decide_eq_true (by omega)
  obtain ⟨p1, p2, hp⟩ := List.append_of_mem hapre
  have hduea : decide (((uv_timer_start tpm w b cb timeout rep).handles a).timepoint < now + tpm)
      = true := by
    rw [hframe a hab, heq]; exact decide_eq_true hdue
  have hduep2 : ∀ e ∈ p2,
      decide (((uv_timer_start tpm w b cb timeout rep).handles e).timepoint < now + tpm)
        = true := by
    intro e he
    have hne2 : e ≠ b := fun h => hbpre (by rw [hp]; exact h ▸ List.mem_append_right _ (List.mem_cons_of_mem _ he))
    rw [hframe e hne2]
    have hsrt : w.loop.timers.Pairwise
        fun x y => (w.handles x).timepoint ≥ (w.handles y).timepoint := hs
    rw [hq, hp] at hsrt
    have h1 := (List.pairwise_append.mp (List.pairwise_append.mp hsrt).1).2.1
    have h2 := (List.pairwise_cons.mp h1).1 e he
    exact decide_eq_true (by omega)
  have hsnap2 : (timer_snapshot tpm (uv_timer_start tpm w b cb timeout rep) now).2
      = post.reverse ++ b :: pre.reverse.takeWhile
          (fun t => decide (((uv_timer_start tpm w b cb timeout rep).handles t).timepoint
            < now + tpm)) := by
    rw [hsnap, hq2]
    exact takeWhile_reverse_split _ pre post b hduepost hdueb
  have has2 : a ∈ pre.reverse.takeWhile
      (fun t => decide (((uv_timer_start tpm w b cb timeout rep).handles t).timepoint
        < now + tpm)) := by
    rw [hp]
    exact mem_takeWhile_reverse _ p1 p2 a hduep2 hduea
  have hbs2 : b ∉ pre.reverse.takeWhile
      (fun t => decide (((uv_timer_start tpm w b cb timeout rep).handles t).timepoint
        < now + tpm)) := fun h =>
    hbpre (List.mem_reverse.mp ((List.takeWhile_sublist _).subset h))
  have has1 : a ∉ post.reverse := fun h => hapost (List.mem_reverse.mp h)
  have hbs1 : b ∉ post.reverse := fun h => hbpost (List.mem_reverse.mp h)
  refine ⟨⟨pre, post, hq2, hapre, hapost, hbpre, hbpost⟩,
    ⟨_, _, hsnap2, has2, has1, hbs1, hbs2⟩, ?_⟩
  -- the phase
  have hlen : (uv_timer_start tpm w b cb timeout rep).loop.timers.length ≠ 0 := by
    rw [hq2]; simp
  have hphase : timer_phase env tpm (uv_timer_start tpm w b cb timeout rep) now
      = (timer_snapshot tpm (uv_timer_start tpm w b cb timeout rep) now).2.foldl
          (fire_timer env tpm)
          (timer_snapshot tpm (uv_timer_start tpm w b cb timeout rep) now).1 := by
    simp only [timer_phase]
    rw [if_pos hlen]
  obtain ⟨L, hL1, hL2, _⟩ := fire_fold_sublist env tpm
    (timer_snapshot tpm (uv_timer_start tpm w b cb timeout rep) now).2
    (timer_snapshot tpm (uv_timer_start tpm w b cb timeout rep) now).1
  rw [hslog, hlog] at hL1
  refine ⟨L, by rw [hphase, hL1], ?_, ?_⟩
  · intro x y hxy
    rw [hsnap2] at hL2
    exact sublist_order a b _ _ _ x y hL2 hxy has1 hbs2
  · intro hra hsa hsb
    have hra2 : ((timer_snapshot tpm (uv_timer_start tpm w b cb timeout rep) now).1.handles a).flags.running = true := by
      rw [hsh, hframe a hab]; exact hra
    have hrb2 : ((timer_snapshot tpm (uv_timer_start tpm w b cb timeout rep) now).1.handles b).flags.running = true := by
      rw [hsh]; exact hrun
    have ca := (fire_fold_count env tpm a hsa
      (timer_snapshot tpm (uv_timer_start tpm w b cb timeout rep) now).2 _ hra2).1
    have cb2 := (fire_fold_count env tpm b hsb
      (timer_snapshot tpm (uv_timer_start tpm w b cb timeout rep) now).2 _ hrb2).1
    rw [hL1, hslog, hlog] at ca cb2
    simp only [timerCalls, List.filter_append, List.length_append] at ca cb2
    have hca : 0 < List.count a (timer_snapshot tpm (uv_timer_start tpm w b cb timeout rep) now).2 :=
      List.count_pos_iff.mpr (by rw [hsnap2]; simp [has2])
    have hcb : 0 < List.count b (timer_snapshot tpm (uv_timer_start tpm w b cb timeout rep) now).2 :=
      List.count_pos_iff.mpr (by rw [hsnap2]; simp)
    exact ⟨timerCalls_mem a L (by unfold timerCalls; omega),
      timerCalls_mem b L (by unfold timerCalls; omega)⟩

theorem C19_ties_insertion_order_witness :
    (uv_timer_start 1000000
      (uv_timer_start 1000000 (uv_timer_init {} 3 0) 3 7 20 0) 1 7 10 0).loop.timers = [3, 1] ∧
    tiedTimers.loop.timers = [3, 1, 2] ∧
    (timer_snapshot 1000000 tiedTimers 10000000).2 = [2, 1] ∧
    (timer_phase quietEnv 1000000 tiedTimers 10000000).log
      = [Call.timer_cb 7 2, Call.timer_cb 7 1] ∧
    ((∃ pre post, tiedTimers.loop.timers = pre ++ 2 :: post ∧
      1 ∈ pre ∧ 1 ∉ post ∧ 2 ∉ pre ∧ 2 ∉ post) ∧
    (∃ s1 s2, (timer_snapshot 1000000 tiedTimers 10000000).2
        = s1 ++ 2 :: s2 ∧ 1 ∈ s2 ∧ 1 ∉ s1 ∧ 2 ∉ s1 ∧ 2 ∉ s2) ∧
    (∃ L, (timer_phase quietEnv 1000000 tiedTimers 10000000).log
        = (uv_timer_start 1000000
            (uv_timer_start 1000000 (uv_timer_init {} 3 0) 3 7 20 0) 1 7 10 0).log ++ L ∧
      (∀ x y, L.map Call.handle = x ++ 1 :: y → 2 ∉ y) ∧
      (((uv_timer_start 1000000
          (uv_timer_start 1000000 (uv_timer_init {} 3 0) 3 7 20 0) 1 7 10 0).handles 1
          ).flags.running = true →
        NeverStops quietEnv 1 → NeverStops quietEnv 2 →
        1 ∈ L.map Call.handle ∧ 2 ∈ L.map Call.handle))) :=
  ⟨by decide, by decide, by decide, by decide,
    C19_ties_insertion_order quietEnv 1000000
      (uv_timer_start 1000000 (uv_timer_start 1000000 (uv_timer_init {} 3 0) 3 7 20 0) 1 7 10 0)
      1 2 7 10 0 10000000 (by decide) (by decide) (by decide) (by decide) (by decide)
      (by decide) (by decide)⟩

/-! ## One-shot timers with timeout 0 -/

theorem uv_timer_enqueue_not_mem (tpm : Int) (w : World) (u t : Handle) (timeout : Int)
    (hne : u ≠ t) (h : t ∉ w.loop.timers) :
    t ∉ (uv_timer_enqueue tpm w u timeout).loop.timers := by
  have hc := (uv_timer_enqueue_effect tpm w u timeout).2.1 t
  rw [if_neg hne, List.count_eq_zero_of_not_mem h] at hc
  exact List.count_eq_zero.mp hc

theorem applyOp_timers_not_mem (tpm : Int) (w : World) (op : Op) (t : Handle)
    (hns : op.starts ≠ some t) (h : t ∉ w.loop.timers) :
    t ∉ (applyOp tpm w op).loop.timers := by
  cases op with
  | timer_start u cb timeout r =>
    have hne : u ≠ t := fun he => hns (by simp [Op.starts, he])
    simp only [applyOp, uv_timer_start]
    exact uv_timer_enqueue_not_mem tpm _ u t timeout hne h
  | timer_stop u =>
    simp only [applyOp, uv_timer_stop, setL_loop, setH_loop]
    exact fun hm => h (List.mem_of_mem_erase hm)
  | close x cb => simp only [applyOp, uv_close_loop]; exact h
  | async_init a cb => simp only [applyOp, uv_async_init, setL_loop, setH_loop]; exact h
  | async_send a =>
    simp only [applyOp, uv_async_send]
    exact h
  | idle_init i => simp only [applyOp, uv_idle_init, setL_loop, setH_loop]; exact h
  | idle_start i cb => simp only [applyOp, uv_idle_start, setL_loop, setH_loop]; exact h
  | idle_stop i => simp only [applyOp, uv_idle_stop, setL_loop, setH_loop]; exact h
  | poll_init_socket p s g f c =>
    simp only [applyOp, uv_poll_init_socket]
    repeat' split
    all_goals exact h
  | poll_start p e cb c =>
    simp only [applyOp, uv_poll_start]
    repeat' split
    all_goals exact h
  | poll_stop p c => simp only [applyOp, uv_poll_stop, setL_loop, setH_loop]; exact h
  | timer_init u now => simp only [applyOp, uv_timer_init, setL_loop, setH_loop]; exact h

theorem runOps_timers_not_mem (tpm : Int) (t : Handle) (ops : List Op)
    (hops : ∀ op ∈ ops, op.starts ≠ some t) :
    ∀ w : World, t ∉ w.loop.timers → t ∉ (runOps tpm w ops).loop.timers := by
  induction ops with
  | nil => intro w h; exact h
  | cons op rest ih =>
    intro w h
    rw [runOps_cons]
    exact ih (fun o ho => hops o (List.mem_cons_of_mem _ ho)) _
      (applyOp_timers_not_mem tpm w op t (hops op (List.mem_cons_self _ _)) h)

theorem applyOp_repeat_eq (tpm : Int) (w : World) (op : Op) (t : Handle)
    (hns : op.starts ≠ some t) :
    ((applyOp tpm w op).handles t).repeat_ = (w.handles t).repeat_ := by
  cases op <;>
    simp [applyOp, Op.starts, uv_close_handles, uv_async_init, uv_async_send, uv_idle_init,
      uv_idle_start, uv_idle_stop, uv_poll_init_socket, uv_poll_start, uv_poll_stop,
      uv_timer_init, uv_timer_start, uv_timer_stop, uv_timer_enqueue_handles,
      apply_ite uv_handle_t.repeat_] at hns ⊢
  all_goals (repeat' split)
  all_goals (try simp)
  all_goals (repeat' split)
  all_goals (first | rfl | simp_all)

theorem runOps_repeat_eq (tpm : Int) (t : Handle) (ops : List Op)
    (hops : ∀ op ∈ ops, op.starts ≠ some t) :
    ∀ w : World, ((runOps tpm w ops).handles t).repeat_ = (w.handles t).repeat_ := by
  induction ops with
  | nil => intro w; rfl
  | cons op rest ih =>
    intro w
    rw [runOps_cons, ih (fun o ho => hops o (List.mem_cons_of_mem _ ho)),
      applyOp_repeat_eq tpm w op t (hops op (List.mem_cons_self _ _))]

theorem NotQueued.nq_neutral (t : Handle) {w w2 : World}
    (ht : w2.loop.timers = w.loop.timers) (hl : w2.log = w.log) :
    Keeps (NotQueued t) (Call.isTimerOf t) w w2 :=
  fun h => ⟨by unfold NotQueued at h ⊢; rw [ht]; exact h, by rw [hl]⟩

theorem NotQueued.nq_invoke {env : Env} {tpm : Int} {t : Handle} (hns : NeverStarts env t)
    (w : World) (c : Call) (hc : Call.isTimerOf t c = false) :
    Keeps (NotQueued t) (Call.isTimerOf t) w (uUV.invoke env tpm w c) := by
  intro h
  unfold uUV.invoke
  refine ⟨runOps_timers_not_mem tpm t _ (hns c _) _ h, ?_⟩
  rw [runOps_log]
  simp [List.filter_append, hc]

theorem NotQueued.nq_poll {env : Env} {tpm : Int} {t : Handle} (hns : NeverStarts env t)
    (w : World) (ready : List epoll_event) :
    Keeps (NotQueued t) (Call.isTimerOf t) w (poll_phase env tpm w ready) := by
  unfold poll_phase
  apply Keeps.kp_foldl
  intro w2 e
  rcases e with ⟨_ | p, ev⟩
  · exact NotQueued.nq_neutral t rfl rfl
  · exact NotQueued.nq_invoke hns w2 _ rfl

theorem NotQueued.nq_async {env : Env} {tpm : Int} {t : Handle} (hns : NeverStarts env t)
    (w : World) : Keeps (NotQueued t) (Call.isTimerOf t) w (async_phase env tpm w) := by
  unfold async_phase
  split
  · obtain ⟨h1, h2, _, _⟩ := async_collect_fields w.loop.asyncs.val (w, [])
    have hc : Keeps (NotQueued t) (Call.isTimerOf t) w (async_collect w w.loop.asyncs.val).1 :=
      NotQueued.nq_neutral t (by rw [async_collect, h1]) (by rw [async_collect, h2])
    refine hc.kp_trans (Keeps.kp_foldl (async_step env tpm) (fun w2 a => ?_) _ _)
    exact NotQueued.nq_invoke hns w2 (Call.async_cb (w2.handles a).cb a) rfl
  · exact Keeps.kp_refl _ _ w

theorem NotQueued.nq_close {env : Env} {tpm : Int} {t : Handle} (hns : NeverStarts env t)
    (w : World) : Keeps (NotQueued t) (Call.isTimerOf t) w (close_phase env tpm w) := by
  unfold close_phase
  split
  · have h0 : Keeps (NotQueued t) (Call.isTimerOf t) w
        (w.setL fun l => { l with closing := [] }) := NotQueued.nq_neutral t rfl rfl
    refine h0.kp_trans (Keeps.kp_foldl _ (fun w2 c => ?_) _ _)
    have h1 : Keeps (NotQueued t) (Call.isTimerOf t) w2 (close_retire w2 c.1) :=
      NotQueued.nq_neutral t rfl rfl
    exact h1.kp_trans (NotQueued.nq_invoke hns _ _ rfl)
  · exact Keeps.kp_refl _ _ w

theorem NotQueued.nq_idle {env : Env} {tpm : Int} {t : Handle} (hns : NeverStarts env t)
    (w : World) : Keeps (NotQueued t) (Call.isTimerOf t) w (idle_phase env tpm w) := by
  unfold idle_phase
  split
  · exact Keeps.kp_foldl (idle_step env tpm)
      (fun w2 x => NotQueued.nq_invoke hns w2 (Call.idle_cb (w2.handles x).cb x) rfl) _ _
  · exact Keeps.kp_refl _ _ w

theorem NotQueued.nq_fire {env : Env} {tpm : Int} {t : Handle} (hns : NeverStarts env t)
    (w : World) (x : Handle) (hx : x ≠ t) :
    Keeps (NotQueued t) (Call.isTimerOf t) w (fire_timer env tpm w x) := by
  simp only [fire_timer]
  split
  · have h1 : Keeps (NotQueued t) (Call.isTimerOf t) w
        (uUV.invoke env tpm w (Call.timer_cb (w.handles x).cb x)) :=
      NotQueued.nq_invoke hns w _ (by simp [Call.isTimerOf, hx])
    split
    · refine h1.kp_trans (fun h => ⟨uv_timer_enqueue_not_mem tpm _ x t _ hx h, ?_⟩)
      rw [uv_timer_enqueue_log]
    · exact h1
  · exact Keeps.kp_refl _ _ w

theorem timer_snapshot_parts (tpm : Int) (w : World) (now : Int) :
    List.Sublist (timer_snapshot tpm w now).2 w.loop.timers.reverse ∧
    List.Sublist (timer_snapshot tpm w now).1.loop.timers w.loop.timers ∧
    (timer_snapshot tpm w now).1.log = w.log ∧
    (timer_snapshot tpm w now).1.handles = w.handles := by
  refine ⟨?_, ?_, rfl, rfl⟩ <;>
    simp only [timer_snapshot, setL_loop] <;>
    rw [collect_ready_spec _ _ _ _ (le_refl _)]
  · simp only [List.nil_append]
    exact List.takeWhile_sublist _
  · have h := (List.dropWhile_sublist
      (fun t => decide (msUntil tpm (w.setL fun l => { l with timepoint := now }) t ≤ 0))
      (l := w.loop.timers.reverse)).reverse
    rw [List.reverse_reverse] at h
    exact h

theorem NotQueued.nq_timer {env : Env} {tpm : Int} {t : Handle} (hns : NeverStarts env t)
    (w : World) (now : Int) :
    Keeps (NotQueued t) (Call.isTimerOf t) w (timer_phase env tpm w now) := by
  unfold timer_phase
  split
  · intro hP
    obtain ⟨h1, h2, h3, _⟩ := timer_snapshot_parts tpm w now
    have hs : Keeps (NotQueued t) (Call.isTimerOf t) w (timer_snapshot tpm w now).1 :=
      fun h => ⟨fun hm => h (h2.subset hm), by rw [h3]⟩
    have hmem : ∀ x ∈ (timer_snapshot tpm w now).2, x ≠ t := by
      intro x hx he
      exact hP (he ▸ List.mem_reverse.mp (h1.subset hx))
    exact (hs.kp_trans (Keeps.kp_foldl_mem _ _
      (fun w2 x hx => NotQueued.nq_fire hns w2 x (hmem x hx)) _)) hP
  · exact Keeps.kp_refl _ _ w

theorem NotQueued.nq_iter {env : Env} {tpm : Int} {t : Handle} (hns : NeverStarts env t)
    (w : World) (inp : IterInput) :
    Keeps (NotQueued t) (Call.isTimerOf t) w (uv_run_iter env tpm w inp) := by
  unfold uv_run_iter
  have hw : Keeps (NotQueued t) (Call.isTimerOf t) (close_phase env tpm w)
      (wait_phase tpm (close_phase env tpm w) inp.nowWait).1 := NotQueued.nq_neutral t rfl rfl
  exact (NotQueued.nq_close hns w).kp_trans
    (hw.kp_trans ((NotQueued.nq_poll hns _ _).kp_trans
      ((NotQueued.nq_async hns _).kp_trans
        ((NotQueued.nq_idle hns _).kp_trans (NotQueued.nq_timer hns _ _)))))

theorem NotQueued.nq_run_loop {env : Env} {tpm : Int} {t : Handle} (hns : NeverStarts env t)
    (inputs : Nat → IterInput) :
    ∀ (left loopIter : Nat) (w : World),
      Keeps (NotQueued t) (Call.isTimerOf t) w (uv_run_loop env tpm inputs left loopIter w) := by
  intro left
  induction left with
  | zero => intro k w; exact Keeps.kp_refl _ _ w
  | succ n ih =>
    intro k w
    unfold uv_run_loop
    split
    · exact (NotQueued.nq_iter hns w (inputs k)).kp_trans (ih (k + 1) _)
    · exact Keeps.kp_refl _ _ w

theorem timer_snapshot_rest (tpm : Int) (w : World) (now : Int) (htpm : 0 < tpm) :
    (timer_snapshot tpm w now).1.loop.timers
      = (w.loop.timers.reverse.dropWhile
          (fun t => decide ((w.handles t).timepoint < now + tpm))).reverse := by
  have hfun : (fun t => decide (msUntil tpm (w.setL fun l => { l with timepoint := now }) t ≤ 0))
      = fun t => decide ((w.handles t).timepoint < now + tpm) := by
    funext t
    simp only [msUntil, setL_handles, setL_loop, decide_eq_decide]
    rw [tdiv_nonpos_iff _ _ htpm]
    constructor <;> intro h <;> omega
  simp only [timer_snapshot, setL_loop, hfun]
  rw [collect_ready_spec _ _ _ _ (le_refl _)]

theorem uv_timer_start_zero_timers (tpm : Int) (w : World) (t : Handle) (cb : Cb) (rep : Int) :
    (uv_timer_start tpm w t cb 0 rep).loop.timers = w.loop.timers ++ [t] := by
  simp [uv_timer_start, uv_timer_enqueue]

theorem timerCalls_nil_of_not_mem (t : Handle) (L : List Call)
    (h : t ∉ L.map Call.handle) : timerCalls t L = [] := by
  unfold timerCalls
  rw [List.filter_eq_nil_iff]
  intro c hc hq
  exact h (List.mem_map.mpr ⟨c, hc, isTimerOf_handle t c hq⟩)

theorem fire_timer_not_queued {env : Env} {tpm : Int} {t : Handle} (hns : NeverStarts env t)
    (w : World) (hrep : (w.handles t).repeat_ = 0) (h : NotQueued t w) :
    NotQueued t (fire_timer env tpm w t) := by
  simp only [fire_timer]
  split
  · have hr : ((uUV.invoke env tpm w (Call.timer_cb (w.handles t).cb t)).handles t).repeat_
        = 0 := by
      unfold uUV.invoke
      rw [runOps_repeat_eq tpm t _ (hns _ _)]
      exact hrep
    rw [if_neg (fun hc => hc.1 hr)]
    unfold uUV.invoke
    exact runOps_timers_not_mem tpm t _ (hns _ _) _ h
  · exact h

theorem timer_phase_back_fires (env : Env) (tpm : Int) (w : World) (t : Handle) (now : Int)
    (q : List Handle) (htpm : 0 < tpm) (hq : w.loop.timers = q ++ [t]) (hnq : t ∉ q)
    (hdue : (w.handles t).timepoint ≤ now) (hrun : (w.handles t).flags.running = true) :
    (∃ rest, (timer_snapshot tpm w now).2 = t :: rest ∧ t ∉ rest) ∧
    NotQueued t (timer_snapshot tpm w now).1 ∧
    (∃ L, (timer_phase env tpm w now).log = w.log ++ Call.timer_cb (w.handles t).cb t :: L ∧
      timerCalls t L = []) ∧
    (NeverStarts env t → (w.handles t).repeat_ = 0 → NotQueued t (timer_phase env tpm w now)) := by
  obtain ⟨hsnap, hslog, hsh⟩ := timer_snapshot_eq tpm w now htpm
  have hrest := timer_snapshot_rest tpm w now htpm
  have hd : decide ((w.handles t).timepoint < now + tpm) = true := decide_eq_true (by omega)
  have hrev : w.loop.timers.reverse = t :: q.reverse := by rw [hq]; simp
  rw [hrev, List.takeWhile_cons, if_pos hd] at hsnap
  rw [hrev, List.dropWhile_cons, if_pos hd] at hrest
  have htr : t ∉ q.reverse.takeWhile (fun t => decide ((w.handles t).timepoint < now + tpm)) :=
    fun h => hnq (List.mem_reverse.mp ((List.takeWhile_sublist _).subset h))
  have hnq1 : NotQueued t (timer_snapshot tpm w now).1 := by
    unfold NotQueued
    rw [hrest]
    exact fun h => hnq (List.mem_reverse.mp
      ((List.dropWhile_sublist _).subset (List.mem_reverse.mp h)))
  have hlen : w.loop.timers.length ≠ 0 := by rw [hq]; simp
  have hphase : timer_phase env tpm w now
      = (q.reverse.takeWhile (fun t => decide ((w.handles t).timepoint < now + tpm))).foldl
          (fire_timer env tpm) (fire_timer env tpm (timer_snapshot tpm w now).1 t) := by
    simp only [timer_phase]
    rw [if_pos hlen, hsnap, List.foldl_cons]
  have hrun1 : ((timer_snapshot tpm w now).1.handles t).flags.running = true := by
    rw [hsh]; exact hrun
  refine ⟨⟨_, hsnap, htr⟩, hnq1, ?_, ?_⟩
  · obtain ⟨L, hL1, hL2, _⟩ := fire_fold_sublist env tpm
      (q.reverse.takeWhile (fun t => decide ((w.handles t).timepoint < now + tpm)))
      (fire_timer env tpm (timer_snapshot tpm w now).1 t)
    refine ⟨L, ?_, timerCalls_nil_of_not_mem t L (fun h => htr (hL2.subset h))⟩
    rw [hphase, hL1, fire_timer_log, if_pos hrun1, hslog, hsh]
    simp
  · intro hns hrep
    rw [hphase]
    have h1 : NotQueued t (fire_timer env tpm (timer_snapshot tpm w now).1 t) :=
      fire_timer_not_queued hns _ (by rw [hsh]; exact hrep) hnq1
    exact (Keeps.kp_foldl_mem (fire_timer env tpm) _
      (fun w2 x hx => NotQueued.nq_fire hns w2 x (fun he => htr (he ▸ hx))) _ h1).1

/-! ## A pending zero-timeout timer and what may happen before its phase -/

theorem upper_bound_loop_prev (p : Handle → Bool) (xs : List Handle) :
    ∀ fuel first len, len ≤ fuel → first + len ≤ xs.length →
      first ≤ upper_bound_loop p xs fuel first len ∧
      upper_bound_loop p xs fuel first len ≤ first + len ∧
      (first < upper_bound_loop p xs fuel first len →
        p (xs.getD (upper_bound_loop p xs fuel first len - 1) 0) = false) := by
  intro fuel
  induction fuel with
  | zero =>
    intro first len hlen hle
    simp only [upper_bound_loop]
    exact ⟨le_refl _, by omega, fun h => absurd h (by omega)⟩
  | succ n ih =>
    intro first len hlen hle
    unfold upper_bound_loop
    by_cases h0 : len = 0
    · simp only [h0, if_true]
      exact ⟨le_refl _, by omega, fun h => absurd h (by omega)⟩
    · simp only [h0, if_false]
      have hhalf : len / 2 < len := Nat.div_lt_self (by omega) (by decide)
      by_cases hp : p (xs.getD (first + len / 2) 0) = true
      · simp only [hp, if_true]
        obtain ⟨i1, i2, i3⟩ := ih first (len / 2) (by omega) (by omega)
        exact ⟨i1, by omega, i3⟩
      · have hpf : p (xs.getD (first + len / 2) 0) = false := by simpa using hp
        simp only [hpf, Bool.false_eq_true, if_false]
        obtain ⟨i1, i2, i3⟩ := ih (first + len / 2 + 1) (len - len / 2 - 1) (by omega) (by omega)
        refine ⟨by omega, by omega, fun _ => ?_⟩
        by_cases heq : upper_bound_loop p xs n (first + len / 2 + 1) (len - len / 2 - 1)
            = first + len / 2 + 1
        · rw [heq]
          simpa using hpf
        · exact i3 (by omega)

/-- On any range, sorted or not, the element just before the position
`upper_bound` returns fails the comparison. -/
theorem upper_bound_prev (p : Handle → Bool) (xs : List Handle) :
    upper_bound p xs ≤ xs.length ∧
    (0 < upper_bound p xs → p (xs.getD (upper_bound p xs - 1) 0) = false) := by
  obtain ⟨_, h2, h3⟩ := upper_bound_loop_prev p xs xs.length 0 xs.length (le_refl _) (by omega)
  exact ⟨by simpa [upper_bound] using h2, h3⟩

theorem Pending.pd_frame {t : Handle} {w1 w2 : World} (h : Pending t w1)
    (ht : w2.loop.timers = w1.loop.timers) (hl : w1.loop.timepoint ≤ w2.loop.timepoint)
    (htp : ∀ e, (w2.handles e).timepoint = (w1.handles e).timepoint)
    (hr : (w1.handles t).flags.running = true → (w2.handles t).flags.running = true)
    (hrep : (w2.handles t).repeat_ = (w1.handles t).repeat_) : Pending t w2 := by
  obtain ⟨front, back, h1, h2, h3, h4, h5, h6⟩ := h
  refine ⟨front, back, ht.trans h1, h2, h3, fun e he => ?_, hr h5, hrep.trans h6⟩
  rw [htp]
  exact le_trans (h4 e he) hl

theorem Pending.pd_stop {t : Handle} {w : World} (h : Pending t w) (x : Handle) (hx : x ≠ t) :
    Pending t (uv_timer_stop w x) := by
  obtain ⟨front, back, h1, h2, h3, h4, h5, h6⟩ := h
  have hh : ∀ e, ((uv_timer_stop w x).handles e).timepoint = (w.handles e).timepoint := by
    intro e
    simp only [uv_timer_stop, setL_handles, setH_handles]
    split <;> simp_all
  have hr : ((uv_timer_stop w x).handles t).flags.running = true := by
    simp only [uv_timer_stop, setL_handles, setH_handles, if_neg (Ne.symm hx)]
    exact h5
  have hrep : ((uv_timer_stop w x).handles t).repeat_ = 0 := by
    simp only [uv_timer_stop, setL_handles, setH_handles, if_neg (Ne.symm hx)]
    exact h6
  have hq : (uv_timer_stop w x).loop.timers = w.loop.timers.erase x := rfl
  have hL : (uv_timer_stop w x).loop.timepoint = w.loop.timepoint := rfl
  by_cases hf : x ∈ front
  · refine ⟨front.erase x, back, ?_, fun hm => h2 (List.mem_of_mem_erase hm), h3,
      fun e he => ?_, hr, hrep⟩
    · rw [hq, h1, List.erase_append_left _ hf]
    · rw [hh, hL]; exact h4 e he
  · refine ⟨front, back.erase x, ?_, h2, fun hm => h3 (List.mem_of_mem_erase hm),
      fun e he => ?_, hr, hrep⟩
    · rw [hq, h1, List.erase_append_right _ hf, List.erase_cons_tail (by simpa using Ne.symm hx)]
    · rw [hh, hL]
      apply h4
      rcases List.mem_cons.mp he with he | he
      · exact he ▸ List.mem_cons_self _ _
      · exact List.mem_cons_of_mem _ (List.mem_of_mem_erase he)

theorem vinsert_append_cases (front suffix : List Handle) (r : Nat) (x : Handle)
    (hr : r ≤ (front ++ suffix).length) :
    (r ≤ front.length ∧ vinsert (front ++ suffix) r x = vinsert front r x ++ suffix) ∨
    (front.length < r ∧
      vinsert (front ++ suffix) r x = front ++ vinsert suffix (r - front.length) x ∧
      (front ++ suffix).getD (r - 1) 0 = suffix.getD (r - front.length - 1) 0 ∧
      r - front.length - 1 < suffix.length) := by
  rw [List.length_append] at hr
  by_cases h : r ≤ front.length
  · left
    refine ⟨h, ?_⟩
    simp only [vinsert]
    rw [List.take_append_of_le_length h, List.drop_append_of_le_length h]
    simp
  · right
    have h2 : front.length < r := by omega
    refine ⟨h2, ?_, ?_, by omega⟩
    · simp only [vinsert]
      rw [List.take_append_eq_append_take, List.drop_append_eq_append_drop,
        List.take_of_length_le (by omega), List.drop_of_length_le (by omega)]
      simp
    · rw [List.getD_eq_getElem _ _ (by rw [List.length_append]; omega),
        List.getD_eq_getElem _ _ (by omega),
        List.getElem_append_right (by omega)]
      congr 1
      omega

theorem Pending.pd_enqueue {tpm : Int} {t : Handle} {w : World} (h : Pending t w)
    (x : Handle) (timeout : Int) (hx : x ∉ w.loop.timers) :
    Pending t (uv_timer_enqueue tpm w x timeout) := by
  obtain ⟨front, back, h1, h2, h3, h4, h5, h6⟩ := h
  have hxt : x ≠ t := fun he => hx (by rw [h1, he]; simp)
  have hxs : ∀ e ∈ t :: back, e ≠ x := fun e he hex =>
    hx (by rw [h1, ← hex]; exact List.mem_append_right _ he)
  have hL : (uv_timer_enqueue tpm w x timeout).loop.timepoint = w.loop.timepoint :=
    (uv_timer_enqueue_fields tpm w x timeout).2.2.2.2.1
  have hother : ∀ e, e ≠ x → (uv_timer_enqueue tpm w x timeout).handles e = w.handles e := by
    intro e he
    rw [uv_timer_enqueue_handles, if_neg he]
  have hxtp : ((uv_timer_enqueue tpm w x timeout).handles x).timepoint
      = w.loop.timepoint + timeout * tpm := (uv_timer_enqueue_effect tpm w x timeout).1
  have hr : ((uv_timer_enqueue tpm w x timeout).handles t).flags.running = true := by
    rw [hother t (Ne.symm hxt)]; exact h5
  have hrep : ((uv_timer_enqueue tpm w x timeout).handles t).repeat_ = 0 := by
    rw [hother t (Ne.symm hxt)]; exact h6
  have hold : ∀ e ∈ t :: back, ((uv_timer_enqueue tpm w x timeout).handles e).timepoint
      ≤ (uv_timer_enqueue tpm w x timeout).loop.timepoint := by
    intro e he
    rw [hother e (hxs e he), hL]
    exact h4 e he
  have hlen : w.loop.timers.length ≠ 0 := by rw [h1]; simp
  by_cases hto : timeout = 0
  · have hq : (uv_timer_enqueue tpm w x timeout).loop.timers = w.loop.timers ++ [x] := by
      simp [uv_timer_enqueue, hto]
    refine ⟨front, back ++ [x], ?_, h2, ?_, ?_, hr, hrep⟩
    · rw [hq, h1]; simp
    · simp [h3, Ne.symm hxt]
    · intro e he
      rcases List.mem_cons.mp he with he | he
      · exact hold e (he ▸ List.mem_cons_self _ _)
      · rcases List.mem_append.mp he with he | he
        · exact hold e (List.mem_cons_of_mem _ he)
        · have hex : e = x := by simpa using he
          rw [hex, hxtp, hL, hto]
          omega
  · obtain ⟨p, hp⟩ : ∃ p : Handle → Bool, p = (fun b => decide (((w.setH x fun r =>
          { r with timepoint := w.loop.timepoint + timeout * tpm }).handles x).timepoint
        > ((w.setH x fun r =>
          { r with timepoint := w.loop.timepoint + timeout * tpm }).handles b).timepoint)) :=
      ⟨_, rfl⟩
    have hq : (uv_timer_enqueue tpm w x timeout).loop.timers
        = vinsert w.loop.timers (upper_bound p w.loop.timers) x := by
      simp only [uv_timer_enqueue, setH_loop]
      rw [if_pos ⟨hlen, hto⟩, hp]
      rfl
    obtain ⟨hub, hprev⟩ := upper_bound_prev p w.loop.timers
    rw [h1] at hq hub hprev
    rcases vinsert_append_cases front (t :: back) (upper_bound p (front ++ t :: back)) x hub
      with ⟨_, hv⟩ | ⟨hlt, hv, hget, hk⟩
    · refine ⟨vinsert front (upper_bound p (front ++ t :: back)) x, back, ?_, ?_, h3, hold,
        hr, hrep⟩
      · rw [hq, hv]
      · simp only [vinsert, List.mem_append, List.mem_cons, not_or]
        exact ⟨fun hm => h2 (List.mem_of_mem_take hm), Ne.symm hxt,
          fun hm => h2 (List.mem_of_mem_drop hm)⟩
    · obtain ⟨k, hk2⟩ : ∃ k, upper_bound p (front ++ t :: back) - front.length = k + 1 :=
        ⟨upper_bound p (front ++ t :: back) - front.length - 1, by omega⟩
      have hk3 : upper_bound p (front ++ t :: back) - front.length - 1 = k := by omega
      rw [hk2] at hv
      rw [hk3] at hget hk
      have hmem : (t :: back).getD k 0 ∈ t :: back := by
        rw [List.getD_eq_getElem _ _ hk]
        exact List.getElem_mem _
      have hpf := hprev (by omega)
      rw [hget, hp] at hpf
      simp only [setH_handles, if_true, if_neg (hxs _ hmem), decide_eq_false_iff_not] at hpf
      have hle := h4 _ hmem
      refine ⟨front, vinsert back k x, ?_, h2, ?_, ?_, hr, hrep⟩
      · rw [hq, hv]
        simp [vinsert]
      · simp only [vinsert, List.mem_append, List.mem_cons, not_or]
        exact ⟨fun hm => h3 (List.mem_of_mem_take hm), Ne.symm hxt,
          fun hm => h3 (List.mem_of_mem_drop hm)⟩
      · intro e he
        have he2 : e = x ∨ e ∈ t :: back := by
          simp only [vinsert, List.mem_cons, List.mem_append] at he ⊢
          rcases he with he | he | he | he
          · exact Or.inr (Or.inl he)
          · exact Or.inr (Or.inr (List.mem_of_mem_take he))
          · exact Or.inl he
          · exact Or.inr (Or.inr (List.mem_of_mem_drop he))
        rcases he2 with he2 | he2
        · rw [he2, hxtp, hL]
          omega
        · exact hold e he2

theorem Undisturbed.ud_pending {tpm : Int} {t : Handle} {w w2 : World}
    (h : Undisturbed tpm t w w2) (hp : Pending t w) : Pending t w2 := by
  induction h with
  | refl => exact hp
  | frame w1 w2 _ ht hl htp hr hrep _ ih => exact ih.pd_frame ht hl htp hr hrep
  | enqueue w1 x timeout _ hx ih => exact ih.pd_enqueue x timeout hx
  | stop w1 x _ hx ih => exact ih.pd_stop x hx

theorem Undisturbed.ud_note {tpm : Int} {t : Handle} {w w1 : World}
    (h : Undisturbed tpm t w w1) (c : Call) (hc : Call.isTimerOf t c = false) :
    Undisturbed tpm t w { w1 with log := w1.log ++ [c] } :=
  Undisturbed.frame w w1 _ h rfl (le_refl _) (fun _ => rfl) (fun h => h) rfl
    (by simp [timerCalls, List.filter_append, hc])

theorem Undisturbed.ud_calls {tpm : Int} {t : Handle} {w w2 : World}
    (h : Undisturbed tpm t w w2) : timerCalls t w2.log = timerCalls t w.log := by
  induction h with
  | refl => rfl
  | frame w1 w2 _ _ _ _ _ _ hl ih => exact hl.trans ih
  | enqueue w1 x timeout _ _ ih => rw [uv_timer_enqueue_log]; exact ih
  | stop w1 x _ _ ih => exact ih

theorem Undisturbed.ud_applyOp {tpm : Int} {t : Handle} {w w1 : World}
    (h : Undisturbed tpm t w w1) (op : Op) (hq : QuietOp t w1 op) :
    Undisturbed tpm t w (applyOp tpm w1 op) := by
  cases op with
  | timer_start u cb timeout r =>
    simp only [applyOp, uv_timer_start]
    refine Undisturbed.enqueue w _ u timeout
      (Undisturbed.frame w w1 _ h rfl (le_refl _) (fun e => ?_) (fun hr => ?_) ?_ rfl) hq.2
    · simp only [setH_handles]; split <;> simp_all
    · simp only [setH_handles, if_neg (Ne.symm hq.1)]; exact hr
    · simp only [setH_handles, if_neg (Ne.symm hq.1)]
  | timer_stop u => exact Undisturbed.stop w w1 u h hq
  | timer_init u now =>
    refine Undisturbed.frame w w1 _ h rfl hq (fun e => ?_) (fun hr => ?_) ?_ (by rw [applyOp_log]) <;>
      simp only [applyOp, uv_timer_init, setL_handles, setH_handles] <;> split <;> simp_all
  | close x cb =>
    refine Undisturbed.frame w w1 _ h (by simp only [applyOp, uv_close_loop]) 
      (by simp only [applyOp, uv_close_loop]; exact le_refl _) (fun e => ?_) (fun hr => ?_) ?_ (by rw [applyOp_log]) <;>
      simp only [applyOp, uv_close_handles] <;> split <;> simp_all
  | async_init a cb =>
    refine Undisturbed.frame w w1 _ h rfl (le_refl _) (fun e => ?_) (fun hr => ?_) ?_ (by rw [applyOp_log]) <;>
      simp only [applyOp, uv_async_init, setL_handles, setH_handles] <;> split <;> simp_all
  | async_send a =>
    refine Undisturbed.frame w w1 _ h rfl (le_refl _) (fun e => ?_) (fun hr => ?_) ?_ (by rw [applyOp_log]) <;>
      simp only [applyOp, uv_async_send, setL_handles, setH_handles] <;> split <;> simp_all
  | idle_init i =>
    refine Undisturbed.frame w w1 _ h rfl (le_refl _) (fun e => ?_) (fun hr => ?_) ?_ (by rw [applyOp_log]) <;>
      simp only [applyOp, uv_idle_init, setL_handles, setH_handles] <;> split <;> simp_all
  | idle_start i cb =>
    refine Undisturbed.frame w w1 _ h rfl (le_refl _) (fun e => ?_) (fun hr => ?_) ?_ (by rw [applyOp_log]) <;>
      simp only [applyOp, uv_idle_start, setL_handles, setH_handles] <;> split <;> simp_all
  | idle_stop i =>
    exact Undisturbed.frame w w1 _ h rfl (le_refl _) (fun e => rfl) (fun hr => hr) rfl rfl
  | poll_init_socket p s g f c =>
    simp only [applyOp, uv_poll_init_socket]
    split
    · exact h
    · split
      · exact h
      · refine Undisturbed.frame w w1 _ h rfl (le_refl _) (fun e => ?_) (fun hr => ?_) ?_ rfl <;>
          simp only [setL_handles, setH_handles] <;> split <;> simp_all
  | poll_start p e cb c =>
    simp only [applyOp, uv_poll_start]
    split
    · refine Undisturbed.frame w w1 _ h rfl (le_refl _) (fun e => ?_) (fun hr => ?_) ?_ rfl <;>
        simp only [setH_handles] <;> split <;> simp_all
    · refine Undisturbed.frame w w1 _ h rfl (le_refl _) (fun e => ?_) (fun hr => ?_) ?_ rfl <;>
        simp only [setH_handles] <;> split <;> simp_all
  | poll_stop p c =>
    have hne : t ≠ p := Ne.symm hq
    refine Undisturbed.frame w w1 _ h rfl (le_refl _) (fun e => ?_) (fun hr => ?_) ?_ (by rw [applyOp_log]) <;>
      simp only [applyOp, uv_poll_stop, setH_handles] 
    · split <;> simp_all
    · rw [if_neg hne]; exact hr
    · rw [if_neg hne]

theorem uv_timer_start_pending (tpm : Int) (w : World) (t : Handle) (cb : Cb)
    (hnot : t ∉ w.loop.timers) : Pending t (uv_timer_start tpm w t cb 0 0) := by
  obtain ⟨_, _, htp, hrun, hrep, _, hL⟩ := uv_timer_start_frame tpm w t cb 0 0
  refine ⟨w.loop.timers, [], uv_timer_start_zero_timers tpm w t cb 0, hnot,
    List.not_mem_nil _, fun e he => ?_, hrun, hrep⟩
  have : e = t := by simpa using he
  rw [this, htp, hL]
  omega

theorem fire_timer_repeat_eq {env : Env} {tpm : Int} {t : Handle} (hns : NeverStarts env t)
    (w : World) (x : Handle) :
    ((fire_timer env tpm w x).handles t).repeat_ = (w.handles t).repeat_ := by
  have hinv : ∀ c, ((uUV.invoke env tpm w c).handles t).repeat_ = (w.handles t).repeat_ := by
    intro c
    unfold uUV.invoke
    rw [runOps_repeat_eq tpm t _ (hns _ _)]
  simp only [fire_timer]
  split
  · split
    · rw [uv_timer_enqueue_handles]
      split
      · rename_i hx
        rw [← hx]
        exact hinv _
      · exact hinv _
    · exact hinv _
  · rfl

theorem fire_timer_unqueued {env : Env} {tpm : Int} {t : Handle} (hns : NeverStarts env t)
    (w : World) (x : Handle)
    (h : NotQueued t w ∧ (w.handles t).repeat_ = 0) :
    NotQueued t (fire_timer env tpm w x) ∧ ((fire_timer env tpm w x).handles t).repeat_ = 0 := by
  refine ⟨?_, by rw [fire_timer_repeat_eq hns]; exact h.2⟩
  by_cases hx : x = t
  · rw [hx]
    exact fire_timer_not_queued hns w h.2 h.1
  · exact (NotQueued.nq_fire hns w x hx h.1).1

theorem fire_fold_unqueued {env : Env} {tpm : Int} {t : Handle} (hns : NeverStarts env t)
    (ready : List Handle) :
    ∀ w : World, NotQueued t w ∧ (w.handles t).repeat_ = 0 →
      NotQueued t (ready.foldl (fire_timer env tpm) w) := by
  induction ready with
  | nil => intro w h; exact h.1
  | cons x rest ih =>
    intro w h
    rw [List.foldl_cons]
    exact ih _ (fire_timer_unqueued hns w x h)

theorem timer_phase_pending (env : Env) (tpm : Int) (w : World) (t : Handle) (now : Int)
    (htpm : 0 < tpm) (hP : Pending t w) (hnow : w.loop.timepoint ≤ now)
    (hstop : NeverStops env t) :
    (∃ s1 s2, (timer_snapshot tpm w now).2 = s1 ++ t :: s2 ∧ t ∉ s1 ∧ t ∉ s2) ∧
    NotQueued t (timer_snapshot tpm w now).1 ∧
    (timerCalls t (timer_phase env tpm w now).log).length
      = (timerCalls t w.log).length + 1 ∧
    (NeverStarts env t → NotQueued t (timer_phase env tpm w now)) := by
  obtain ⟨front, back, h1, h2, h3, h4, h5, h6⟩ := hP
  obtain ⟨hsnap, hslog, hsh⟩ := timer_snapshot_eq tpm w now htpm
  have hrest := timer_snapshot_rest tpm w now htpm
  have hdue : ∀ e ∈ t :: back, decide ((w.handles e).timepoint < now + tpm) = true := by
    intro e he
    have := h4 e he
    exact decide_eq_true (by omega)
  have hdt := hdue t (List.mem_cons_self _ _)
  have hdb : ∀ e ∈ back, decide ((w.handles e).timepoint < now + tpm) = true :=
    fun e he => hdue e (List.mem_cons_of_mem _ he)
  rw [h1, takeWhile_reverse_split _ front back t hdb hdt] at hsnap
  have hrev : (front ++ t :: back).reverse = back.reverse ++ (t :: front.reverse) := by simp
  rw [h1, hrev, List.dropWhile_append_of_pos (fun e he => hdb e (List.mem_reverse.mp he)),
    List.dropWhile_cons, if_pos hdt] at hrest
  have hts2 : t ∉ front.reverse.takeWhile
      (fun t => decide ((w.handles t).timepoint < now + tpm)) :=
    fun h => h2 (List.mem_reverse.mp ((List.takeWhile_sublist _).subset h))
  have hts1 : t ∉ back.reverse := fun h => h3 (List.mem_reverse.mp h)
  have hnq1 : NotQueued t (timer_snapshot tpm w now).1 := by
    unfold NotQueued
    rw [hrest]
    exact fun h => h2 (List.mem_reverse.mp
      ((List.dropWhile_sublist _).subset (List.mem_reverse.mp h)))
  have hlen : w.loop.timers.length ≠ 0 := by rw [h1]; simp
  have hphase : timer_phase env tpm w now
      = (timer_snapshot tpm w now).2.foldl (fire_timer env tpm) (timer_snapshot tpm w now).1 := by
    simp only [timer_phase]
    rw [if_pos hlen]
  refine ⟨⟨_, _, hsnap, hts1, hts2⟩, hnq1, ?_, fun hns => ?_⟩
  · have hc := (fire_fold_count env tpm t hstop (timer_snapshot tpm w now).2
      (timer_snapshot tpm w now).1 (by rw [hsh]; exact h5)).1
    rw [hphase, hc, hslog, hsnap, List.count_append, List.count_cons_self,
      List.count_eq_zero_of_not_mem hts1, List.count_eq_zero_of_not_mem hts2]
  · rw [hphase]
    exact fire_fold_unqueued hns _ _ ⟨hnq1, by rw [hsh]; exact h6⟩

theorem Undisturbed.ud_runOps {tpm : Int} {t : Handle} {w : World} (ops : List Op) :
    ∀ w1 : World, Undisturbed tpm t w w1 → OpsQuiet tpm t w1 ops →
      Undisturbed tpm t w (runOps tpm w1 ops) := by
  induction ops with
  | nil => intro w1 h _; exact h
  | cons op rest ih =>
    intro w1 h hq
    rw [runOps_cons]
    exact ih _ (h.ud_applyOp op hq.1) hq.2

theorem Undisturbed.ud_invoke {env : Env} {tpm : Int} {t : Handle} {w w1 : World}
    (hq : QuietEnv env tpm t) (h : Undisturbed tpm t w w1) (c : Call)
    (hc : Call.isTimerOf t c = false) : Undisturbed tpm t w (uUV.invoke env tpm w1 c) := by
  unfold uUV.invoke
  exact Undisturbed.ud_runOps _ _ (h.ud_note c hc) (hq c _)

theorem Undisturbed.ud_foldl {α : Type} {tpm : Int} {t : Handle} {w : World}
    (step : World → α → World)
    (hstep : ∀ w1 x, Undisturbed tpm t w w1 → Undisturbed tpm t w (step w1 x)) :
    ∀ (xs : List α) (w1 : World), Undisturbed tpm t w w1 →
      Undisturbed tpm t w (xs.foldl step w1) := by
  intro xs
  induction xs with
  | nil => intro w1 h; exact h
  | cons x rest ih => intro w1 h; exact ih _ (hstep w1 x h)

theorem Undisturbed.ud_close {env : Env} {tpm : Int} {t : Handle} {w w1 : World}
    (hq : QuietEnv env tpm t) (h : Undisturbed tpm t w w1) :
    Undisturbed tpm t w (close_phase env tpm w1) := by
  unfold close_phase
  split
  · refine Undisturbed.ud_foldl _ (fun w2 c h2 => ?_) _ _
      (Undisturbed.frame w w1 _ h rfl (le_refl _) (fun _ => rfl) (fun hr => hr) rfl rfl)
    have h3 : Undisturbed tpm t w (close_retire w2 c.1) := by
      refine Undisturbed.frame w w2 _ h2 rfl (le_refl _) (fun e => ?_) (fun hr => ?_) ?_ rfl <;>
        simp only [close_retire, setH_handles, setL_handles] <;> split <;> simp_all
    exact Undisturbed.ud_invoke hq h3 _ rfl
  · exact h

theorem Undisturbed.ud_wait {tpm : Int} {t : Handle} {w w1 : World}
    (h : Undisturbed tpm t w w1) (now : Int) (hnow : w1.loop.timepoint ≤ now) :
    Undisturbed tpm t w (wait_phase tpm w1 now).1 :=
  Undisturbed.frame w w1 _ h rfl hnow (fun _ => rfl) (fun hr => hr) rfl rfl

theorem Undisturbed.ud_poll {env : Env} {tpm : Int} {t : Handle} {w w1 : World}
    (hq : QuietEnv env tpm t) (h : Undisturbed tpm t w w1) (ready : List epoll_event) :
    Undisturbed tpm t w (poll_phase env tpm w1 ready) := by
  unfold poll_phase
  refine Undisturbed.ud_foldl _ (fun w2 e h2 => ?_) _ _ h
  rcases e with ⟨_ | p, ev⟩
  · exact Undisturbed.frame w w2 _ h2 rfl (le_refl _) (fun _ => rfl) (fun hr => hr) rfl rfl
  · exact Undisturbed.ud_invoke hq h2 _ rfl

theorem async_collect_times (xs : List Handle) :
    ∀ acc : World × List Handle,
      let r := xs.foldl
        (fun (acc : World × List Handle) a =>
          if (acc.1.handles a).run then
            (acc.1.setH a fun r => { r with run := false }, acc.2 ++ [a])
          else acc) acc
      ∀ x, (r.1.handles x).timepoint = (acc.1.handles x).timepoint ∧
        (r.1.handles x).repeat_ = (acc.1.handles x).repeat_ := by
  induction xs with
  | nil => intro acc; exact fun _ => ⟨rfl, rfl⟩
  | cons a rest ih =>
    intro acc
    simp only [List.foldl_cons]
    split
    · have h4 := ih (acc.1.setH a fun r => { r with run := false }, acc.2 ++ [a])
      intro x
      rw [(h4 x).1, (h4 x).2]
      simp only [setH_handles]
      split <;> simp_all
    · exact ih acc

theorem Undisturbed.ud_async {env : Env} {tpm : Int} {t : Handle} {w w1 : World}
    (hq : QuietEnv env tpm t) (h : Undisturbed tpm t w w1) :
    Undisturbed tpm t w (async_phase env tpm w1) := by
  unfold async_phase
  split
  · obtain ⟨h1, h2, _, h4⟩ := async_collect_fields w1.loop.asyncs.val (w1, [])
    have h5 := async_collect_times w1.loop.asyncs.val (w1, [])
    have hc : Undisturbed tpm t w (async_collect w1 w1.loop.asyncs.val).1 :=
      Undisturbed.frame w w1 _ h (by rw [async_collect, h1]) (by rw [async_collect, h1])
        (fun e => by rw [async_collect, (h5 e).1])
        (fun hr => by rw [async_collect, (h4 t).1]; exact hr)
        (by rw [async_collect, (h5 t).2]) (by rw [async_collect, h2])
    exact Undisturbed.ud_foldl (async_step env tpm)
      (fun w2 a h2 => Undisturbed.ud_invoke hq h2 (Call.async_cb (w2.handles a).cb a) rfl) _ _ hc
  · exact h

theorem Undisturbed.ud_idle {env : Env} {tpm : Int} {t : Handle} {w w1 : World}
    (hq : QuietEnv env tpm t) (h : Undisturbed tpm t w w1) :
    Undisturbed tpm t w (idle_phase env tpm w1) := by
  unfold idle_phase
  split
  · exact Undisturbed.ud_foldl (idle_step env tpm)
      (fun w2 a h2 => Undisturbed.ud_invoke hq h2 (Call.idle_cb (w2.handles a).cb a) rfl) _ _ h
  · exact h

theorem OpsQuiet.oq_never_stops {tpm : Int} {t : Handle} (ops : List Op) :
    ∀ w : World, OpsQuiet tpm t w ops → ∀ op ∈ ops, op.stops ≠ some t := by
  induction ops with
  | nil => intro w _ op hop; simp at hop
  | cons o rest ih =>
    intro w hq op hop
    rcases List.mem_cons.mp hop with rfl | hop
    · have h1 := hq.1
      cases op <;> simp_all [Op.stops, QuietOp]
    · exact ih _ hq.2 op hop

theorem QuietEnv.qe_never_stops {env : Env} {tpm : Int} {t : Handle} (hq : QuietEnv env tpm t) :
    NeverStops env t :=
  fun c w op hop => OpsQuiet.oq_never_stops _ w (hq c w) op hop

theorem freshStartEnv_quiet : QuietEnv freshStartEnv 1000000 4 := by
  intro c w
  cases c <;> simp only [freshStartEnv, OpsQuiet]
  split
  · trivial
  · rename_i h
    exact ⟨⟨by decide, h⟩, trivial⟩

theorem idle_phase_eq_in (env : Env) (tpm : Int) (w : World) :
    idle_phase env tpm w = idle_phase_in env tpm w w.loop.idlers.val := rfl

theorem idle_fold_calls (env : Env) (tpm : Int) (h : Handle) (order : List Handle)
    (hno : h ∉ order) :
    ∀ w : World, idleCalls h (order.foldl (idle_step env tpm) w).log = idleCalls h w.log := by
  induction order with
  | nil => intro w; rfl
  | cons x rest ih =>
    intro w
    have hx : x ≠ h := fun he => hno (he ▸ List.mem_cons_self _ _)
    rw [List.foldl_cons, ih (fun hm => hno (List.mem_cons_of_mem _ hm))]
    simp [idle_step, invoke_log, idleCalls, List.filter_append, Call.isIdleOf, hx]

theorem pollQuiet_invoke (env : Env) (tpm : Int) (h : Handle) (w : World) (c : Call)
    (hc : Call.isPollOf h c = false) :
    Keeps (fun _ => True) (Call.isPollOf h) w (uUV.invoke env tpm w c) :=
  fun _ => ⟨trivial, by rw [invoke_log]; simp [List.filter_append, hc]⟩

theorem pollQuiet_of_log (h : Handle) {w w2 : World} (hl : w2.log = w.log) :
    Keeps (fun _ => True) (Call.isPollOf h) w w2 :=
  fun _ => ⟨trivial, by rw [hl]⟩

theorem pollQuiet_poll (env : Env) (tpm : Int) (h : Handle) (ready : List epoll_event)
    (hready : ∀ e ∈ ready, e.ptr ≠ some h) (w : World) :
    Keeps (fun _ => True) (Call.isPollOf h) w (poll_phase env tpm w ready) := by
  unfold poll_phase
  refine Keeps.kp_foldl_mem _ _ (fun w2 e he => ?_) w
  have hne := hready e he
  rcases e with ⟨_ | p, ev⟩
  · exact pollQuiet_of_log h rfl
  · have hp : p ≠ h := fun hh => hne (by rw [hh])
    exact pollQuiet_invoke env tpm h w2 _ (by simp [Call.isPollOf, hp])

theorem pollQuiet_close (env : Env) (tpm : Int) (h : Handle) (w : World) :
    Keeps (fun _ => True) (Call.isPollOf h) w (close_phase env tpm w) :=
  fun _ => ⟨trivial, by rw [close_phase_log]; simp [List.filter_append, List.filter_map,
    Function.comp_def, Call.isPollOf]⟩

theorem pollQuiet_async (env : Env) (tpm : Int) (h : Handle) (w : World) :
    Keeps (fun _ => True) (Call.isPollOf h) w (async_phase env tpm w) := by
  unfold async_phase
  split
  · obtain ⟨_, h2, _, _⟩ := async_collect_fields w.loop.asyncs.val (w, [])
    have hc : Keeps (fun _ => True) (Call.isPollOf h) w (async_collect w w.loop.asyncs.val).1 :=
      pollQuiet_of_log h (by rw [async_collect, h2])
    exact hc.kp_trans (Keeps.kp_foldl (async_step env tpm)
      (fun w2 a => pollQuiet_invoke env tpm h w2 (Call.async_cb (w2.handles a).cb a) rfl) _ _)
  · exact Keeps.kp_refl _ _ w

theorem pollQuiet_idle (env : Env) (tpm : Int) (h : Handle) (w : World) :
    Keeps (fun _ => True) (Call.isPollOf h) w (idle_phase env tpm w) := by
  unfold idle_phase
  split
  · exact Keeps.kp_foldl (idle_step env tpm)
      (fun w2 x => pollQuiet_invoke env tpm h w2 (Call.idle_cb (w2.handles x).cb x) rfl) _ _
  · exact Keeps.kp_refl _ _ w

theorem pollQuiet_timer (env : Env) (tpm : Int) (h : Handle) (w : World) (now : Int) :
    Keeps (fun _ => True) (Call.isPollOf h) w (timer_phase env tpm w now) := by
  unfold timer_phase
  split
  · have hs : Keeps (fun _ => True) (Call.isPollOf h) w (timer_snapshot tpm w now).1 :=
      pollQuiet_of_log h (timer_snapshot_parts tpm w now).2.2.1
    refine hs.kp_trans (Keeps.kp_foldl (fire_timer env tpm) (fun w2 x => ?_) _ _)
    intro _
    refine ⟨trivial, ?_⟩
    rw [fire_timer_log]
    split <;> simp [List.filter_append, Call.isPollOf]
  · exact Keeps.kp_refl _ _ w

theorem pollQuiet_iter (env : Env) (tpm : Int) (h : Handle) (w : World) (inp : IterInput)
    (hready : ∀ e ∈ inp.ready, e.ptr ≠ some h) :
    Keeps (fun _ => True) (Call.isPollOf h) w (uv_run_iter env tpm w inp) := by
  unfold uv_run_iter
  have hw : Keeps (fun _ => True) (Call.isPollOf h) (close_phase env tpm w)
      (wait_phase tpm (close_phase env tpm w) inp.nowWait).1 := pollQuiet_of_log h rfl
  exact (pollQuiet_close env tpm h w).kp_trans
    (hw.kp_trans ((pollQuiet_poll env tpm h _ hready _).kp_trans
      ((pollQuiet_async env tpm h _).kp_trans
        ((pollQuiet_idle env tpm h _).kp_trans (pollQuiet_timer env tpm h _ _)))))

theorem pollQuiet_run_loop (env : Env) (tpm : Int) (h : Handle) (inputs : Nat → IterInput)
    (hready : ∀ j, ∀ e ∈ (inputs j).ready, e.ptr ≠ some h) :
    ∀ (left loopIter : Nat) (w : World),
      Keeps (fun _ => True) (Call.isPollOf h) w (uv_run_loop env tpm inputs left loopIter w) := by
  intro left
  induction left with
  | zero => intro k w; exact Keeps.kp_refl _ _ w
  | succ n ih =>
    intro k w
    unfold uv_run_loop
    split
    · exact (pollQuiet_iter env tpm h w (inputs k) (hready k)).kp_trans (ih (k + 1) _)
    · exact Keeps.kp_refl _ _ w

theorem perm_pair_cases (order : List Handle) (a b : Handle) (hab : a ≠ b)
    (hp : order.Perm [a, b]) : order = [a, b] ∨ order = [b, a] := by
  have hlen : order.length = 2 := by simpa using hp.length_eq
  obtain ⟨x, y, rfl⟩ := List.length_eq_two.mp hlen
  have ha : a ∈ [x, y] := hp.symm.subset (by simp)
  have hb : b ∈ [x, y] := hp.symm.subset (by simp)
  simp only [List.mem_cons, List.mem_singleton, List.not_mem_nil, or_false] at ha hb
  rcases ha with ha | ha <;> rcases hb with hb | hb
  · exact absurd (ha.trans hb.symm) hab
  · left; rw [← ha, ← hb]
  · right; rw [← ha, ← hb]
  · exact absurd (ha.trans hb.symm) hab

end uUV
